import Mathlib

/-!
# Offline file restore from a btrfs image (`restore.c`)

A shallow embedding of `restore.c`: the extent copier `copy_one_extent`, the
per-file scan `copy_file`, the directory walk `search_dir` and the part of
`main` that prepares the destination name and starts the walk.

Conventions of the embedding.

* Bytes are naturals; byte strings (names, paths, file contents) are lists.
* `u64` variables are naturals kept below `2 ^ 64` by an explicit `% 2 ^ 64`
  at every addition the code performs on them.
* A C function that returns `int` becomes a function into `Run`: it either
  returns a code together with the world it leaves behind, or reaches
  undefined behaviour (an access outside a fixed-size array), or runs out of
  fuel.  Every loop iteration and every recursive call consumes one unit of
  fuel, so a run that is `timeout` for every amount of fuel is a run of the
  C code that never returns.  The chunk loop inside `copy_one_extent` gets
  its run length as fuel, which always suffices.
* The operating system and the btrfs library are parameters (`Env`): the
  logical-to-physical mapping, the device contents, the byte counts that
  `pread` and `pwrite` report, whether `open` and `mkdir` fail, and the
  subvolume roots.  Memory allocation (`btrfs_alloc_path`, `strdup`) is taken
  to succeed, and messages printed on the way are not modelled.
-/

namespace Restore

/-- Byte strings: names, paths and file contents. -/
abbrev Bytes := List Nat

/-- Conversion of a signed value (`ssize_t`, `int`) to `u64`, as the usual
arithmetic conversions do when it is compared with a `u64`. -/
def to_u64 (x : Int) : Nat := (x % 2 ^ 64).toNat

/-- Conversion of a `u64` to `int` (the low 32 bits, two's complement). -/
def to_int (n : Nat) : Int :=
  if n % 2 ^ 32 < 2 ^ 31 then ((n % 2 ^ 32 : Nat) : Int) else ((n % 2 ^ 32 : Nat) : Int) - 2 ^ 32

/-! ## Constants of the on-disk format -/

/-- Modelled from the spec: the key type DIR_INDEX, declared in `ctree.h`. -/
abbrev BTRFS_DIR_INDEX_KEY : Nat := 96
/-- Modelled from the spec: the key type EXTENT_DATA, declared in `ctree.h`. -/
abbrev BTRFS_EXTENT_DATA_KEY : Nat := 108
/-- Modelled from the spec: the key type ROOT_ITEM, declared in `ctree.h`. -/
abbrev BTRFS_ROOT_ITEM_KEY : Nat := 132
/-- Modelled from the spec: directory entry type "regular file" (`ctree.h`). -/
abbrev BTRFS_FT_REG_FILE : Nat := 1
/-- Modelled from the spec: directory entry type "directory" (`ctree.h`). -/
abbrev BTRFS_FT_DIR : Nat := 2
/-- Modelled from the spec: extent kind "inline" (`ctree.h`). -/
abbrev BTRFS_FILE_EXTENT_INLINE : Nat := 0
/-- Modelled from the spec: extent kind "regular" (`ctree.h`). -/
abbrev BTRFS_FILE_EXTENT_REG : Nat := 1
/-- Modelled from the spec: extent kind "preallocated" (`ctree.h`). -/
abbrev BTRFS_FILE_EXTENT_PREALLOC : Nat := 2
/-- Modelled from the spec: compression tag "none" (`ctree.h`). -/
abbrev BTRFS_COMPRESS_NONE : Nat := 0
/-- Modelled from the spec: object id of the top-level directory of a tree
(`ctree.h`). -/
abbrev BTRFS_FIRST_FREE_OBJECTID : Nat := 256
/-- Modelled from the spec: longest directory entry name, 255 bytes
(`ctree.h`). -/
abbrev BTRFS_NAME_LEN : Nat := 255

/-! ## Data model -/

/-- Record key `(objectid, type, offset)`. -/
structure btrfs_key where
  objectid : Nat
  type : Nat
  offset : Nat
  deriving DecidableEq, Repr

/-- Key order: lexicographic on `(objectid, type, offset)`. -/
def btrfs_key.lt (a b : btrfs_key) : Bool :=
  decide (a.objectid < b.objectid) ||
  (decide (a.objectid = b.objectid) &&
    (decide (a.type < b.type) || (decide (a.type = b.type) && decide (a.offset < b.offset))))

/-- Directory entry record: the name (its declared length is the length of
the list), the file type tag and the location key. -/
structure btrfs_dir_item where
  name : Bytes
  type : Nat
  location : btrfs_key
  deriving DecidableEq, Repr

/-- File extent record as the code reads it: kind, compression tag,
`ram_bytes`, `disk_bytenr`, and the bytes of the leaf that start at
`btrfs_file_extent_inline_start` (a read past the end of the list gives 0). -/
structure btrfs_file_extent_item where
  type : Nat
  compression : Nat
  ram_bytes : Nat
  disk_bytenr : Nat
  inline_data : Bytes
  deriving DecidableEq, Repr

/-- Payload of a leaf item. -/
inductive ItemData where
  | dir (d : btrfs_dir_item)
  | extent (e : btrfs_file_extent_item)
  | other
  deriving DecidableEq, Repr

/-- Leaf item: key and payload. -/
structure Item where
  key : btrfs_key
  data : ItemData
  deriving DecidableEq, Repr

/-- Tree root: its root key (offset 0 for a subvolume, a transaction id for a
snapshot), its leaves in key order, and for each leaf index the error code a
read of that leaf gives (0 when the leaf is readable). -/
structure Root where
  root_key : btrfs_key
  leaves : List (List Item)
  leaf_err : Nat → Int

/-- Position of a scan: `path->nodes[0]` as a leaf index and `path->slots[0]`. -/
structure Cursor where
  leaf : Nat
  slot : Nat
  deriving DecidableEq, Repr

/-- One stripe of a mapping: the device (its file descriptor) and the
physical byte offset. -/
structure btrfs_bio_stripe where
  dev : Nat
  physical : Nat
  deriving DecidableEq, Repr

/-- What `btrfs_map_block` hands back: its return code, the run length it
stores in `*length`, and `multi->stripes` (stripe 0 and the mirrors). -/
structure MapResult where
  ret : Int
  length : Nat
  stripe0 : btrfs_bio_stripe
  mirrors : List btrfs_bio_stripe

/-- Destination file system: the directories made and the files with their
contents, both in creation order. -/
structure DestFS where
  dirs : List Bytes
  files : List (Bytes × Bytes)
  deriving DecidableEq, Repr

/-- The mutable world of the program: the destination file system and the
static transfer buffer `buf`. -/
structure World where
  fs : DestFS
  buf : Bytes
  deriving DecidableEq, Repr

/-- The collaborators of the program: the mapping service, the device
contents, the results of the system calls, the subvolume roots and the flag
`get_snaps`. -/
structure Env where
  map_block : Nat → Nat → MapResult
  dev_data : Nat → Nat → Nat
  pread_done : Nat → Nat → Nat → Int
  pwrite_done : DestFS → Bytes → Nat → Nat → Int
  open_fails : DestFS → Bytes → Bool
  mkdir_fails : DestFS → Bytes → Bool
  read_fs_root : btrfs_key → Except Int Root
  get_snaps : Int

/-- Outcome of running a C function. -/
inductive Run (σ : Type) where
  | ret (code : Int) (s : σ)
  | undefined
  | timeout
  deriving DecidableEq, Repr

/-- Outcome of running a loop nested in a function: the loop is left with a
state, or the function returns from inside it. -/
inductive Flow (σ : Type) where
  | next (s : σ)
  | exit (code : Int) (s : σ)
  | undefined
  | timeout
  deriving DecidableEq, Repr

/-! ## System calls on the destination and the devices -/

/-- Content of the first file named `p` in a file list. -/
def find_file : List (Bytes × Bytes) → Bytes → Option Bytes
  | [], _ => none
  | (k, v) :: rest, p => if k = p then some v else find_file rest p

/-- Replace the content of the first file named `p` in a file list. -/
def set_file : List (Bytes × Bytes) → Bytes → Bytes → List (Bytes × Bytes)
  | [], _, _ => []
  | (k, v) :: rest, p, c => if k = p then (k, c) :: rest else (k, v) :: set_file rest p c

/-- Content of the file `p`, when it exists. -/
def DestFS.read (fs : DestFS) (p : Bytes) : Option Bytes := find_file fs.files p

/-- Replace the content of the file `p`. -/
def DestFS.store (fs : DestFS) (p : Bytes) (c : Bytes) : DestFS :=
  { fs with files := set_file fs.files p c }

/-- Effect of writing `data` at offset `pos` of a file with content `c`: a
gap between the old end and `pos` reads as zeros; nothing changes when `data`
is empty. -/
def write_at (c : Bytes) (pos : Nat) (data : Bytes) : Bytes :=
  if data = [] then c
  else (c.take pos ++ List.replicate (pos - c.length) 0) ++ data ++ c.drop (pos + data.length)

/-- `pwrite(fd, buf, count, pos)`: the environment tells how many bytes are
transferred (`-1` for a failure); that many bytes of `buf`, at most `count`,
reach the file.  A descriptor that names no file gives `-1`. -/
def pwrite (env : Env) (w : World) (fd : Bytes) (count pos : Nat) : Int × World :=
  match w.fs.read fd with
  | none => (-1, w)
  | some c =>
    let done := env.pwrite_done w.fs fd count pos
    (done, { w with fs := w.fs.store fd (write_at c pos (w.buf.take (min done.toNat count))) })

/-- `pread(dev_fd, buf, count, offset)`: the environment tells how many bytes
are transferred (`-1` for a failure); that many bytes of the device, at most
`count`, replace the start of `buf`. -/
def pread (env : Env) (w : World) (dev_fd count offset : Nat) : Int × World :=
  let done := env.pread_done dev_fd count offset
  let n := min done.toNat count
  (done, { w with buf := (List.range n).map (fun i => env.dev_data dev_fd (offset + i))
                          ++ w.buf.drop n })

/-- `open(path, O_CREAT|O_WRONLY, 0644)`: fails when the environment says so;
otherwise the file exists afterwards (an existing file keeps its content,
there is no `O_TRUNC`) and the descriptor names it. -/
def open_creat (env : Env) (w : World) (path : Bytes) : Option World :=
  if env.open_fails w.fs path then none
  else match w.fs.read path with
    | some _ => some w
    | none => some { w with fs := { w.fs with files := w.fs.files ++ [(path, [])] } }

/-- `mkdir(path, 0644)`: fails when the environment says so; otherwise the
directory exists afterwards. -/
def mkdir (env : Env) (w : World) (path : Bytes) : Option World :=
  if env.mkdir_fails w.fs path then none
  else some { w with fs := { w.fs with dirs := w.fs.dirs ++ [path] } }

/-! ## `copy_one_extent` -/

/-- Local variables of `copy_one_extent` together with the world.  `maps`
counts the calls of `btrfs_map_block` made so far (the code itself counts the
successful ones per device in `device->total_ios`). -/
structure CopyState where
  w : World
  pos : Nat
  bytenr : Nat
  dev_bytenr : Nat
  length : Nat
  size_left : Nat
  maps : Nat
  deriving DecidableEq, Repr

/-- The inner loop `while (length) { ... }` of `copy_one_extent`: chunks of
at most 4096 bytes go from the device to the destination.  `done` is a
`ssize_t` and `count` a `u64`, so `done < count` compares `done` converted to
`u64`. -/
def copy_chunks (env : Env) (fd : Bytes) (dev_fd : Nat) : Nat → CopyState → Flow CopyState
  | 0, s => if s.length = 0 then .next s else .timeout
  | fuel + 1, s =>
    if s.length = 0 then .next s
    else
      let count := min 4096 s.length
      let r := pread env s.w dev_fd count s.dev_bytenr
      if to_u64 r.1 < count then .exit (-1) { s with w := r.2 }
      else
        let r2 := pwrite env r.2 fd count s.pos
        if to_u64 r2.1 < count then .exit (-1) { s with w := r2.2 }
        else
          copy_chunks env fd dev_fd fuel
            { s with w := r2.2
                     pos := (s.pos + count) % 2 ^ 64
                     dev_bytenr := (s.dev_bytenr + count) % 2 ^ 64
                     bytenr := (s.bytenr + count) % 2 ^ 64
                     length := s.length - count }

/-- The clamp `if (size_left < length) length = size_left;`: the part of the
returned run that is copied in this round. -/
def clamp_run (size_left length : Nat) : Nat :=
  if size_left < length then size_left else length

/-- The body of `copy_one_extent` from the label `again`: map the remaining
range, clamp the run to what is left, copy it from stripe 0, and start over
while something is left. -/
def copy_one_extent_again (env : Env) (fd : Bytes) : Nat → CopyState → Run CopyState
  | 0, _ => .timeout
  | fuel + 1, s =>
    let m := env.map_block s.bytenr s.size_left
    let s1 := { s with maps := s.maps + 1 }
    if m.ret ≠ 0 then .ret m.ret s1
    else
      let length := clamp_run s.size_left m.length
      let s2 := { s1 with dev_bytenr := m.stripe0.physical
                          length := length
                          size_left := s.size_left - length }
      match copy_chunks env fd m.stripe0.dev length s2 with
      | .timeout => .timeout
      | .undefined => .undefined
      | .exit code s3 => .ret code s3
      | .next s3 => if s3.size_left ≠ 0 then copy_one_extent_again env fd fuel s3 else .ret 0 s3

/-- Initial locals of `copy_one_extent(root, fd, pos, bytenr, size)`. -/
def copy_one_extent_init (w : World) (pos bytenr size : Nat) : CopyState :=
  { w := w, pos := pos, bytenr := bytenr, dev_bytenr := 0, length := 0, size_left := size,
    maps := 0 }

/-- `copy_one_extent(root, fd, pos, bytenr, size)`: return code and world. -/
def copy_one_extent (env : Env) (fuel : Nat) (w : World) (fd : Bytes) (pos bytenr size : Nat) :
    Run World :=
  match copy_one_extent_again env fd fuel (copy_one_extent_init w pos bytenr size) with
  | .ret code s => .ret code s.w
  | .undefined => .undefined
  | .timeout => .timeout

/-! ## The record store -/

/-- Modelled from the spec: the slot a search gives inside one leaf, the
number of leading items whose key is below `k` (`btrfs_search_slot` lives in
`ctree.c`, outside `restore.c`). -/
def lower_bound (l : List Item) (k : btrfs_key) : Nat :=
  (l.takeWhile (fun it => it.key.lt k)).length

/-- Modelled from the spec: descent of `btrfs_search_slot` to the leaf that
would hold `k`: the last leaf whose first key is not above `k`, and in it the
first slot whose key is not below `k` (which may be one past the last item). -/
def search_leaves : List (List Item) → btrfs_key → Nat → Cursor
  | [], _, i => ⟨i, 0⟩
  | [l], k, i => ⟨i, lower_bound l k⟩
  | l :: l2 :: rest, k, i =>
    match l2.head? with
    | some it =>
      if it.key.lt k || decide (it.key = k) then search_leaves (l2 :: rest) k (i + 1)
      else ⟨i, lower_bound l k⟩
    | none => ⟨i, lower_bound l k⟩

/-- Modelled from the spec: `btrfs_search_slot(NULL, root, key, path, 0, 0)`,
"positions at the first record ≥ key".  The result is negative when the leaf
cannot be read, 0 when the key is found and 1 otherwise. -/
def btrfs_search_slot (root : Root) (k : btrfs_key) : Int × Cursor :=
  let cur := search_leaves root.leaves k 0
  if root.leaf_err cur.leaf < 0 then (root.leaf_err cur.leaf, cur)
  else
    match (root.leaves.getD cur.leaf []).get? cur.slot with
    | some it => (if it.key = k then 0 else 1, cur)
    | none => (1, cur)

/-- Modelled from the spec: `btrfs_next_leaf(root, path)`, "moves to the next
leaf; false when exhausted": 1 when there is no further leaf, a negative code
when the next leaf cannot be read, else 0 with the cursor on slot 0 of the next
leaf. -/
def btrfs_next_leaf (root : Root) (cur : Cursor) : Int × Cursor :=
  if cur.leaf + 1 < root.leaves.length then
    if root.leaf_err (cur.leaf + 1) < 0 then (root.leaf_err (cur.leaf + 1), cur)
    else (0, ⟨cur.leaf + 1, 0⟩)
  else (1, cur)

/-- `read_extent_buffer(leaf, dst, ptr, len)`: `len` bytes of the leaf that
start at `ptr`, here given by the bytes `data` found there. -/
def read_extent_buffer (data : Bytes) (len : Nat) : Bytes :=
  (List.range len).map (fun i => data.getD i 0)

/-! ## `copy_file` -/

/-- The scan loop `while (1) { ... }` of `copy_file`.  The inline branch
copies `len` bytes into the 4096-byte `buf`; a `len` outside `0 .. 4096` is an
access outside `buf`.  The branch for a preallocated extent is `continue`,
which goes back to the head of the loop with the slot unchanged. -/
def copy_file_loop (env : Env) (root : Root) (fd : Bytes) (key : btrfs_key) :
    Nat → Cursor → World → Run World
  | 0, _, _ => .timeout
  | fuel + 1, cur, w =>
    let leaf := root.leaves.getD cur.leaf []
    if leaf.length ≤ cur.slot then
      let r := btrfs_next_leaf root cur
      if r.1 < 0 then .ret r.1 w
      else if r.1 ≠ 0 then .ret 0 w
      else copy_file_loop env root fd key fuel r.2 w
    else
      match leaf.get? cur.slot with
      | none => .undefined
      | some it =>
        if it.key.objectid ≠ key.objectid then .ret 0 w
        else if it.key.type ≠ key.type then .ret 0 w
        else
          match it.data with
          | .extent fi =>
            if fi.compression ≠ BTRFS_COMPRESS_NONE then .ret (-1) w
            else if fi.type = BTRFS_FILE_EXTENT_PREALLOC then
              copy_file_loop env root fd key fuel cur w
            else if fi.type = BTRFS_FILE_EXTENT_INLINE then
              let len := to_int fi.ram_bytes
              if len < 0 ∨ 4096 < len then .undefined
              else
                let w1 := { w with buf := read_extent_buffer fi.inline_data len.toNat
                                            ++ w.buf.drop len.toNat }
                let r := pwrite env w1 fd len.toNat it.key.offset
                if r.1 < len then .ret (-1) r.2
                else copy_file_loop env root fd key fuel ⟨cur.leaf, cur.slot + 1⟩ r.2
            else if fi.type = BTRFS_FILE_EXTENT_REG then
              match copy_one_extent env fuel w fd it.key.offset fi.disk_bytenr fi.ram_bytes with
              | .ret code w1 =>
                if code ≠ 0 then .ret code w1
                else copy_file_loop env root fd key fuel ⟨cur.leaf, cur.slot + 1⟩ w1
              | .undefined => .undefined
              | .timeout => .timeout
            else copy_file_loop env root fd key fuel ⟨cur.leaf, cur.slot + 1⟩ w
          | _ => .undefined

/-- The key `copy_file` and `search_dir` search for: the given object id with
the wanted type and offset 0 (`key->offset = 0; key->type = ...`). -/
def scan_key (key : btrfs_key) (type : Nat) : btrfs_key :=
  { key with offset := 0, type := type }

/-- `copy_file(root, fd, key)`. -/
def copy_file (env : Env) (fuel : Nat) (root : Root) (w : World) (fd : Bytes) (key : btrfs_key) :
    Run World :=
  let r := btrfs_search_slot root (scan_key key BTRFS_EXTENT_DATA_KEY)
  if r.1 < 0 then .ret r.1 w
  else copy_file_loop env root fd (scan_key key BTRFS_EXTENT_DATA_KEY) fuel r.2 w

/-! ## `search_dir` -/

/-- The characters of a C string stored in `s`: those before the first NUL. -/
def cstr (s : Bytes) : Bytes := s.takeWhile (fun b => b ≠ 0)

/-- `snprintf(path_name, 4096, "%s/%s", dir, filename)`: the joined path, cut
to the 4095 characters that fit before the terminating NUL. -/
def snprintf_path (dir filename : Bytes) : Bytes := (dir ++ 47 :: filename).take 4095

/-- What the directory branch of `search_dir` decides before `mkdir`. -/
inductive Resolved where
  | fail (code : Int)
  | skip
  | descend (search_root : Root)

/-- The choice of `search_root` in `search_dir`: the current root, or for a
location of type ROOT_ITEM the root read by `btrfs_read_fs_root`, which is
skipped when it is a snapshot (`root_key.offset != 0`) and `get_snaps == 0`. -/
def resolve_root (env : Env) (root : Root) (location : btrfs_key) : Resolved :=
  if location.type = BTRFS_ROOT_ITEM_KEY then
    match env.read_fs_root location with
    | .error e => .fail e
    | .ok search_root =>
      if search_root.root_key.offset ≠ 0 ∧ env.get_snaps = 0 then .skip
      else .descend search_root
  else .descend root

/-- The scan loop `while (1) { ... }` of `search_dir`; the recursive call
`search_dir(search_root, &location, dir)` is the search followed by the loop on
the new root.  The snapshot branch is `continue`, which goes back to the head
of the loop with the slot unchanged.  A name longer than `BTRFS_NAME_LEN` is a
write outside `filename`. -/
def search_dir_loop (env : Env) : Nat → Root → btrfs_key → Bytes → Cursor → World → Run World
  | 0, _, _, _, _, _ => .timeout
  | fuel + 1, root, key, dir, cur, w =>
    let leaf := root.leaves.getD cur.leaf []
    if leaf.length ≤ cur.slot then
      let r := btrfs_next_leaf root cur
      if r.1 < 0 then .ret r.1 w
      else if r.1 ≠ 0 then .ret 0 w
      else search_dir_loop env fuel root key dir r.2 w
    else
      match leaf.get? cur.slot with
      | none => .undefined
      | some it =>
        if it.key.objectid ≠ key.objectid then .ret 0 w
        else if it.key.type ≠ key.type then .ret 0 w
        else
          match it.data with
          | .dir di =>
            if BTRFS_NAME_LEN < di.name.length then .undefined
            else
              let path_name := snprintf_path dir (cstr di.name)
              if di.type = BTRFS_FT_REG_FILE then
                match open_creat env w path_name with
                | none => .ret (-1) w
                | some w1 =>
                  match copy_file env fuel root w1 path_name di.location with
                  | .ret code w2 =>
                    if code ≠ 0 then .ret code w2
                    else search_dir_loop env fuel root key dir ⟨cur.leaf, cur.slot + 1⟩ w2
                  | .undefined => .undefined
                  | .timeout => .timeout
              else if di.type = BTRFS_FT_DIR then
                match resolve_root env root di.location with
                | .fail e => .ret e w
                | .skip => search_dir_loop env fuel root key dir cur w
                | .descend search_root =>
                  match mkdir env w path_name with
                  | none => .ret (-1) w
                  | some w1 =>
                    let r := btrfs_search_slot search_root (scan_key di.location BTRFS_DIR_INDEX_KEY)
                    let sub :=
                      if r.1 < 0 then .ret r.1 w1
                      else search_dir_loop env fuel search_root
                        (scan_key di.location BTRFS_DIR_INDEX_KEY) path_name r.2 w1
                    match sub with
                    | .ret code w2 =>
                      if code ≠ 0 then .ret code w2
                      else search_dir_loop env fuel root key dir ⟨cur.leaf, cur.slot + 1⟩ w2
                    | .undefined => .undefined
                    | .timeout => .timeout
              else search_dir_loop env fuel root key dir ⟨cur.leaf, cur.slot + 1⟩ w
          | _ => .undefined

/-- `search_dir(root, key, dir)`. -/
def search_dir (env : Env) (fuel : Nat) (root : Root) (key : btrfs_key) (dir : Bytes)
    (w : World) : Run World :=
  let r := btrfs_search_slot root (scan_key key BTRFS_DIR_INDEX_KEY)
  if r.1 < 0 then .ret r.1 w
  else search_dir_loop env fuel root (scan_key key BTRFS_DIR_INDEX_KEY) dir r.2 w

/-! ## `main` -/

/-- The loop of `main` that strips the trailing `/` of `dir_name`:
`len = strlen(dir_name); if (dir_name[len - 1] != '/') break;
dir_name[len - 1] = '\0';`.  With `len = 0` the test reads `dir_name[-1]`,
outside the array. -/
def strip_dir_name : Nat → Bytes → Flow Bytes
  | 0, _ => .timeout
  | fuel + 1, dir_name =>
    let len := dir_name.length
    if len = 0 then .undefined
    else if dir_name.getD (len - 1) 0 ≠ 47 then .next dir_name
    else strip_dir_name fuel (dir_name.take (len - 1))

/-- `strncpy(dir_name, arg, 128)` followed by the stripping loop: the name
`main` hands to `search_dir`.  An argument of 128 bytes or more leaves
`dir_name` without a terminating NUL, and `strlen` then reads past the array. -/
def dest_dir_name (fuel : Nat) (arg : Bytes) : Flow Bytes :=
  if 128 ≤ arg.length then .undefined else strip_dir_name fuel arg

/-- `main`, after `getopt` has split the command line into the option
characters `opts` and the remaining arguments `args` (device, directory).
`mounted` is the result of `check_mounted` and `image` the file-system root
that `open_ctree` yields (`none` for `NULL`).  The result code is the value
`main` returns or passes to `exit`. -/
def main (env : Env) (fuel : Nat) (opts : List Nat) (args : List Bytes) (mounted : Int)
    (image : Option Root) (w : World) : Run World :=
  if opts.any (fun c => c ≠ 115) then .ret 1 w
  else
    let env1 := { env with get_snaps := if opts = [] then 0 else 1 }
    match args with
    | _ :: directory :: _ =>
      if mounted < 0 then .ret mounted w
      else if mounted ≠ 0 then .ret (-16) w
      else
        match image with
        | none => .ret 1 w
        | some fs_root =>
          match dest_dir_name fuel directory with
          | .next dir_name =>
            search_dir env1 fuel fs_root ⟨BTRFS_FIRST_FREE_OBJECTID, 0, 0⟩ dir_name w
          | .exit code _ => .ret code w
          | .undefined => .undefined
          | .timeout => .timeout
    | _ => .ret 1 w

/-! ## Concrete inputs used by the evaluated examples -/

/-- The bytes of a string literal. -/
def str (s : String) : Bytes := s.toList.map Char.toNat

/-- An empty destination with a zeroed transfer buffer.  The examples move at
most five bytes at a time, so eight bytes stand for the 4096 zero bytes the
program starts with. -/
def w_empty : World := { fs := { dirs := [], files := [] }, buf := [0, 0, 0, 0, 0, 0, 0, 0] }

/-- A destination in which the file `f` already exists and is empty. -/
def w_file (f : Bytes) : World := { fs := { dirs := [], files := [(f, [])] }, buf := [0, 0, 0, 0, 0, 0, 0, 0] }

/-- An environment in which everything works: logical address `b` is byte `b`
of device 3, the mapping covers every requested range in one run, device byte
`n` holds `n % 251`, reads and writes are complete, `open` and `mkdir`
succeed, there is no subvolume, and snapshots are excluded. -/
def env_ok : Env where
  map_block := fun b len => { ret := 0, length := max len 1, stripe0 := ⟨3, b⟩, mirrors := [] }
  dev_data := fun _ off => off % 251
  pread_done := fun _ count _ => count
  pwrite_done := fun _ _ count _ => count
  open_fails := fun _ _ => false
  mkdir_fails := fun _ _ => false
  read_fs_root := fun _ => .error (-2)
  get_snaps := 0

/-- A tree with the given leaves, all readable, and root key offset `off`. -/
def mk_root (off : Nat) (leaves : List (List Item)) : Root :=
  { root_key := ⟨5, BTRFS_ROOT_ITEM_KEY, off⟩, leaves := leaves, leaf_err := fun _ => 0 }

/-- File 257 with one uncompressed preallocated extent of 4096 bytes. -/
def root_prealloc : Root :=
  mk_root 0 [[⟨⟨257, BTRFS_EXTENT_DATA_KEY, 0⟩,
    .extent ⟨BTRFS_FILE_EXTENT_PREALLOC, BTRFS_COMPRESS_NONE, 4096, 8192, []⟩⟩]]

/-- Top-level directory with the single entry `snap`, a directory whose
location is the root item 258. -/
def root_with_snapshot : Root :=
  mk_root 0 [[⟨⟨256, BTRFS_DIR_INDEX_KEY, 2⟩,
    .dir ⟨str "snap", BTRFS_FT_DIR, ⟨258, BTRFS_ROOT_ITEM_KEY, 0⟩⟩⟩]]

/-- As `env_ok`, and every root item resolves to an empty tree that is a
snapshot (root key offset 7). -/
def env_snapshot : Env := { env_ok with read_fs_root := fun _ => .ok (mk_root 7 []) }

/-- Top-level directory with the single entry `f`, a regular file (object
257) whose extents are an uncompressed preallocated one followed by a
compressed regular one. -/
def root_prealloc_then_compressed : Root :=
  mk_root 0 [[⟨⟨256, BTRFS_DIR_INDEX_KEY, 2⟩,
      .dir ⟨str "f", BTRFS_FT_REG_FILE, ⟨257, 1, 0⟩⟩⟩,
    ⟨⟨257, BTRFS_EXTENT_DATA_KEY, 0⟩,
      .extent ⟨BTRFS_FILE_EXTENT_PREALLOC, BTRFS_COMPRESS_NONE, 4096, 8192, []⟩⟩,
    ⟨⟨257, BTRFS_EXTENT_DATA_KEY, 4096⟩,
      .extent ⟨BTRFS_FILE_EXTENT_REG, 1, 4096, 12288, []⟩⟩]]

/-- As `env_ok`, but every device read fails (`pread` gives `-1`). -/
def env_read_fails : Env := { env_ok with pread_done := fun _ _ _ => -1 }

/-- As `env_ok`, but every destination write fails (`pwrite` gives `-1`). -/
def env_write_fails : Env := { env_ok with pwrite_done := fun _ _ _ _ => -1 }

/-- The subvolume 257: its top-level directory (object 256) holds the regular
file `a.txt` (object 300, inline content `hello`). -/
def root_subvol : Root :=
  mk_root 0 [[⟨⟨256, BTRFS_DIR_INDEX_KEY, 2⟩,
      .dir ⟨str "a.txt", BTRFS_FT_REG_FILE, ⟨300, 1, 0⟩⟩⟩,
    ⟨⟨300, BTRFS_EXTENT_DATA_KEY, 0⟩,
      .extent ⟨BTRFS_FILE_EXTENT_INLINE, BTRFS_COMPRESS_NONE, 5, 0, str "hello"⟩⟩]]

/-- Top-level directory with the single entry `sub`, a directory whose
location is the root item of subvolume 257. -/
def root_with_subvol : Root :=
  mk_root 0 [[⟨⟨256, BTRFS_DIR_INDEX_KEY, 2⟩,
    .dir ⟨str "sub", BTRFS_FT_DIR, ⟨257, BTRFS_ROOT_ITEM_KEY, 0⟩⟩⟩]]

/-- As `env_ok`, and every root item resolves to the subvolume `root_subvol`
(root key offset 0). -/
def env_subvol : Env := { env_ok with read_fs_root := fun _ => .ok root_subvol }

/-- As `env_ok`, with a mapping service that answers every request with a run
of two bytes and names a mirror on device 4. -/
def env_short_runs : Env :=
  { env_ok with
    map_block := fun b _ => { ret := 0, length := 2, stripe0 := ⟨3, b⟩, mirrors := [⟨4, b⟩] } }

/-- As `env_short_runs`, but every device read fails (`pread` gives `-1`). -/
def env_read_fails_short_runs : Env := { env_short_runs with pread_done := fun _ _ _ => -1 }

/-- The scenario of the specification: the top-level directory holds the
regular file `notes.txt` (object 257), whose single extent record, in the next
leaf, is inline at offset 0 with payload `hello`. -/
def root_notes : Root :=
  mk_root 0 [[⟨⟨256, BTRFS_DIR_INDEX_KEY, 2⟩,
      .dir ⟨str "notes.txt", BTRFS_FT_REG_FILE, ⟨257, 1, 0⟩⟩⟩],
    [⟨⟨257, BTRFS_EXTENT_DATA_KEY, 0⟩,
      .extent ⟨BTRFS_FILE_EXTENT_INLINE, BTRFS_COMPRESS_NONE, 5, 0, str "hello"⟩⟩]]

/-- File 257 with two regular extents and a hole between them: four bytes at
offset 0 (logical address 1000) and three bytes at offset 8 (logical address
2000). -/
def root_two_extents : Root :=
  mk_root 0 [[⟨⟨257, BTRFS_EXTENT_DATA_KEY, 0⟩,
      .extent ⟨BTRFS_FILE_EXTENT_REG, BTRFS_COMPRESS_NONE, 4, 1000, []⟩⟩,
    ⟨⟨257, BTRFS_EXTENT_DATA_KEY, 8⟩,
      .extent ⟨BTRFS_FILE_EXTENT_REG, BTRFS_COMPRESS_NONE, 3, 2000, []⟩⟩]]

/-- File 257 with two regular extents whose `ram_bytes` ranges overlap: four
bytes at offset 0 (logical address 1000) and two bytes at offset 2 (logical
address 2000), as left behind when the tail of an extent is overwritten. -/
def root_overlap : Root :=
  mk_root 0 [[⟨⟨257, BTRFS_EXTENT_DATA_KEY, 0⟩,
      .extent ⟨BTRFS_FILE_EXTENT_REG, BTRFS_COMPRESS_NONE, 4, 1000, []⟩⟩,
    ⟨⟨257, BTRFS_EXTENT_DATA_KEY, 2⟩,
      .extent ⟨BTRFS_FILE_EXTENT_REG, BTRFS_COMPRESS_NONE, 2, 2000, []⟩⟩]]

/-- File 257 with one uncompressed inline extent of 5000 bytes, more than the
transfer buffer holds. -/
def root_big_inline : Root :=
  mk_root 0 [[⟨⟨257, BTRFS_EXTENT_DATA_KEY, 0⟩,
      .extent ⟨BTRFS_FILE_EXTENT_INLINE, BTRFS_COMPRESS_NONE, 5000, 0, []⟩⟩]]

/-- The tree `root_notes` with its second leaf unreadable (error -5). -/
def root_notes_unreadable : Root :=
  { root_notes with leaf_err := fun i => if i = 1 then -5 else 0 }

/-- A destination in which the file `f` already exists with content `c`. -/
def w_existing (f c : Bytes) : World :=
  { fs := { dirs := [], files := [(f, c)] }, buf := [0, 0, 0, 0, 0, 0, 0, 0] }

/-- Top-level directory whose single entry, an empty regular file, has the
three-byte name `a`, NUL, `b`. -/
def root_nul_name : Root :=
  mk_root 0 [[⟨⟨256, BTRFS_DIR_INDEX_KEY, 2⟩, .dir ⟨[97, 0, 98], BTRFS_FT_REG_FILE, ⟨257, 1, 0⟩⟩⟩]]

/-- Top-level directory whose single entry is the empty regular file
`0123456789`. -/
def root_digits_name : Root :=
  mk_root 0 [[⟨⟨256, BTRFS_DIR_INDEX_KEY, 2⟩,
    .dir ⟨str "0123456789", BTRFS_FT_REG_FILE, ⟨257, 1, 0⟩⟩⟩]]

/-- A destination directory path of 4090 bytes. -/
def deep_dir : Bytes := List.replicate 4090 97

/-- Top-level directory with the regular files `e` (object 258, inline content
`hi`) and `f` (object 257, one regular extent with compression tag 1) and,
after them, the directory `g`. -/
def root_compressed : Root :=
  mk_root 0 [[⟨⟨256, BTRFS_DIR_INDEX_KEY, 2⟩,
      .dir ⟨str "e", BTRFS_FT_REG_FILE, ⟨258, 1, 0⟩⟩⟩,
    ⟨⟨256, BTRFS_DIR_INDEX_KEY, 3⟩,
      .dir ⟨str "f", BTRFS_FT_REG_FILE, ⟨257, 1, 0⟩⟩⟩,
    ⟨⟨256, BTRFS_DIR_INDEX_KEY, 4⟩,
      .dir ⟨str "g", BTRFS_FT_DIR, ⟨259, 1, 0⟩⟩⟩,
    ⟨⟨257, BTRFS_EXTENT_DATA_KEY, 0⟩,
      .extent ⟨BTRFS_FILE_EXTENT_REG, 1, 4096, 12288, []⟩⟩,
    ⟨⟨258, BTRFS_EXTENT_DATA_KEY, 0⟩,
      .extent ⟨BTRFS_FILE_EXTENT_INLINE, BTRFS_COMPRESS_NONE, 2, 0, str "hi"⟩⟩]]

/-- As `env_ok`, but every device read transfers one byte less than asked. -/
def env_short_read : Env :=
  { env_ok with pread_done := fun _ count _ => (count : Int) - 1 }

/-- The directory entry `d` of `root_mixed`: a directory (object 257). -/
def entry_d : Item :=
  ⟨⟨256, BTRFS_DIR_INDEX_KEY, 2⟩, .dir ⟨str "d", BTRFS_FT_DIR, ⟨257, 1, 0⟩⟩⟩

/-- The directory entry `lnk` of `root_mixed`: a symbolic link (type 7). -/
def entry_lnk : Item :=
  ⟨⟨256, BTRFS_DIR_INDEX_KEY, 3⟩, .dir ⟨str "lnk", 7, ⟨260, 1, 0⟩⟩⟩

/-- The directory entry `z` of `root_mixed`: a regular file (object 259). -/
def entry_z : Item :=
  ⟨⟨256, BTRFS_DIR_INDEX_KEY, 4⟩, .dir ⟨str "z", BTRFS_FT_REG_FILE, ⟨259, 1, 0⟩⟩⟩

/-- A tree of three leaves.  The top-level directory (object 256) holds the
directory `d`, the symbolic link `lnk` and, in the second leaf, the regular
file `z` (inline content `ok`); the directory `d` (object 257) holds the
regular file `x` (object 258, three bytes at logical address 500). -/
def root_mixed : Root :=
  mk_root 0 [[entry_d, entry_lnk],
    [entry_z,
      ⟨⟨257, BTRFS_DIR_INDEX_KEY, 2⟩, .dir ⟨str "x", BTRFS_FT_REG_FILE, ⟨258, 1, 0⟩⟩⟩],
    [⟨⟨258, BTRFS_EXTENT_DATA_KEY, 0⟩,
        .extent ⟨BTRFS_FILE_EXTENT_REG, BTRFS_COMPRESS_NONE, 3, 500, []⟩⟩,
      ⟨⟨259, BTRFS_EXTENT_DATA_KEY, 0⟩,
        .extent ⟨BTRFS_FILE_EXTENT_INLINE, BTRFS_COMPRESS_NONE, 2, 0, str "ok"⟩⟩]]

/-- As `env_ok`, but `mkdir` fails. -/
def env_mkdir_fails : Env := { env_ok with mkdir_fails := fun _ _ => true }

/-- As `env_ok`, but `open` fails. -/
def env_open_fails : Env := { env_ok with open_fails := fun _ _ => true }

/-- The key of the top-level directory, as `main` passes it to `search_dir`. -/
def top_key : btrfs_key := ⟨BTRFS_FIRST_FREE_OBJECTID, 0, 0⟩

/-- The destination after the entry `d` of `root_mixed` has been restored
under `out`. -/
def w_mixed_d : World :=
  { fs := { dirs := [str "out/d"], files := [(str "out/d/x", [249, 250, 0])] },
    buf := [249, 250, 0, 0, 0, 0, 0, 0] }

/-- The destination after all entries of `root_mixed` have been restored
under `out`. -/
def w_mixed_all : World :=
  { fs := { dirs := [str "out/d"],
            files := [(str "out/d/x", [249, 250, 0]), (str "out/z", str "ok")] },
    buf := [111, 107, 0, 0, 0, 0, 0, 0] }

/-- The tree `root_mixed` with its second leaf unreadable (error -5). -/
def root_mixed_unreadable : Root :=
  { root_mixed with leaf_err := fun i => if i = 1 then -5 else 0 }

/-! ## Notions used to state the properties -/

/-- The bytes `n` bytes long that device `dev` holds from offset `off` on. -/
def dev_bytes (env : Env) (dev off n : Nat) : Bytes :=
  (List.range n).map (fun i => env.dev_data dev (off + i))

/-- The `n` bytes stored from logical address `b` on, for a logical address
space with content `L` (addresses are `u64`). -/
def logical_bytes (L : Nat → Nat) (b n : Nat) : Bytes :=
  (List.range n).map (fun i => L ((b + i) % 2 ^ 64))

/-- Every device read and every destination write transfers the full count. -/
def io_complete (env : Env) : Prop :=
  (∀ dev count off, env.pread_done dev count off = count) ∧
  (∀ fs fd count pos, env.pwrite_done fs fd count pos = count)

/-- The mapping service answers every request with success and a run of at
least one byte. -/
def maps_nonempty (env : Env) : Prop :=
  ∀ b len, (env.map_block b len).ret = 0 ∧ 1 ≤ (env.map_block b len).length

/-- The mapping service of `env` exposes the logical content `L` on the range
of `size` bytes at `bytenr`: every request the copier can make there (the rest
of the range from one of its addresses) succeeds with a run of at least one
byte, and on the part of that run inside the request stripe 0 holds the bytes
of `L`, within the 64-bit offsets of the device.  The run may be shorter or
longer than requested; the mirrors are not constrained. -/
def serves (env : Env) (L : Nat → Nat) (bytenr size : Nat) : Prop :=
  (size = 0 → (env.map_block bytenr 0).ret = 0) ∧
  ∀ k, k < size →
    (env.map_block ((bytenr + k) % 2 ^ 64) (size - k)).ret = 0 ∧
    1 ≤ (env.map_block ((bytenr + k) % 2 ^ 64) (size - k)).length ∧
    (env.map_block ((bytenr + k) % 2 ^ 64) (size - k)).stripe0.physical
      + min (size - k) (env.map_block ((bytenr + k) % 2 ^ 64) (size - k)).length ≤ 2 ^ 64 ∧
    ∀ i, i < min (size - k) (env.map_block ((bytenr + k) % 2 ^ 64) (size - k)).length →
      env.dev_data (env.map_block ((bytenr + k) % 2 ^ 64) (size - k)).stripe0.dev
        ((env.map_block ((bytenr + k) % 2 ^ 64) (size - k)).stripe0.physical + i)
        = L ((bytenr + k + i) % 2 ^ 64)

/-- The environment `env` with the mirrors of every mapping replaced by
`mir`; stripe 0, the run length and the return code are kept. -/
def with_mirrors (env : Env) (mir : Nat → Nat → List btrfs_bio_stripe) : Env :=
  { env with map_block := fun b len => { env.map_block b len with mirrors := mir b len } }

/-- The logical content of the examples: address `a` holds `a % 251`. -/
def L_example (a : Nat) : Nat := a % 251

/-- The tree can be read: no leaf gives an error. -/
def readable (root : Root) : Prop := ∀ i, ¬ root.leaf_err i < 0

/-- The items a scan meets from a cursor on: the rest of the current leaf,
then the leaves that follow. -/
def items_from (root : Root) (cur : Cursor) : List Item :=
  (root.leaves.getD cur.leaf []).drop cur.slot ++ (root.leaves.drop (cur.leaf + 1)).flatten

/-- A bound on the iterations a scan makes from a cursor on: one for each
item and one for each leaf still ahead. -/
def scan_steps (root : Root) (cur : Cursor) : Nat :=
  (items_from root cur).length + (root.leaves.length - cur.leaf)

/-- The test that keeps a scan going: the item has the object id and the type
of the search key. -/
def key_matches (key : btrfs_key) (it : Item) : Bool :=
  decide (it.key.objectid = key.objectid) && decide (it.key.type = key.type)

/-- The EXTENT_DATA records of the file `key.objectid` as `copy_file` finds
them: the items from the search position on, up to the first one with another
object id or type. -/
def extent_records (root : Root) (key : btrfs_key) : List Item :=
  (items_from root (btrfs_search_slot root (scan_key key BTRFS_EXTENT_DATA_KEY)).2).takeWhile
    (key_matches (scan_key key BTRFS_EXTENT_DATA_KEY))

/-- The `ram_bytes` of an extent record. -/
def record_len (it : Item) : Nat :=
  match it.data with
  | .extent fi => fi.ram_bytes
  | _ => 0

/-- The bytes of an extent record: for an inline extent the `ram_bytes` bytes
of the payload, for a regular extent the `ram_bytes` bytes stored at its disk
byte address in the logical address space `L`. -/
def record_bytes (L : Nat → Nat) (it : Item) : Bytes :=
  match it.data with
  | .extent fi =>
    if fi.type = BTRFS_FILE_EXTENT_INLINE then read_extent_buffer fi.inline_data fi.ram_bytes
    else if fi.type = BTRFS_FILE_EXTENT_REG then logical_bytes L fi.disk_bytenr fi.ram_bytes
    else []
  | _ => []

/-- The file that results from writing each record's bytes at its offset, in
the order of the list, onto the content `c`. -/
def apply_records (L : Nat → Nat) (c : Bytes) : List Item → Bytes
  | [] => c
  | it :: rest => apply_records L (write_at c it.key.offset (record_bytes L it)) rest

/-- The end of the last byte any record of the list writes (0 when none
writes a byte): the length of the restored file. -/
def final_length : List Item → Nat
  | [] => 0
  | it :: rest =>
    max (if record_len it = 0 then 0 else it.key.offset + record_len it) (final_length rest)

/-- An extent record `copy_file` can copy in full: it is uncompressed; it is
inline with a payload that fits the 4096-byte transfer buffer, or regular with
its range served by the mapping service; and its byte range lies within the
64-bit offsets. -/
def copyable (env : Env) (L : Nat → Nat) (it : Item) : Prop :=
  ∃ fi, it.data = .extent fi ∧ fi.compression = BTRFS_COMPRESS_NONE ∧
    ((fi.type = BTRFS_FILE_EXTENT_INLINE ∧ fi.ram_bytes ≤ 4096) ∨
      (fi.type = BTRFS_FILE_EXTENT_REG ∧ fi.disk_bytenr < 2 ^ 64 ∧
        serves env L fi.disk_bytenr fi.ram_bytes)) ∧
    it.key.offset < 2 ^ 64 ∧ it.key.offset + fi.ram_bytes ≤ 2 ^ 64

/-- The byte ranges of the records do not overlap and follow each other in
the order of the list. -/
def disjoint_ranges (recs : List Item) : Prop :=
  recs.Pairwise (fun a b => a.key.offset + record_len a ≤ b.key.offset)

/-- Nothing of `a` is lost in `b`: every file of `a` still exists in `b` and
every directory of `a` is a directory of `b`. -/
def fs_le (a b : DestFS) : Prop :=
  (∀ p, (a.read p).isSome → (b.read p).isSome) ∧ (∀ d, d ∈ a.dirs → d ∈ b.dirs)

/-- A byte string with all of its trailing `/` removed. -/
def strip_slashes (s : Bytes) : Bytes := s.rdropWhile (fun b => decide (b = 47))

/-- The tree is well formed: no leaf is empty and the keys increase strictly
along the leaves. -/
def well_formed (root : Root) : Prop :=
  (∀ l ∈ root.leaves, l ≠ []) ∧
  root.leaves.flatten.Pairwise (fun a b => a.key.lt b.key = true)

/-- All EXTENT_DATA records of the file `key.objectid` in the tree, in key
order. -/
def file_extents (root : Root) (key : btrfs_key) : List Item :=
  root.leaves.flatten.filter (key_matches (scan_key key BTRFS_EXTENT_DATA_KEY))

/-- The items a scan meets from leaf `j`, slot `slot` of a list of leaves. -/
def items_at (ls : List (List Item)) (j slot : Nat) : List Item :=
  (ls.getD j []).drop slot ++ (ls.drop (j + 1)).flatten

/-- All DIR_INDEX records of the directory `key.objectid` in the tree, in key
order, that is in ascending index order. -/
def dir_entries (root : Root) (key : btrfs_key) : List Item :=
  root.leaves.flatten.filter (key_matches (scan_key key BTRFS_DIR_INDEX_KEY))

/-- The destination path of an entry: the directory path, a `/`, and the
entry name at its full declared length. -/
def entry_path (dir name : Bytes) : Bytes := dir ++ 47 :: name

/-- The record is a directory entry whose name has at most 255 bytes, holds
no NUL byte, and gives a joined path of at most 4095 bytes under `dir`. -/
def entry_fits (dir : Bytes) (it : Item) : Prop :=
  ∃ di, it.data = .dir di ∧ di.name.length ≤ BTRFS_NAME_LEN ∧ 0 ∉ di.name ∧
    dir.length + 1 + di.name.length ≤ 4095

/-- The call `run` returns `code` and leaves the world `w2`, for every amount
of fuel from some bound on. -/
def returns (run : Nat → Run World) (code : Int) (w2 : World) : Prop :=
  ∃ N, ∀ fuel, N ≤ fuel → run fuel = .ret code w2

/-- Handling the directory entry `it` with success takes the world `w` to
`w2`: for a regular file `open` succeeds at the entry path and `copy_file`
returns 0; for a directory the root is resolved and not skipped, `mkdir`
succeeds at the entry path and the nested walk returns 0; an entry of another
type leaves the world as it is. -/
def entry_done (env : Env) (root : Root) (dir : Bytes) (it : Item) (w w2 : World) : Prop :=
  match it.data with
  | .dir di =>
    if di.type = BTRFS_FT_REG_FILE then
      ∃ w1, open_creat env w (entry_path dir di.name) = some w1 ∧
        returns (fun fuel => copy_file env fuel root w1 (entry_path dir di.name) di.location) 0 w2
    else if di.type = BTRFS_FT_DIR then
      ∃ search_root w1, resolve_root env root di.location = .descend search_root ∧
        mkdir env w (entry_path dir di.name) = some w1 ∧
        returns (fun fuel => search_dir env fuel search_root di.location
          (entry_path dir di.name) w1) 0 w2
    else w2 = w
  | _ => False

/-- Handling the entries of the list one after the other, each with success,
takes the world `w` to `w2`. -/
def entries_done (env : Env) (root : Root) (dir : Bytes) : List Item → World → World → Prop
  | [], w, w2 => w2 = w
  | it :: rest, w, w2 =>
    ∃ w1, entry_done env root dir it w w1 ∧ entries_done env root dir rest w1 w2

/-! ## Arithmetic of the conversions -/

theorem to_u64_natCast (n : Nat) (h : n < 2 ^ 64) : to_u64 (n : Int) = n := by
  unfold to_u64
  omega

theorem to_u64_neg_one : to_u64 (-1) = 2 ^ 64 - 1 := by decide

theorem to_int_small (n : Nat) (h : n ≤ 4096) : to_int n = (n : Int) := by
  unfold to_int
  have h1 : n % 2 ^ 32 = n := Nat.mod_eq_of_lt (by omega)
  rw [h1]
  simp only [show n < 2 ^ 31 by omega, if_true]

/-! ## Files as byte lists -/

theorem bytes_ext (a b : Bytes) (hlen : a.length = b.length)
    (h : ∀ p, a.getD p 0 = b.getD p 0) : a = b := by
  apply List.ext_getElem hlen
  intro n h1 h2
  have := h n
  simpa [List.getD_eq_getElem, h1, h2] using this

theorem write_at_length (c : Bytes) (pos : Nat) (d : Bytes) :
    (write_at c pos d).length = if d = [] then c.length else max c.length (pos + d.length) := by
  unfold write_at
  split
  · rfl
  · simp only [List.length_append, List.length_take, List.length_replicate, List.length_drop]
    omega

theorem write_at_getD (c : Bytes) (pos : Nat) (d : Bytes) (p : Nat) :
    (write_at c pos d).getD p 0
      = if pos ≤ p ∧ p < pos + d.length then d.getD (p - pos) 0 else c.getD p 0 := by
  unfold write_at
  split
  · next h =>
    subst h
    have : ¬ (pos ≤ p ∧ p < pos + ([] : Bytes).length) := by
      simp only [List.length_nil]
      omega
    rw [if_neg this]
  · next h =>
    simp only [List.getD_eq_getElem?_getD]
    have hA : (c.take pos ++ List.replicate (pos - c.length) 0).length = pos := by
      simp only [List.length_append, List.length_take, List.length_replicate]
      omega
    by_cases h1 : p < pos
    · rw [if_neg (by omega), List.append_assoc, List.getElem?_append_left (by omega)]
      by_cases h2 : p < c.length
      · rw [List.getElem?_append_left (by simp only [List.length_take]; omega),
          List.getElem?_take_of_lt h1]
      · rw [List.getElem?_append_right (by simp only [List.length_take]; omega),
          List.getElem?_replicate_of_lt (by simp only [List.length_take]; omega),
          List.getElem?_eq_none (by omega)]
        rfl
    · by_cases h3 : p < pos + d.length
      · rw [if_pos ⟨by omega, h3⟩, List.getElem?_append_left
            (by simp only [List.length_append, hA]; omega),
          List.getElem?_append_right (by omega), hA]
      · rw [if_neg (by omega), List.getElem?_append_right
            (by simp only [List.length_append, hA]; omega), List.getElem?_drop]
        simp only [List.length_append, hA]
        congr 2
        omega

theorem write_at_nil (c : Bytes) (pos : Nat) : write_at c pos [] = c := by
  simp [write_at]

theorem write_at_append (c : Bytes) (pos : Nat) (a b : Bytes) :
    write_at (write_at c pos a) (pos + a.length) b = write_at c pos (a ++ b) := by
  apply bytes_ext
  · simp only [write_at_length, List.length_append, List.append_eq_nil]
    by_cases ha : a = [] <;> by_cases hb : b = [] <;> simp [ha, hb]
    omega
  · intro p
    simp only [write_at_getD, List.length_append]
    by_cases h1 : pos ≤ p ∧ p < pos + a.length
    · rw [if_pos h1, if_neg (by omega), if_pos (by omega)]
      simp only [List.getD_eq_getElem?_getD]
      rw [List.getElem?_append_left (by omega)]
    · rw [if_neg h1]
      by_cases h2 : pos + a.length ≤ p ∧ p < pos + a.length + b.length
      · rw [if_pos h2, if_pos (by omega)]
        simp only [List.getD_eq_getElem?_getD]
        rw [List.getElem?_append_right (by omega)]
        congr 2
        omega
      · rw [if_neg h2, if_neg (by omega)]

/-! ## Scans that never advance -/

/-- A scan of `copy_file` that stands on an uncompressed preallocated extent
of the file never leaves it: the loop runs out of every amount of fuel. -/
theorem copy_file_loop_prealloc_stuck (env : Env) (root : Root) (fd : Bytes) (key : btrfs_key)
    (cur : Cursor) (it : Item) (fi : btrfs_file_extent_item)
    (hit : (root.leaves.getD cur.leaf []).get? cur.slot = some it)
    (hobj : it.key.objectid = key.objectid) (htype : it.key.type = key.type)
    (hdata : it.data = .extent fi) (hcomp : fi.compression = BTRFS_COMPRESS_NONE)
    (hpre : fi.type = BTRFS_FILE_EXTENT_PREALLOC) (fuel : Nat) (w : World) :
    copy_file_loop env root fd key fuel cur w = .timeout := by
  induction fuel with
  | zero => rfl
  | succ n ih =>
    have hlt : ¬ (root.leaves.getD cur.leaf []).length ≤ cur.slot := by
      intro hle
      rw [List.get?_eq_none.mpr hle] at hit
      exact Option.noConfusion hit
    rw [copy_file_loop]
    simp only [hlt, if_false, hit, hobj, htype, hdata, hcomp, hpre, ne_eq, not_true_eq_false,
      if_true]
    exact ih

/-- A scan of `search_dir` that stands on a directory entry whose root is a
skipped snapshot never leaves it: the loop runs out of every amount of fuel. -/
theorem search_dir_loop_snapshot_stuck (env : Env) (root : Root) (key : btrfs_key) (dir : Bytes)
    (cur : Cursor) (it : Item) (di : btrfs_dir_item)
    (hit : (root.leaves.getD cur.leaf []).get? cur.slot = some it)
    (hobj : it.key.objectid = key.objectid) (htype : it.key.type = key.type)
    (hdata : it.data = .dir di) (hlen : di.name.length ≤ BTRFS_NAME_LEN)
    (hdir : di.type = BTRFS_FT_DIR) (hskip : resolve_root env root di.location = .skip)
    (fuel : Nat) (w : World) :
    search_dir_loop env fuel root key dir cur w = .timeout := by
  induction fuel with
  | zero => rfl
  | succ n ih =>
    have hlt : ¬ (root.leaves.getD cur.leaf []).length ≤ cur.slot := by
      intro hle
      rw [List.get?_eq_none.mpr hle] at hit
      exact Option.noConfusion hit
    have hlen2 : ¬ BTRFS_NAME_LEN < di.name.length := Nat.not_lt.mpr hlen
    rw [search_dir_loop]
    simp only [hlt, if_false, hit, hobj, htype, hdata, hlen2, hdir, hskip, ne_eq,
      not_true_eq_false]
    simpa using ih

theorem find_set_same (l : List (Bytes × Bytes)) (p c : Bytes) :
    find_file (set_file l p c) p = (find_file l p).map (fun _ => c) := by
  induction l with
  | nil => rfl
  | cons e rest ih =>
    obtain ⟨k, v⟩ := e
    by_cases h : k = p
    · simp [find_file, set_file, h]
    · simp [find_file, set_file, h, ih]

theorem find_set_other (l : List (Bytes × Bytes)) (p q c : Bytes) (hq : q ≠ p) :
    find_file (set_file l p c) q = find_file l q := by
  induction l with
  | nil => rfl
  | cons e rest ih =>
    obtain ⟨k, v⟩ := e
    by_cases h : k = p
    · subst h
      have hkq : ¬ k = q := fun hk => hq hk.symm
      simp [find_file, set_file, hkq]
    · by_cases h2 : k = q
      · subst h2
        simp [find_file, set_file, h]
      · simp [find_file, set_file, h, h2, ih]

theorem set_set (l : List (Bytes × Bytes)) (p c c2 : Bytes) :
    set_file (set_file l p c) p c2 = set_file l p c2 := by
  induction l with
  | nil => rfl
  | cons e rest ih =>
    obtain ⟨k, v⟩ := e
    by_cases h : k = p
    · simp [set_file, h]
    · simp [set_file, h, ih]

theorem set_same (l : List (Bytes × Bytes)) (p c : Bytes) (h : find_file l p = some c) :
    set_file l p c = l := by
  induction l with
  | nil => rfl
  | cons e rest ih =>
    obtain ⟨k, v⟩ := e
    by_cases hk : k = p
    · simp [find_file, hk] at h
      simp [set_file, hk, h]
    · simp [find_file, hk] at h
      simp [set_file, hk, ih h]

theorem read_store (fs : DestFS) (p c0 c : Bytes) (h : fs.read p = some c0) :
    (fs.store p c).read p = some c := by
  unfold DestFS.read DestFS.store at *
  simp only [find_set_same, h, Option.map_some']

theorem store_store (fs : DestFS) (p c c2 : Bytes) :
    (fs.store p c).store p c2 = fs.store p c2 := by
  unfold DestFS.store
  simp only [set_set]

theorem store_same (fs : DestFS) (p c : Bytes) (h : fs.read p = some c) : fs.store p c = fs := by
  unfold DestFS.read at h
  unfold DestFS.store
  rw [set_same _ _ _ h]

theorem dev_bytes_length (env : Env) (dev off n : Nat) : (dev_bytes env dev off n).length = n := by
  simp [dev_bytes]

theorem pread_complete (env : Env) (hio : io_complete env) (w : World) (dev count off : Nat) :
    pread env w dev count off
      = ((count : Int), { w with buf := dev_bytes env dev off count ++ w.buf.drop count }) := by
  unfold pread dev_bytes
  simp only [hio.1, Int.toNat_ofNat, Nat.min_self]

theorem pwrite_complete (env : Env) (hio : io_complete env) (w : World) (fd c : Bytes)
    (count pos : Nat) (h : w.fs.read fd = some c) :
    pwrite env w fd count pos
      = ((count : Int), { w with fs := w.fs.store fd (write_at c pos (w.buf.take count)) }) := by
  unfold pwrite
  simp only [h, hio.2, Int.toNat_ofNat, Nat.min_self]

theorem pwrite_code (env : Env) (hio : io_complete env) (w : World) (fd : Bytes)
    (count pos : Nat) :
    (pwrite env w fd count pos).1 = -1 ∨ (pwrite env w fd count pos).1 = (count : Int) := by
  unfold pwrite
  cases h : w.fs.read fd with
  | none => left; rfl
  | some c => right; simp only [hio.2]

/-- With complete transfers the chunk loop runs to its end: it leaves the
loop with the destination offset and the logical address advanced by the run
length, and the other counters unchanged. -/
theorem copy_chunks_flow (env : Env) (fd : Bytes) (dev : Nat) (hio : io_complete env) :
    ∀ (fuel : Nat) (s : CopyState), s.length ≤ fuel → s.pos < 2 ^ 64 → s.bytenr < 2 ^ 64 →
      ∃ s2, copy_chunks env fd dev fuel s = .next s2 ∧
        s2.pos = (s.pos + s.length) % 2 ^ 64 ∧ s2.bytenr = (s.bytenr + s.length) % 2 ^ 64 ∧
        s2.size_left = s.size_left ∧ s2.maps = s.maps := by
  intro fuel
  induction fuel with
  | zero =>
    intro s hlen hpos hb
    have h0 : s.length = 0 := by omega
    refine ⟨s, ?_, ?_, ?_, rfl, rfl⟩
    · simp only [copy_chunks, h0, if_true]
    · rw [h0, Nat.add_zero, Nat.mod_eq_of_lt hpos]
    · rw [h0, Nat.add_zero, Nat.mod_eq_of_lt hb]
  | succ n ih =>
    intro s hlen hpos hb
    by_cases h0 : s.length = 0
    · refine ⟨s, ?_, ?_, ?_, rfl, rfl⟩
      · simp only [copy_chunks, h0, if_true]
      · rw [h0, Nat.add_zero, Nat.mod_eq_of_lt hpos]
      · rw [h0, Nat.add_zero, Nat.mod_eq_of_lt hb]
    · have hc : min 4096 s.length < 2 ^ 64 := by omega
      have hr : ¬ to_u64 (pread env s.w dev (min 4096 s.length) s.dev_bytenr).1
          < min 4096 s.length := by
        rw [pread_complete env hio, to_u64_natCast _ hc]
        omega
      have hw : ¬ to_u64 (pwrite env (pread env s.w dev (min 4096 s.length) s.dev_bytenr).2 fd
          (min 4096 s.length) s.pos).1 < min 4096 s.length := by
        rcases pwrite_code env hio (pread env s.w dev (min 4096 s.length) s.dev_bytenr).2 fd
          (min 4096 s.length) s.pos with h | h
        · rw [h, to_u64_neg_one]; omega
        · rw [h, to_u64_natCast _ hc]; omega
      rw [copy_chunks]
      simp only [h0, if_false, hr, hw]
      obtain ⟨s2, h1, h2, h3, h4, h5⟩ := ih
        { s with w := (pwrite env (pread env s.w dev (min 4096 s.length) s.dev_bytenr).2 fd
                        (min 4096 s.length) s.pos).2
                 pos := (s.pos + min 4096 s.length) % 2 ^ 64
                 dev_bytenr := (s.dev_bytenr + min 4096 s.length) % 2 ^ 64
                 bytenr := (s.bytenr + min 4096 s.length) % 2 ^ 64
                 length := s.length - min 4096 s.length }
        (by simp only; omega) (by simp only; omega) (by simp only; omega)
      refine ⟨s2, h1, ?_, ?_, h4, h5⟩
      · rw [h2]; simp only; omega
      · rw [h3]; simp only; omega

/-- With complete transfers and runs of at least one byte, `copy_one_extent`
needs no more rounds than bytes: given more fuel than bytes left it returns 0
with the destination offset and the logical address advanced by the size left,
after at least one and at most `max 1 size_left` further mapping requests. -/
theorem copy_one_extent_again_flow (env : Env) (fd : Bytes) (hio : io_complete env)
    (hmap : maps_nonempty env) :
    ∀ (fuel : Nat) (s : CopyState), s.size_left < fuel → s.pos < 2 ^ 64 → s.bytenr < 2 ^ 64 →
      ∃ s2, copy_one_extent_again env fd fuel s = .ret 0 s2 ∧
        s2.pos = (s.pos + s.size_left) % 2 ^ 64 ∧
        s2.bytenr = (s.bytenr + s.size_left) % 2 ^ 64 ∧
        s2.size_left = 0 ∧ s.maps + 1 ≤ s2.maps ∧ s2.maps ≤ s.maps + max 1 s.size_left := by
  intro fuel
  induction fuel with
  | zero => intro s h; omega
  | succ n ih =>
    intro s hlt hpos hb
    obtain ⟨hret, hlen⟩ := hmap s.bytenr s.size_left
    rw [copy_one_extent_again]
    simp only [hret, ne_eq, not_true_eq_false, if_false]
    obtain ⟨s3, h1, h2, h3, h4, h5⟩ := copy_chunks_flow env fd
      (env.map_block s.bytenr s.size_left).stripe0.dev hio
      (clamp_run s.size_left (env.map_block s.bytenr s.size_left).length)
      { s with maps := s.maps + 1
               dev_bytenr := (env.map_block s.bytenr s.size_left).stripe0.physical
               length := clamp_run s.size_left (env.map_block s.bytenr s.size_left).length
               size_left := s.size_left
                 - clamp_run s.size_left (env.map_block s.bytenr s.size_left).length }
      (Nat.le_refl _) hpos hb
    rw [h1]
    simp only [clamp_run] at h2 h3 h4 h5 ⊢
    by_cases hz : s3.size_left = 0
    · simp only [hz, not_true_eq_false, if_false]
      refine ⟨s3, rfl, ?_, ?_, hz, ?_, ?_⟩
      · rw [h2]; congr 2; split at h4 <;> split <;> omega
      · rw [h3]; congr 2; split at h4 <;> split <;> omega
      · omega
      · omega
    · simp only [hz, not_false_eq_true, if_true]
      have hlt3 : s3.size_left < n := by
        rw [h4]; split <;> omega
      have hpos3 : s3.pos < 2 ^ 64 := by rw [h2]; omega
      have hb3 : s3.bytenr < 2 ^ 64 := by rw [h3]; omega
      obtain ⟨s4, k1, k2, k3, k4, k5, k6⟩ := ih s3 hlt3 hpos3 hb3
      refine ⟨s4, k1, ?_, ?_, k4, by omega, ?_⟩
      · rw [k2, h2, h4]; split <;> omega
      · rw [k3, h3, h4]; split <;> omega
      · rw [h5] at k6
        rw [h4] at k6 hz
        split at k6 <;> split at hz <;> omega

theorem io_complete_env_ok : io_complete env_ok := ⟨fun _ _ _ => rfl, fun _ _ _ _ => rfl⟩

theorem maps_nonempty_env_ok : maps_nonempty env_ok :=
  fun _ len => ⟨rfl, Nat.le_max_right len 1⟩

theorem map_range_getD (f : Nat → Nat) (n p : Nat) :
    ((List.range n).map f).getD p 0 = if p < n then f p else 0 := by
  simp only [List.getD_eq_getElem?_getD, List.getElem?_map]
  by_cases h : p < n
  · rw [List.getElem?_range h, if_pos h]; rfl
  · rw [List.getElem?_eq_none (by simp only [List.length_range]; omega), if_neg h]; rfl

theorem map_range_split (f : Nat → Nat) (a b : Nat) :
    (List.range (a + b)).map f = (List.range a).map f ++ (List.range b).map (fun i => f (a + i)) := by
  apply bytes_ext
  · simp
  · intro p
    rw [map_range_getD]
    by_cases h : p < a
    · rw [List.getD_append _ _ _ _ (by simpa using h), map_range_getD, if_pos h, if_pos (by omega)]
    · rw [List.getD_append_right _ _ _ _ (by simp only [List.length_map, List.length_range]; omega),
        map_range_getD]
      simp only [List.length_map, List.length_range]
      by_cases h2 : p < a + b
      · rw [if_pos h2, if_pos (by omega)]; congr 1; omega
      · rw [if_neg h2, if_neg (by omega)]

theorem dev_bytes_split (env : Env) (dev off a b : Nat) :
    dev_bytes env dev off (a + b) = dev_bytes env dev off a ++ dev_bytes env dev (off + a) b := by
  unfold dev_bytes
  rw [map_range_split]
  simp only [Nat.add_assoc]

theorem dev_bytes_zero (env : Env) (dev off : Nat) : dev_bytes env dev off 0 = [] := rfl

/-- With complete transfers the chunk loop writes to the file, at the
destination offset, the bytes the device holds at the device offset. -/
theorem copy_chunks_content (env : Env) (fd : Bytes) (dev : Nat) (hio : io_complete env) :
    ∀ (fuel : Nat) (s : CopyState) (c : Bytes), s.length ≤ fuel → s.w.fs.read fd = some c →
      s.pos + s.length ≤ 2 ^ 64 → s.dev_bytenr + s.length ≤ 2 ^ 64 →
      ∃ s2, copy_chunks env fd dev fuel s = .next s2 ∧
        s2.w.fs = s.w.fs.store fd (write_at c s.pos (dev_bytes env dev s.dev_bytenr s.length)) := by
  intro fuel
  induction fuel with
  | zero =>
    intro s c hlen hc hpos hdev
    have h0 : s.length = 0 := by omega
    refine ⟨s, ?_, ?_⟩
    · simp only [copy_chunks, h0, if_true]
    · rw [h0, dev_bytes_zero, write_at_nil, store_same _ _ _ hc]
  | succ n ih =>
    intro s c hlen hc hpos hdev
    by_cases h0 : s.length = 0
    · refine ⟨s, ?_, ?_⟩
      · simp only [copy_chunks, h0, if_true]
      · rw [h0, dev_bytes_zero, write_at_nil, store_same _ _ _ hc]
    · have hc64 : min 4096 s.length < 2 ^ 64 := by omega
      have hrd := pread_complete env hio s.w dev (min 4096 s.length) s.dev_bytenr
      have hwr := pwrite_complete env hio
        { s.w with buf := dev_bytes env dev s.dev_bytenr (min 4096 s.length)
                            ++ s.w.buf.drop (min 4096 s.length) } fd c (min 4096 s.length) s.pos hc
      have htake : (dev_bytes env dev s.dev_bytenr (min 4096 s.length)
          ++ s.w.buf.drop (min 4096 s.length)).take (min 4096 s.length)
          = dev_bytes env dev s.dev_bytenr (min 4096 s.length) := by
        rw [List.take_append_of_le_length (by rw [dev_bytes_length]), List.take_of_length_le
          (by rw [dev_bytes_length])]
      simp only [htake] at hwr
      rw [copy_chunks]
      simp only [h0, if_false, hrd, hwr, to_u64_natCast _ hc64, Nat.lt_irrefl]
      obtain ⟨s2, h1, h2⟩ := ih
        { s with w := { s.w with
                        buf := dev_bytes env dev s.dev_bytenr (min 4096 s.length)
                                ++ s.w.buf.drop (min 4096 s.length)
                        fs := s.w.fs.store fd (write_at c s.pos
                                (dev_bytes env dev s.dev_bytenr (min 4096 s.length))) }
                 pos := (s.pos + min 4096 s.length) % 2 ^ 64
                 dev_bytenr := (s.dev_bytenr + min 4096 s.length) % 2 ^ 64
                 bytenr := (s.bytenr + min 4096 s.length) % 2 ^ 64
                 length := s.length - min 4096 s.length }
        (write_at c s.pos (dev_bytes env dev s.dev_bytenr (min 4096 s.length)))
        (by simp only; omega) (read_store _ _ _ _ hc) (by simp only; omega) (by simp only; omega)
      refine ⟨s2, h1, ?_⟩
      rw [h2]
      simp only [store_store]
      congr 1
      by_cases hrest : s.length - min 4096 s.length = 0
      · rw [hrest, dev_bytes_zero, write_at_nil]
        congr 2
        omega
      · have hp : (s.pos + min 4096 s.length) % 2 ^ 64 = s.pos + min 4096 s.length :=
          Nat.mod_eq_of_lt (by omega)
        have hd : (s.dev_bytenr + min 4096 s.length) % 2 ^ 64 = s.dev_bytenr + min 4096 s.length :=
          Nat.mod_eq_of_lt (by omega)
        have hsplit := dev_bytes_split env dev s.dev_bytenr (min 4096 s.length)
          (s.length - min 4096 s.length)
        rw [show min 4096 s.length + (s.length - min 4096 s.length) = s.length by omega] at hsplit
        rw [hp, hd, hsplit]
        have := write_at_append c s.pos (dev_bytes env dev s.dev_bytenr (min 4096 s.length))
          (dev_bytes env dev (s.dev_bytenr + min 4096 s.length) (s.length - min 4096 s.length))
        rw [dev_bytes_length] at this
        exact this

theorem clamp_run_eq_min (a b : Nat) : clamp_run a b = min a b := by
  unfold clamp_run
  split <;> omega

theorem logical_bytes_length (L : Nat → Nat) (b n : Nat) : (logical_bytes L b n).length = n := by
  simp [logical_bytes]

theorem logical_bytes_split (L : Nat → Nat) (b a n : Nat) :
    logical_bytes L b (a + n)
      = logical_bytes L b a ++ logical_bytes L ((b + a) % 2 ^ 64) n := by
  unfold logical_bytes
  rw [map_range_split]
  congr 1
  apply List.map_congr_left
  intro i _
  congr 1
  omega

theorem serves_shift (env : Env) (L : Nat → Nat) (b size l : Nat) (h : serves env L b size)
    (hl : l < size) : serves env L ((b + l) % 2 ^ 64) (size - l) := by
  refine ⟨fun h0 => by omega, ?_⟩
  intro k hk
  have e1 : ((b + l) % 2 ^ 64 + k) % 2 ^ 64 = (b + (k + l)) % 2 ^ 64 := by omega
  have e2 : size - l - k = size - (k + l) := by omega
  obtain ⟨h1, h2, h3, h4⟩ := h.2 (k + l) (by omega)
  rw [e1, e2]
  refine ⟨h1, h2, h3, ?_⟩
  intro i hi
  rw [h4 i hi]
  congr 1
  omega

/-- With complete transfers and a mapping service that exposes the logical
content `L`, `copy_one_extent` returns 0 and the file holds, at the
destination offset, the bytes of `L` at the logical address. -/
theorem copy_one_extent_again_content (env : Env) (fd : Bytes) (L : Nat → Nat)
    (hio : io_complete env) :
    ∀ (fuel : Nat) (s : CopyState) (c : Bytes), s.size_left < fuel → s.w.fs.read fd = some c →
      s.pos < 2 ^ 64 → s.pos + s.size_left ≤ 2 ^ 64 → s.bytenr < 2 ^ 64 →
      serves env L s.bytenr s.size_left →
      ∃ s2, copy_one_extent_again env fd fuel s = .ret 0 s2 ∧
        s2.w.fs = s.w.fs.store fd (write_at c s.pos (logical_bytes L s.bytenr s.size_left)) := by
  intro fuel
  induction fuel with
  | zero => intro s c h; omega
  | succ n ih =>
    intro s c hlt hc hpos hend hb hsrv
    by_cases hz : s.size_left = 0
    · have hret := hsrv.1 hz
      rw [copy_one_extent_again]
      simp only [hz, hret, ne_eq, not_true_eq_false, if_false, clamp_run_eq_min, Nat.zero_min,
        copy_chunks, if_true, Nat.sub_zero]
      refine ⟨_, rfl, ?_⟩
      simp only [logical_bytes, List.range_zero, List.map_nil, write_at_nil, store_same _ _ _ hc]
    · obtain ⟨hret, hlen, hphys, hdata⟩ := hsrv.2 0 (by omega)
      simp only [Nat.add_zero, Nat.mod_eq_of_lt hb, Nat.sub_zero] at hret hlen hphys hdata
      have hl1 : 1 ≤ clamp_run s.size_left (env.map_block s.bytenr s.size_left).length := by
        rw [clamp_run_eq_min]; omega
      have hl2 : clamp_run s.size_left (env.map_block s.bytenr s.size_left).length
          ≤ s.size_left := by
        rw [clamp_run_eq_min]; omega
      obtain ⟨s3, h1, h2, h3, h4, _⟩ := copy_chunks_flow env fd
        (env.map_block s.bytenr s.size_left).stripe0.dev hio
        (clamp_run s.size_left (env.map_block s.bytenr s.size_left).length)
        { s with maps := s.maps + 1
                 dev_bytenr := (env.map_block s.bytenr s.size_left).stripe0.physical
                 length := clamp_run s.size_left (env.map_block s.bytenr s.size_left).length
                 size_left := s.size_left
                   - clamp_run s.size_left (env.map_block s.bytenr s.size_left).length }
        (Nat.le_refl _) hpos hb
      obtain ⟨s3b, g1, g2⟩ := copy_chunks_content env fd
        (env.map_block s.bytenr s.size_left).stripe0.dev hio
        (clamp_run s.size_left (env.map_block s.bytenr s.size_left).length)
        { s with maps := s.maps + 1
                 dev_bytenr := (env.map_block s.bytenr s.size_left).stripe0.physical
                 length := clamp_run s.size_left (env.map_block s.bytenr s.size_left).length
                 size_left := s.size_left
                   - clamp_run s.size_left (env.map_block s.bytenr s.size_left).length }
        c (Nat.le_refl _) hc (by simp only; omega)
        (by simp only; rw [clamp_run_eq_min]; exact hphys)
      have hsame : s3b = s3 := by
        rw [h1] at g1
        exact (Flow.next.inj g1).symm
      subst hsame
      have hdev : dev_bytes env (env.map_block s.bytenr s.size_left).stripe0.dev
          (env.map_block s.bytenr s.size_left).stripe0.physical
          (clamp_run s.size_left (env.map_block s.bytenr s.size_left).length)
          = logical_bytes L s.bytenr
              (clamp_run s.size_left (env.map_block s.bytenr s.size_left).length) := by
        unfold dev_bytes logical_bytes
        apply List.map_congr_left
        intro i hi
        rw [List.mem_range, clamp_run_eq_min] at hi
        exact hdata i hi
      simp only [hdev] at g2 h2 h3 h4
      rw [copy_one_extent_again]
      simp only [hret, ne_eq, not_true_eq_false, if_false, h1]
      by_cases hz3 : s3b.size_left = 0
      · simp only [hz3, not_true_eq_false, if_false]
        refine ⟨s3b, rfl, ?_⟩
        rw [g2]
        congr 3
        omega
      · simp only [hz3, not_false_eq_true, if_true]
        have hll : clamp_run s.size_left (env.map_block s.bytenr s.size_left).length
            < s.size_left := by omega
        have hp3 : s3b.pos = s.pos
            + clamp_run s.size_left (env.map_block s.bytenr s.size_left).length := by
          rw [h2]; exact Nat.mod_eq_of_lt (by omega)
        have hsrv3 := serves_shift env L s.bytenr s.size_left _ hsrv hll
        rw [← h3, ← h4] at hsrv3
        obtain ⟨s4, k1, k2⟩ := ih s3b
          (write_at c s.pos (logical_bytes L s.bytenr
            (clamp_run s.size_left (env.map_block s.bytenr s.size_left).length)))
          (by omega) (by rw [g2]; exact read_store _ _ _ _ hc) (by omega) (by omega)
          (by rw [h3]; omega) hsrv3
        refine ⟨s4, k1, ?_⟩
        rw [k2, g2, store_store, hp3, h3, h4]
        congr 1
        have hsplit := logical_bytes_split L s.bytenr
          (clamp_run s.size_left (env.map_block s.bytenr s.size_left).length)
          (s.size_left - clamp_run s.size_left (env.map_block s.bytenr s.size_left).length)
        rw [show clamp_run s.size_left (env.map_block s.bytenr s.size_left).length
          + (s.size_left - clamp_run s.size_left (env.map_block s.bytenr s.size_left).length)
          = s.size_left by omega] at hsplit
        rw [hsplit]
        have := write_at_append c s.pos (logical_bytes L s.bytenr
            (clamp_run s.size_left (env.map_block s.bytenr s.size_left).length))
          (logical_bytes L ((s.bytenr
            + clamp_run s.size_left (env.map_block s.bytenr s.size_left).length) % 2 ^ 64)
            (s.size_left - clamp_run s.size_left (env.map_block s.bytenr s.size_left).length))
        rw [logical_bytes_length] at this
        exact this

theorem copy_chunks_with_mirrors (env : Env) (mir : Nat → Nat → List btrfs_bio_stripe)
    (fd : Bytes) (dev : Nat) :
    ∀ (fuel : Nat) (s : CopyState),
      copy_chunks (with_mirrors env mir) fd dev fuel s = copy_chunks env fd dev fuel s := by
  intro fuel
  induction fuel with
  | zero => intro s; rfl
  | succ n ih =>
    intro s
    rw [copy_chunks, copy_chunks]
    simp only [ih]
    rfl

theorem copy_one_extent_again_with_mirrors (env : Env)
    (mir : Nat → Nat → List btrfs_bio_stripe) (fd : Bytes) :
    ∀ (fuel : Nat) (s : CopyState),
      copy_one_extent_again (with_mirrors env mir) fd fuel s
        = copy_one_extent_again env fd fuel s := by
  intro fuel
  induction fuel with
  | zero => intro s; rfl
  | succ n ih =>
    intro s
    rw [copy_one_extent_again, copy_one_extent_again]
    simp only [ih, copy_chunks_with_mirrors]
    rfl

theorem serves_env_ok (b size : Nat) (h : b + size ≤ 2 ^ 64) :
    serves env_ok L_example b size := by
  refine ⟨fun _ => rfl, ?_⟩
  intro k hk
  refine ⟨rfl, Nat.le_max_right _ 1, ?_, ?_⟩
  · show (b + k) % 2 ^ 64 + min (size - k) (max (size - k) 1) ≤ 2 ^ 64
    omega
  · intro i hi
    show ((b + k) % 2 ^ 64 + i) % 251 = ((b + k + i) % 2 ^ 64) % 251
    have hi2 : i < min (size - k) (max (size - k) 1) := hi
    have e1 : (b + k) % 2 ^ 64 = b + k := Nat.mod_eq_of_lt (by omega)
    have e2 : (b + k + i) % 2 ^ 64 = b + k + i := Nat.mod_eq_of_lt (by omega)
    rw [e1, e2]

theorem serves_env_short_runs (b size : Nat) (h : b + size ≤ 2 ^ 64) :
    serves env_short_runs L_example b size := by
  refine ⟨fun _ => rfl, ?_⟩
  intro k hk
  refine ⟨rfl, (by show 1 ≤ 2; omega), ?_, ?_⟩
  · show (b + k) % 2 ^ 64 + min (size - k) 2 ≤ 2 ^ 64
    omega
  · intro i hi
    show ((b + k) % 2 ^ 64 + i) % 251 = ((b + k + i) % 2 ^ 64) % 251
    have hi2 : i < min (size - k) 2 := hi
    have e1 : (b + k) % 2 ^ 64 = b + k := Nat.mod_eq_of_lt (by omega)
    have e2 : (b + k + i) % 2 ^ 64 = b + k + i := Nat.mod_eq_of_lt (by omega)
    rw [e1, e2]

theorem io_complete_env_short_runs : io_complete env_short_runs :=
  ⟨fun _ _ _ => rfl, fun _ _ _ _ => rfl⟩

/-! ## Files built from records -/

theorem apply_records_untouched (L : Nat → Nat) (p : Nat) :
    ∀ (recs : List Item) (c : Bytes),
      (∀ it ∈ recs, ¬ (it.key.offset ≤ p ∧ p < it.key.offset + (record_bytes L it).length)) →
      (apply_records L c recs).getD p 0 = c.getD p 0 := by
  intro recs
  induction recs with
  | nil => intro c _; rfl
  | cons r rest ih =>
    intro c h
    rw [apply_records, ih _ (fun it hit => h it (List.mem_cons_of_mem _ hit)), write_at_getD,
      if_neg (h r (List.mem_cons_self _ _))]

theorem apply_records_holds (L : Nat → Nat) :
    ∀ (recs : List Item) (c : Bytes),
      recs.Pairwise (fun a b => a.key.offset + (record_bytes L a).length ≤ b.key.offset) →
      ∀ it ∈ recs, ∀ k, k < (record_bytes L it).length →
        (apply_records L c recs).getD (it.key.offset + k) 0 = (record_bytes L it).getD k 0 := by
  intro recs
  induction recs with
  | nil => intro c _ it hit; exact absurd hit (List.not_mem_nil _)
  | cons r rest ih =>
    intro c hp it hit k hk
    rw [List.pairwise_cons] at hp
    rw [apply_records]
    rcases List.mem_cons.mp hit with h | h
    · subst h
      rw [apply_records_untouched L _ rest _ (fun b hb => by have := hp.1 b hb; omega),
        write_at_getD, if_pos ⟨by omega, by omega⟩]
      congr 1
      omega
    · exact ih _ hp.2 it h k hk

theorem apply_records_length (L : Nat → Nat) :
    ∀ (recs : List Item) (c : Bytes),
      (∀ it ∈ recs, (record_bytes L it).length = record_len it) →
      (apply_records L c recs).length = max c.length (final_length recs) := by
  intro recs
  induction recs with
  | nil => intro c _; simp [apply_records, final_length]
  | cons r rest ih =>
    intro c h
    have hr := h r (List.mem_cons_self _ _)
    rw [apply_records, ih _ (fun it hit => h it (List.mem_cons_of_mem _ hit)), write_at_length,
      final_length]
    by_cases h0 : record_bytes L r = []
    · have : record_len r = 0 := by rw [← hr, h0]; rfl
      simp only [h0, if_true, this]
      omega
    · have : record_len r ≠ 0 := by
        intro hz
        rw [← hr] at hz
        exact h0 (List.length_eq_zero.mp hz)
      simp only [h0, if_false, this, hr]
      omega

theorem read_extent_buffer_length (data : Bytes) (n : Nat) :
    (read_extent_buffer data n).length = n := by
  simp [read_extent_buffer]

theorem read_extent_buffer_exact (data : Bytes) : read_extent_buffer data data.length = data := by
  apply bytes_ext
  · rw [read_extent_buffer_length]
  · intro p
    unfold read_extent_buffer
    rw [map_range_getD]
    split
    · rfl
    · rw [List.getD_eq_default _ _ (by omega)]

theorem copyable_length (env : Env) (L : Nat → Nat) (it : Item) (h : copyable env L it) :
    (record_bytes L it).length = record_len it := by
  obtain ⟨fi, hd, _, hk, _⟩ := h
  unfold record_bytes record_len
  rw [hd]
  rcases hk with ⟨h1, _⟩ | ⟨h1, _⟩
  · simp only [h1, if_true, read_extent_buffer_length]
  · simp only [h1, show ¬ (BTRFS_FILE_EXTENT_REG = BTRFS_FILE_EXTENT_INLINE) by decide, if_false,
      if_true, logical_bytes_length]

/-! ## Scanning the leaves -/

theorem getD_eq_getElem_leaves (leaves : List (List Item)) (i : Nat) (h : i < leaves.length) :
    leaves.getD i [] = leaves[i] := by
  simp [List.getD_eq_getElem?_getD, List.getElem?_eq_getElem h]

theorem items_from_next_leaf (root : Root) (cur : Cursor)
    (hslot : (root.leaves.getD cur.leaf []).length ≤ cur.slot)
    (hnext : cur.leaf + 1 < root.leaves.length) :
    items_from root ⟨cur.leaf + 1, 0⟩ = items_from root cur := by
  unfold items_from
  simp only [List.drop_zero]
  rw [List.drop_eq_nil_of_le hslot, List.nil_append, getD_eq_getElem_leaves _ _ hnext]
  conv_rhs => rw [List.drop_eq_getElem_cons hnext]
  rw [List.flatten_cons]

theorem items_from_end (root : Root) (cur : Cursor)
    (hslot : (root.leaves.getD cur.leaf []).length ≤ cur.slot)
    (hnext : ¬ cur.leaf + 1 < root.leaves.length) :
    items_from root cur = [] := by
  unfold items_from
  rw [List.drop_eq_nil_of_le hslot, List.drop_eq_nil_of_le (by omega)]
  rfl

theorem items_from_item (root : Root) (cur : Cursor) (it : Item)
    (hit : (root.leaves.getD cur.leaf []).get? cur.slot = some it) :
    items_from root cur = it :: items_from root ⟨cur.leaf, cur.slot + 1⟩ := by
  unfold items_from
  have hlt : cur.slot < (root.leaves.getD cur.leaf []).length := by
    by_contra hle
    rw [List.get?_eq_none.mpr (by omega)] at hit
    exact Option.noConfusion hit
  have hget : (root.leaves.getD cur.leaf [])[cur.slot] = it := by
    rw [List.get?_eq_getElem?, List.getElem?_eq_getElem hlt] at hit
    exact Option.some.inj hit
  rw [List.drop_eq_getElem_cons hlt, hget]
  rfl

theorem btrfs_next_leaf_ok (root : Root) (cur : Cursor) (hr : readable root)
    (hnext : cur.leaf + 1 < root.leaves.length) :
    btrfs_next_leaf root cur = (0, ⟨cur.leaf + 1, 0⟩) := by
  unfold btrfs_next_leaf
  simp only [hnext, if_true, hr (cur.leaf + 1), if_false]

theorem btrfs_next_leaf_end (root : Root) (cur : Cursor)
    (hnext : ¬ cur.leaf + 1 < root.leaves.length) :
    btrfs_next_leaf root cur = (1, cur) := by
  unfold btrfs_next_leaf
  simp only [hnext, if_false]

theorem btrfs_search_slot_ok (root : Root) (k : btrfs_key) (hr : readable root) :
    ¬ (btrfs_search_slot root k).1 < 0 := by
  unfold btrfs_search_slot
  simp only [hr _, if_false]
  split
  · split <;> simp
  · simp

theorem btrfs_search_slot_cursor (root : Root) (k : btrfs_key) :
    (btrfs_search_slot root k).2 = search_leaves root.leaves k 0 := by
  unfold btrfs_search_slot
  simp only
  split
  · rfl
  · split <;> rfl

theorem copy_one_extent_content (env : Env) (fd : Bytes) (L : Nat → Nat) (hio : io_complete env)
    (fuel : Nat) (w : World) (c : Bytes) (pos bytenr size : Nat) (hf : size < fuel)
    (hfd : w.fs.read fd = some c) (hpos : pos < 2 ^ 64) (hend : pos + size ≤ 2 ^ 64)
    (hb : bytenr < 2 ^ 64) (hs : serves env L bytenr size) :
    ∃ w1, copy_one_extent env fuel w fd pos bytenr size = .ret 0 w1 ∧
      w1.fs = w.fs.store fd (write_at c pos (logical_bytes L bytenr size)) := by
  obtain ⟨s1, a1, a2⟩ := copy_one_extent_again_content env fd L hio fuel
    (copy_one_extent_init w pos bytenr size) c hf hfd hpos hend hb hs
  refine ⟨s1.w, ?_, a2⟩
  unfold copy_one_extent
  rw [a1]

theorem inline_write (env : Env) (hio : io_complete env) (w : World) (fd c data : Bytes)
    (len off : Nat) (hfd : w.fs.read fd = some c) :
    pwrite env { w with buf := read_extent_buffer data len ++ w.buf.drop len } fd len off
      = ((len : Int),
          { fs := w.fs.store fd (write_at c off (read_extent_buffer data len)),
            buf := read_extent_buffer data len ++ w.buf.drop len }) := by
  rw [pwrite_complete env hio
    { w with buf := read_extent_buffer data len ++ w.buf.drop len } fd c len off hfd]
  simp only [List.take_append_of_le_length (Nat.le_of_eq (read_extent_buffer_length data len).symm),
    List.take_of_length_le (Nat.le_of_eq (read_extent_buffer_length data len))]

theorem key_matches_iff (key : btrfs_key) (it : Item) :
    key_matches key it = true ↔ it.key.objectid = key.objectid ∧ it.key.type = key.type := by
  simp [key_matches]

/-- With complete transfers and a readable tree, the scan of `copy_file`
returns 0 once it has more fuel than steps to make, and leaves in the file the
records it met, written one after the other at their offsets. -/
theorem copy_file_loop_spec (env : Env) (root : Root) (fd : Bytes) (key : btrfs_key)
    (L : Nat → Nat) (S : Nat) (hio : io_complete env) (hr : readable root) :
    ∀ (fuel : Nat) (cur : Cursor) (w : World) (c : Bytes), w.fs.read fd = some c →
      (∀ it ∈ (items_from root cur).takeWhile (key_matches key),
        copyable env L it ∧ record_len it ≤ S) →
      scan_steps root cur + S < fuel →
      ∃ w2, copy_file_loop env root fd key fuel cur w = .ret 0 w2 ∧
        w2.fs = w.fs.store fd
          (apply_records L c ((items_from root cur).takeWhile (key_matches key))) := by
  intro fuel
  induction fuel with
  | zero => intro cur w c _ _ h; omega
  | succ n ih =>
    intro cur w c hfd hgood hfuel
    rw [copy_file_loop]
    by_cases hslot : (root.leaves.getD cur.leaf []).length ≤ cur.slot
    · simp only [hslot, if_true]
      by_cases hnext : cur.leaf + 1 < root.leaves.length
      · rw [btrfs_next_leaf_ok root cur hr hnext]
        simp only [show ¬ ((0 : Int) < 0) by decide, ne_eq, not_true_eq_false, if_false]
        have hitems := items_from_next_leaf root cur hslot hnext
        have hsteps : scan_steps root ⟨cur.leaf + 1, 0⟩ + 1 = scan_steps root cur := by
          unfold scan_steps
          rw [hitems]
          simp only
          omega
        obtain ⟨w2, h1, h2⟩ := ih ⟨cur.leaf + 1, 0⟩ w c hfd (by rw [hitems]; exact hgood)
          (by omega)
        rw [hitems] at h2
        exact ⟨w2, h1, h2⟩
      · rw [btrfs_next_leaf_end root cur hnext]
        simp only [show ¬ ((1 : Int) < 0) by decide, ne_eq, show ¬ ((1 : Int) = 0) by decide,
          not_false_eq_true, if_true, if_false]
        refine ⟨w, rfl, ?_⟩
        rw [items_from_end root cur hslot hnext]
        simp only [List.takeWhile_nil, apply_records, store_same _ _ _ hfd]
    · simp only [hslot, if_false]
      have hlt : cur.slot < (root.leaves.getD cur.leaf []).length := by omega
      have hit : (root.leaves.getD cur.leaf []).get? cur.slot
          = some ((root.leaves.getD cur.leaf [])[cur.slot]) := by
        rw [List.get?_eq_getElem?, List.getElem?_eq_getElem hlt]
      generalize (root.leaves.getD cur.leaf [])[cur.slot] = it at hit
      have hitems := items_from_item root cur it hit
      simp only [hit]
      by_cases hobj : it.key.objectid = key.objectid
      swap
      · simp only [ne_eq, hobj, not_false_eq_true, if_true]
        refine ⟨w, rfl, ?_⟩
        have hm : key_matches key it = false := by
          simp [key_matches, hobj]
        rw [hitems, List.takeWhile_cons, hm]
        simp only [apply_records, store_same _ _ _ hfd, Bool.false_eq_true, if_false]
      by_cases htype : it.key.type = key.type
      swap
      · simp only [ne_eq, hobj, htype, not_true_eq_false, not_false_eq_true, if_true, if_false]
        refine ⟨w, rfl, ?_⟩
        have hm : key_matches key it = false := by
          simp [key_matches, htype]
        rw [hitems, List.takeWhile_cons, hm]
        simp only [apply_records, store_same _ _ _ hfd, Bool.false_eq_true, if_false]
      have hm : key_matches key it = true := (key_matches_iff key it).mpr ⟨hobj, htype⟩
      have htw : (items_from root cur).takeWhile (key_matches key)
          = it :: (items_from root ⟨cur.leaf, cur.slot + 1⟩).takeWhile (key_matches key) := by
        rw [hitems, List.takeWhile_cons, hm]
        simp only [if_true]
      rw [htw] at hgood ⊢
      have hsteps : scan_steps root ⟨cur.leaf, cur.slot + 1⟩ + 1 = scan_steps root cur := by
        unfold scan_steps
        rw [hitems]
        simp only [List.length_cons]
        omega
      obtain ⟨⟨fi, hdata, hcomp, hkind, hoff, hend⟩, hS⟩ := hgood it (List.mem_cons_self _ _)
      have hrest : ∀ b ∈ (items_from root ⟨cur.leaf, cur.slot + 1⟩).takeWhile (key_matches key),
          copyable env L b ∧ record_len b ≤ S :=
        fun b hb => hgood b (List.mem_cons_of_mem _ hb)
      have hlen : record_len it = fi.ram_bytes := by
        unfold record_len; rw [hdata]
      simp only [ne_eq, hobj, htype, not_true_eq_false, if_false, hdata, hcomp]
      rcases hkind with ⟨hinl, hsmall⟩ | ⟨hreg, hb, hsrv⟩
      · have hbytes : record_bytes L it = read_extent_buffer fi.inline_data fi.ram_bytes := by
          unfold record_bytes; rw [hdata]; simp only [hinl, if_true]
        have hnn : ¬ (((fi.ram_bytes : Nat) : Int) < 0 ∨ (4096 : Int) < ((fi.ram_bytes : Nat) : Int)) := by
          omega
        simp only [hinl, show ¬ (BTRFS_FILE_EXTENT_INLINE = BTRFS_FILE_EXTENT_PREALLOC) by decide,
          if_false, if_true, to_int_small _ hsmall, hnn, Int.toNat_ofNat,
          inline_write env hio w fd c fi.inline_data fi.ram_bytes it.key.offset hfd,
          Int.lt_irrefl]
        obtain ⟨w2, h1, h2⟩ := ih ⟨cur.leaf, cur.slot + 1⟩
          { fs := w.fs.store fd (write_at c it.key.offset
              (read_extent_buffer fi.inline_data fi.ram_bytes)),
            buf := read_extent_buffer fi.inline_data fi.ram_bytes ++ w.buf.drop fi.ram_bytes }
          (write_at c it.key.offset (read_extent_buffer fi.inline_data fi.ram_bytes))
          (read_store _ _ _ _ hfd) hrest (by omega)
        refine ⟨w2, h1, ?_⟩
        rw [h2, apply_records, hbytes]
        simp only [store_store]
      · have hbytes : record_bytes L it = logical_bytes L fi.disk_bytenr fi.ram_bytes := by
          unfold record_bytes; rw [hdata]
          simp only [hreg, show ¬ (BTRFS_FILE_EXTENT_REG = BTRFS_FILE_EXTENT_INLINE) by decide,
            if_false, if_true]
        have hsz : fi.ram_bytes < n := by
          have : 1 ≤ scan_steps root cur := by omega
          omega
        obtain ⟨w1, g1, g2⟩ := copy_one_extent_content env fd L hio n w c it.key.offset
          fi.disk_bytenr fi.ram_bytes hsz hfd hoff hend hb hsrv
        simp only [hreg, show ¬ (BTRFS_FILE_EXTENT_REG = BTRFS_FILE_EXTENT_PREALLOC) by decide,
          show ¬ (BTRFS_FILE_EXTENT_REG = BTRFS_FILE_EXTENT_INLINE) by decide,
          if_false, if_true, g1, ne_eq, not_true_eq_false]
        obtain ⟨w2, h1, h2⟩ := ih ⟨cur.leaf, cur.slot + 1⟩ w1
          (write_at c it.key.offset (logical_bytes L fi.disk_bytenr fi.ram_bytes))
          (by rw [g2]; exact read_store _ _ _ _ hfd) hrest (by omega)
        refine ⟨w2, h1, ?_⟩
        rw [h2, g2, apply_records, hbytes]
        simp only [store_store]

theorem record_len_le_sum (recs : List Item) (it : Item) (h : it ∈ recs) :
    record_len it ≤ (recs.map record_len).sum := by
  induction recs with
  | nil => exact absurd h (List.not_mem_nil _)
  | cons r rest ih =>
    rw [List.map_cons, List.sum_cons]
    rcases List.mem_cons.mp h with h1 | h1
    · subst h1; omega
    · have := ih h1; omega

theorem readable_mk_root (off : Nat) (leaves : List (List Item)) : readable (mk_root off leaves) :=
  fun _ => by
    show ¬ ((0 : Int) < 0)
    decide

theorem extent_records_two_extents :
    extent_records root_two_extents ⟨257, 1, 0⟩
      = [⟨⟨257, BTRFS_EXTENT_DATA_KEY, 0⟩,
          .extent ⟨BTRFS_FILE_EXTENT_REG, BTRFS_COMPRESS_NONE, 4, 1000, []⟩⟩,
        ⟨⟨257, BTRFS_EXTENT_DATA_KEY, 8⟩,
          .extent ⟨BTRFS_FILE_EXTENT_REG, BTRFS_COMPRESS_NONE, 3, 2000, []⟩⟩] := by
  decide

theorem extent_records_overlap :
    extent_records root_overlap ⟨257, 1, 0⟩
      = [⟨⟨257, BTRFS_EXTENT_DATA_KEY, 0⟩,
          .extent ⟨BTRFS_FILE_EXTENT_REG, BTRFS_COMPRESS_NONE, 4, 1000, []⟩⟩,
        ⟨⟨257, BTRFS_EXTENT_DATA_KEY, 2⟩,
          .extent ⟨BTRFS_FILE_EXTENT_REG, BTRFS_COMPRESS_NONE, 2, 2000, []⟩⟩] := by
  decide

theorem copyable_regular_env_ok (off size bytenr : Nat) (h1 : off + size ≤ 2 ^ 64)
    (h2 : bytenr + size ≤ 2 ^ 64) (h3 : off < 2 ^ 64) (h4 : bytenr < 2 ^ 64) :
    copyable env_ok L_example ⟨⟨257, BTRFS_EXTENT_DATA_KEY, off⟩,
      .extent ⟨BTRFS_FILE_EXTENT_REG, BTRFS_COMPRESS_NONE, size, bytenr, []⟩⟩ :=
  ⟨_, rfl, rfl, Or.inr ⟨rfl, h4, serves_env_ok bytenr size h2⟩, h3, h1⟩

theorem copyable_two_extents :
    ∀ it ∈ extent_records root_two_extents ⟨257, 1, 0⟩, copyable env_ok L_example it := by
  intro it hit
  rw [extent_records_two_extents] at hit
  simp only [List.mem_cons, List.mem_singleton, List.not_mem_nil, or_false] at hit
  rcases hit with h | h
  · subst h
    exact copyable_regular_env_ok 0 4 1000 (by decide) (by decide) (by decide) (by decide)
  · subst h
    exact copyable_regular_env_ok 8 3 2000 (by decide) (by decide) (by decide) (by decide)

theorem copyable_overlap :
    ∀ it ∈ extent_records root_overlap ⟨257, 1, 0⟩, copyable env_ok L_example it := by
  intro it hit
  rw [extent_records_overlap] at hit
  simp only [List.mem_cons, List.mem_singleton, List.not_mem_nil, or_false] at hit
  rcases hit with h | h
  · subst h
    exact copyable_regular_env_ok 0 4 1000 (by decide) (by decide) (by decide) (by decide)
  · subst h
    exact copyable_regular_env_ok 2 2 2000 (by decide) (by decide) (by decide) (by decide)

theorem disjoint_two_extents : disjoint_ranges (extent_records root_two_extents ⟨257, 1, 0⟩) := by
  rw [extent_records_two_extents]
  unfold disjoint_ranges
  decide

/-! ## Nothing that was created is removed -/

theorem fs_le_refl (a : DestFS) : fs_le a a := ⟨fun _ h => h, fun _ h => h⟩

theorem fs_le_trans {a b c : DestFS} (h1 : fs_le a b) (h2 : fs_le b c) : fs_le a c :=
  ⟨fun p h => h2.1 p (h1.1 p h), fun d h => h2.2 d (h1.2 d h)⟩

theorem find_set_isSome (l : List (Bytes × Bytes)) (p q c : Bytes) :
    (find_file (set_file l p c) q).isSome = (find_file l q).isSome := by
  by_cases h : q = p
  · subst h
    rw [find_set_same]
    cases find_file l q <;> rfl
  · rw [find_set_other _ _ _ _ h]

theorem fs_le_store (fs : DestFS) (p c : Bytes) : fs_le fs (fs.store p c) := by
  refine ⟨fun q h => ?_, fun d h => h⟩
  unfold DestFS.read DestFS.store at *
  simp only
  rw [find_set_isSome]
  exact h

theorem pwrite_fs_le (env : Env) (w : World) (fd : Bytes) (count pos : Nat) :
    fs_le w.fs (pwrite env w fd count pos).2.fs := by
  unfold pwrite
  split
  · exact fs_le_refl _
  · exact fs_le_store _ _ _

theorem pread_fs (env : Env) (w : World) (dev count off : Nat) :
    (pread env w dev count off).2.fs = w.fs := rfl

theorem copy_chunks_fs_le (env : Env) (fd : Bytes) (dev : Nat) :
    ∀ (fuel : Nat) (s : CopyState),
      (∀ s2, copy_chunks env fd dev fuel s = .next s2 → fs_le s.w.fs s2.w.fs) ∧
      (∀ code s2, copy_chunks env fd dev fuel s = .exit code s2 → fs_le s.w.fs s2.w.fs) := by
  intro fuel
  induction fuel with
  | zero =>
    intro s
    constructor
    · intro s2 h
      rw [copy_chunks] at h
      split at h
      · cases h; exact fs_le_refl _
      · cases h
    · intro code s2 h
      rw [copy_chunks] at h
      split at h <;> cases h
  | succ n ih =>
    intro s
    have hrd := pread_fs env s.w dev (min 4096 s.length) s.dev_bytenr
    have hwr := pwrite_fs_le env (pread env s.w dev (min 4096 s.length) s.dev_bytenr).2 fd
      (min 4096 s.length) s.pos
    rw [hrd] at hwr
    constructor
    · intro s2 h
      rw [copy_chunks] at h
      split at h
      · cases h; exact fs_le_refl _
      · simp only at h
        split at h
        · cases h
        · split at h
          · cases h
          · exact fs_le_trans hwr ((ih _).1 s2 h)
    · intro code s2 h
      rw [copy_chunks] at h
      split at h
      · cases h
      · simp only at h
        split at h
        · cases h
          simp only [hrd]
          exact fs_le_refl _
        · split at h
          · cases h
            exact hwr
          · exact fs_le_trans hwr ((ih _).2 code s2 h)

theorem copy_one_extent_again_fs_le (env : Env) (fd : Bytes) :
    ∀ (fuel : Nat) (s : CopyState) (code : Int) (s2 : CopyState),
      copy_one_extent_again env fd fuel s = .ret code s2 → fs_le s.w.fs s2.w.fs := by
  intro fuel
  induction fuel with
  | zero => intro s code s2 h; cases h
  | succ n ih =>
    intro s code s2 h
    rw [copy_one_extent_again] at h
    simp only at h
    split at h
    · cases h; exact fs_le_refl _
    · split at h
      · cases h
      · cases h
      · next code3 s3 hck =>
        cases h
        have h3 := (copy_chunks_fs_le env fd _ _ _).2 _ _ hck
        exact h3
      · next s3 hck =>
        have h3 := (copy_chunks_fs_le env fd _ _ _).1 _ hck
        split at h
        · exact fs_le_trans h3 (ih _ _ _ h)
        · cases h; exact h3

theorem copy_one_extent_fs_le (env : Env) (fuel : Nat) (w : World) (fd : Bytes)
    (pos bytenr size : Nat) (code : Int) (w2 : World)
    (h : copy_one_extent env fuel w fd pos bytenr size = .ret code w2) : fs_le w.fs w2.fs := by
  unfold copy_one_extent at h
  split at h
  · next code3 s3 hag =>
    cases h
    exact copy_one_extent_again_fs_le env fd fuel _ _ _ hag
  · cases h
  · cases h

theorem pwrite_fs_le_buf (env : Env) (w : World) (b fd : Bytes) (count pos : Nat) :
    fs_le w.fs (pwrite env { w with buf := b } fd count pos).2.fs :=
  pwrite_fs_le env { w with buf := b } fd count pos

theorem copy_file_loop_fs_le (env : Env) (root : Root) (fd : Bytes) (key : btrfs_key) :
    ∀ (fuel : Nat) (cur : Cursor) (w : World) (code : Int) (w2 : World),
      copy_file_loop env root fd key fuel cur w = .ret code w2 → fs_le w.fs w2.fs := by
  intro fuel
  induction fuel with
  | zero => intro cur w code w2 h; cases h
  | succ n ih =>
    intro cur w code w2 h
    rw [copy_file_loop] at h
    simp only at h
    split at h
    · split at h
      · cases h; exact fs_le_refl _
      · split at h
        · cases h; exact fs_le_refl _
        · exact ih _ _ _ _ h
    · split at h
      · cases h
      · split at h
        · cases h; exact fs_le_refl _
        · split at h
          · cases h; exact fs_le_refl _
          · split at h
            · split at h
              · cases h; exact fs_le_refl _
              · split at h
                · exact ih _ _ _ _ h
                · split at h
                  · split at h
                    · cases h
                    · split at h
                      · cases h
                        exact pwrite_fs_le_buf env w _ fd _ _
                      · have h2 := ih _ _ _ _ h
                        exact fs_le_trans (pwrite_fs_le_buf env w _ fd _ _) h2
                  · split at h
                    · split at h
                      · next code1 w1 hce =>
                        have h1 := copy_one_extent_fs_le env n w fd _ _ _ code1 w1 hce
                        split at h
                        · cases h; exact h1
                        · exact fs_le_trans h1 (ih _ _ _ _ h)
                      · cases h
                      · cases h
                    · exact ih _ _ _ _ h
            · cases h

theorem copy_file_fs_le (env : Env) (fuel : Nat) (root : Root) (w : World) (fd : Bytes)
    (key : btrfs_key) (code : Int) (w2 : World)
    (h : copy_file env fuel root w fd key = .ret code w2) : fs_le w.fs w2.fs := by
  unfold copy_file at h
  simp only at h
  split at h
  · cases h; exact fs_le_refl _
  · exact copy_file_loop_fs_le env root fd _ fuel _ w code w2 h

theorem find_file_append (l : List (Bytes × Bytes)) (p c : Bytes) :
    (find_file (l ++ [(p, c)]) p).isSome = true := by
  induction l with
  | nil => simp [find_file]
  | cons e rest ih =>
    obtain ⟨k, v⟩ := e
    by_cases h : k = p
    · simp [find_file, h]
    · simp only [List.cons_append, find_file, h, if_false]
      exact ih

theorem find_file_append_mono (l : List (Bytes × Bytes)) (e : Bytes × Bytes) (q : Bytes)
    (h : (find_file l q).isSome = true) : (find_file (l ++ [e]) q).isSome = true := by
  induction l with
  | nil => simp [find_file] at h
  | cons x rest ih =>
    obtain ⟨k, v⟩ := x
    by_cases hk : k = q
    · simp [find_file, hk]
    · simp only [List.cons_append, find_file, hk, if_false] at h ⊢
      exact ih h

/-- A successful `open` leaves the file in place and loses nothing. -/
theorem open_creat_spec (env : Env) (w w1 : World) (path : Bytes)
    (h : open_creat env w path = some w1) :
    env.open_fails w.fs path = false ∧ (w1.fs.read path).isSome ∧ fs_le w.fs w1.fs ∧
      w1.buf = w.buf ∧ w1.fs.dirs = w.fs.dirs ∧
      (w.fs.read path = none → w1.fs.files = w.fs.files ++ [(path, [])]) ∧
      ((w.fs.read path).isSome → w1 = w) := by
  unfold open_creat at h
  split at h
  · cases h
  · next hf =>
    have hf2 : env.open_fails w.fs path = false := by simpa using hf
    split at h
    · next c hc =>
      cases h
      exact ⟨hf2, by rw [hc]; rfl, fs_le_refl _, rfl, rfl,
        fun hn => (by rw [hc] at hn; cases hn), fun _ => rfl⟩
    · next hc =>
      cases h
      refine ⟨hf2, find_file_append _ _ _, ⟨fun q hq => find_file_append_mono _ _ _ hq,
        fun d hd => hd⟩, rfl, rfl, fun _ => rfl, fun hs => ?_⟩
      rw [hc] at hs
      cases hs

/-- A successful `mkdir` adds the directory and loses nothing. -/
theorem mkdir_spec (env : Env) (w w1 : World) (path : Bytes) (h : mkdir env w path = some w1) :
    env.mkdir_fails w.fs path = false ∧ w1.fs.dirs = w.fs.dirs ++ [path] ∧
      w1.fs.files = w.fs.files ∧ w1.buf = w.buf ∧ fs_le w.fs w1.fs := by
  unfold mkdir at h
  split at h
  · cases h
  · next hf =>
    cases h
    exact ⟨by simpa using hf, rfl, rfl, rfl, fun _ hq => hq,
      fun d hd => List.mem_append_left _ hd⟩

theorem search_dir_loop_fs_le (env : Env) :
    ∀ (fuel : Nat) (root : Root) (key : btrfs_key) (dir : Bytes) (cur : Cursor) (w : World)
      (code : Int) (w2 : World),
      search_dir_loop env fuel root key dir cur w = .ret code w2 → fs_le w.fs w2.fs := by
  intro fuel
  induction fuel with
  | zero => intro root key dir cur w code w2 h; cases h
  | succ n ih =>
    intro root key dir cur w code w2 h
    rw [search_dir_loop] at h
    simp only at h
    split at h
    · split at h
      · cases h; exact fs_le_refl _
      · split at h
        · cases h; exact fs_le_refl _
        · exact ih _ _ _ _ _ _ _ h
    · split at h
      · cases h
      · split at h
        · cases h; exact fs_le_refl _
        · split at h
          · cases h; exact fs_le_refl _
          · split at h
            · split at h
              · cases h
              · split at h
                · split at h
                  · cases h; exact fs_le_refl _
                  · next w1 hop =>
                    have h1 := (open_creat_spec env w w1 _ hop).2.2.1
                    split at h
                    · next code2 w3 hcf =>
                      have h2 := copy_file_fs_le env n root w1 _ _ code2 w3 hcf
                      split at h
                      · cases h; exact fs_le_trans h1 h2
                      · exact fs_le_trans (fs_le_trans h1 h2) (ih _ _ _ _ _ _ _ h)
                    · cases h
                    · cases h
                · split at h
                  · split at h
                    · cases h; exact fs_le_refl _
                    · exact ih _ _ _ _ _ _ _ h
                    · split at h
                      · cases h; exact fs_le_refl _
                      · next w1 hmk =>
                        have h1 := (mkdir_spec env w w1 _ hmk).2.2.2.2
                        split at h
                        · next code2 w3 hsub =>
                          have h2 : fs_le w1.fs w3.fs := by
                            split at hsub
                            · cases hsub; exact fs_le_refl _
                            · exact ih _ _ _ _ _ _ _ hsub
                          split at h
                          · cases h; exact fs_le_trans h1 h2
                          · exact fs_le_trans (fs_le_trans h1 h2) (ih _ _ _ _ _ _ _ h)
                        · cases h
                        · cases h
                  · exact ih _ _ _ _ _ _ _ h
            · cases h

theorem cstr_no_nul (s : Bytes) (h : 0 ∉ s) : cstr s = s := by
  unfold cstr
  rw [List.takeWhile_eq_self_iff]
  intro b hb
  have : b ≠ 0 := fun h0 => h (h0 ▸ hb)
  simpa using this

theorem snprintf_path_fits (dir name : Bytes) (h0 : 0 ∉ name)
    (hfit : dir.length + 1 + name.length ≤ 4095) :
    snprintf_path dir (cstr name) = dir ++ 47 :: name := by
  unfold snprintf_path
  rw [cstr_no_nul name h0]
  apply List.take_of_length_le
  simp only [List.length_append, List.length_cons]
  omega

/-! ## Single steps of the scans -/

/-- One iteration of the scan of `search_dir` on a record of the directory
whose name fits `filename`. -/
theorem search_dir_loop_step (env : Env) (root : Root) (key : btrfs_key) (dir : Bytes)
    (cur : Cursor) (it : Item) (di : btrfs_dir_item) (fuel : Nat) (w : World)
    (hit : (root.leaves.getD cur.leaf []).get? cur.slot = some it)
    (hobj : it.key.objectid = key.objectid) (htype : it.key.type = key.type)
    (hdata : it.data = .dir di) (hlen : di.name.length ≤ BTRFS_NAME_LEN) :
    search_dir_loop env (fuel + 1) root key dir cur w
      = (if di.type = BTRFS_FT_REG_FILE then
          match open_creat env w (snprintf_path dir (cstr di.name)) with
          | none => .ret (-1) w
          | some w1 =>
            match copy_file env fuel root w1 (snprintf_path dir (cstr di.name)) di.location with
            | .ret code w2 =>
              if code ≠ 0 then .ret code w2
              else search_dir_loop env fuel root key dir ⟨cur.leaf, cur.slot + 1⟩ w2
            | .undefined => .undefined
            | .timeout => .timeout
        else if di.type = BTRFS_FT_DIR then
          match resolve_root env root di.location with
          | .fail e => .ret e w
          | .skip => search_dir_loop env fuel root key dir cur w
          | .descend search_root =>
            match mkdir env w (snprintf_path dir (cstr di.name)) with
            | none => .ret (-1) w
            | some w1 =>
              match search_dir env fuel search_root di.location
                  (snprintf_path dir (cstr di.name)) w1 with
              | .ret code w2 =>
                if code ≠ 0 then .ret code w2
                else search_dir_loop env fuel root key dir ⟨cur.leaf, cur.slot + 1⟩ w2
              | .undefined => .undefined
              | .timeout => .timeout
        else search_dir_loop env fuel root key dir ⟨cur.leaf, cur.slot + 1⟩ w) := by
  have hlt : ¬ (root.leaves.getD cur.leaf []).length ≤ cur.slot := by
    intro hle
    rw [List.get?_eq_none.mpr hle] at hit
    exact Option.noConfusion hit
  have hlen2 : ¬ BTRFS_NAME_LEN < di.name.length := Nat.not_lt.mpr hlen
  rw [search_dir_loop]
  simp only [hlt, if_false, hit, hobj, htype, hdata, hlen2, ne_eq, not_true_eq_false]
  rfl

/-- A scan of `copy_file` that stands on a record of the file with a
compression tag other than none returns -1 at once and writes nothing,
whatever the kind of the extent. -/
theorem copy_file_loop_compressed (env : Env) (root : Root) (fd : Bytes) (key : btrfs_key)
    (cur : Cursor) (it : Item) (fi : btrfs_file_extent_item) (fuel : Nat) (w : World)
    (hit : (root.leaves.getD cur.leaf []).get? cur.slot = some it)
    (hobj : it.key.objectid = key.objectid) (htype : it.key.type = key.type)
    (hdata : it.data = .extent fi) (hcomp : fi.compression ≠ BTRFS_COMPRESS_NONE) :
    copy_file_loop env root fd key (fuel + 1) cur w = .ret (-1) w := by
  have hlt : ¬ (root.leaves.getD cur.leaf []).length ≤ cur.slot := by
    intro hle
    rw [List.get?_eq_none.mpr hle] at hit
    exact Option.noConfusion hit
  rw [copy_file_loop]
  simp only [hlt, if_false, hit, hobj, htype, hdata, hcomp, ne_eq, not_true_eq_false,
    not_false_eq_true, if_true]

/-- A non-zero result of `copy_file` on a regular-file entry is the result of
the enclosing scan: no later entry is visited, and what exists stays. -/
theorem search_dir_loop_file_error (env : Env) (root : Root) (key : btrfs_key) (dir : Bytes)
    (cur : Cursor) (it : Item) (di : btrfs_dir_item) (fuel : Nat) (w w1 w2 : World) (code : Int)
    (hit : (root.leaves.getD cur.leaf []).get? cur.slot = some it)
    (hobj : it.key.objectid = key.objectid) (htype : it.key.type = key.type)
    (hdata : it.data = .dir di) (hlen : di.name.length ≤ BTRFS_NAME_LEN)
    (hreg : di.type = BTRFS_FT_REG_FILE)
    (hopen : open_creat env w (snprintf_path dir (cstr di.name)) = some w1)
    (hcopy : copy_file env fuel root w1 (snprintf_path dir (cstr di.name)) di.location
      = .ret code w2)
    (hcode : code ≠ 0) :
    search_dir_loop env (fuel + 1) root key dir cur w = .ret code w2 ∧ fs_le w.fs w2.fs := by
  rw [search_dir_loop_step env root key dir cur it di fuel w hit hobj htype hdata hlen]
  simp only [hreg, if_true, hopen, hcopy, hcode, ne_eq, not_false_eq_true]
  exact ⟨trivial, fs_le_trans (open_creat_spec env w w1 _ hopen).2.2.1
    (copy_file_fs_le env fuel root w1 _ _ code w2 hcopy)⟩

/-- A non-zero result of the nested walk of a directory entry is the result
of the enclosing scan: no later entry is visited, and what exists stays. -/
theorem search_dir_loop_subdir_error (env : Env) (root search_root : Root) (key : btrfs_key)
    (dir : Bytes) (cur : Cursor) (it : Item) (di : btrfs_dir_item) (fuel : Nat)
    (w w1 w2 : World) (code : Int)
    (hit : (root.leaves.getD cur.leaf []).get? cur.slot = some it)
    (hobj : it.key.objectid = key.objectid) (htype : it.key.type = key.type)
    (hdata : it.data = .dir di) (hlen : di.name.length ≤ BTRFS_NAME_LEN)
    (hdir : di.type = BTRFS_FT_DIR)
    (hres : resolve_root env root di.location = .descend search_root)
    (hmk : mkdir env w (snprintf_path dir (cstr di.name)) = some w1)
    (hsub : search_dir env fuel search_root di.location (snprintf_path dir (cstr di.name)) w1
      = .ret code w2)
    (hcode : code ≠ 0) :
    search_dir_loop env (fuel + 1) root key dir cur w = .ret code w2 := by
  rw [search_dir_loop_step env root key dir cur it di fuel w hit hobj htype hdata hlen]
  simp only [hdir, show ¬ (BTRFS_FT_DIR = BTRFS_FT_REG_FILE) by decide, if_false, if_true, hres,
    hmk, hsub, hcode, ne_eq, not_false_eq_true]

/-- The directory branch skips an entry exactly when its location is a root
item whose root is a snapshot and snapshots are excluded. -/
theorem resolve_root_skip_iff (env : Env) (root : Root) (location : btrfs_key) :
    resolve_root env root location = .skip
      ↔ ∃ search_root, location.type = BTRFS_ROOT_ITEM_KEY ∧
          env.read_fs_root location = .ok search_root ∧
          search_root.root_key.offset ≠ 0 ∧ env.get_snaps = 0 := by
  unfold resolve_root
  constructor
  · intro h
    by_cases ht : location.type = BTRFS_ROOT_ITEM_KEY
    · rw [if_pos ht] at h
      cases hr : env.read_fs_root location with
      | error e =>
        rw [hr] at h
        cases h
      | ok sr =>
        rw [hr] at h
        simp only at h
        by_cases hs : sr.root_key.offset ≠ 0 ∧ env.get_snaps = 0
        · exact ⟨sr, ht, rfl, hs.1, hs.2⟩
        · rw [if_neg hs] at h
          cases h
    · rw [if_neg ht] at h
      cases h
  · rintro ⟨sr, h1, h2, h3, h4⟩
    simp only [h1, if_true, h2, h3, h4, ne_eq, not_false_eq_true, and_self]

/-! ## Stripping the destination name -/

theorem strip_dir_name_spec :
    ∀ (fuel : Nat) (s : Bytes), s.length < fuel → (∃ b ∈ s, b ≠ 47) →
      strip_dir_name fuel s = .next (strip_slashes s) := by
  intro fuel
  induction fuel with
  | zero => intro s h; omega
  | succ n ih =>
    intro s hlen hne
    rcases List.eq_nil_or_concat s with h | ⟨L, b, h⟩
    · subst h
      obtain ⟨b, hb, _⟩ := hne
      exact absurd hb (List.not_mem_nil _)
    · rw [List.concat_eq_append] at h
      subst h
      have hl : (L ++ [b]).length = L.length + 1 := by simp
      have hget : (L ++ [b]).getD (L.length + 1 - 1) 0 = b := by
        simp [List.getD_eq_getElem?_getD]
      have htake : (L ++ [b]).take (L.length + 1 - 1) = L := by simp
      rw [strip_dir_name]
      simp only [hl, Nat.add_one_ne_zero, if_false, hget, htake]
      by_cases hb : b = 47
      · subst hb
        simp only [ne_eq, not_true_eq_false, if_false]
        have hne2 : ∃ c ∈ L, c ≠ 47 := by
          obtain ⟨c, hc, hc47⟩ := hne
          rcases List.mem_append.mp hc with h1 | h1
          · exact ⟨c, h1, hc47⟩
          · rw [List.mem_singleton] at h1
            exact absurd h1 hc47
        rw [ih L (by rw [hl] at hlen; omega) hne2]
        unfold strip_slashes
        rw [List.rdropWhile_concat_pos _ _ _ (by simp)]
      · simp only [ne_eq, hb, not_false_eq_true, if_true]
        unfold strip_slashes
        rw [List.rdropWhile_concat_neg _ _ _ (by simpa using hb)]

/-- For a destination argument shorter than the 128-byte buffer that holds a
character other than `/`, the name `main` hands to `search_dir` is the
argument with its trailing `/` removed; stripping is idempotent. -/
theorem dest_dir_name_strips (arg : Bytes) (fuel : Nat) (hshort : arg.length < 128)
    (hne : ∃ b ∈ arg, b ≠ 47) (hfuel : arg.length < fuel) :
    dest_dir_name fuel arg = .next (strip_slashes arg) ∧
      strip_slashes (strip_slashes arg) = strip_slashes arg := by
  constructor
  · unfold dest_dir_name
    rw [if_neg (by omega)]
    exact strip_dir_name_spec fuel arg hfuel hne
  · exact List.rdropWhile_idempotent _ _

/-! ## The search position in a well-formed tree -/

theorem key_lt_iff (a b : btrfs_key) :
    a.lt b = true ↔ a.objectid < b.objectid ∨ (a.objectid = b.objectid ∧
      (a.type < b.type ∨ (a.type = b.type ∧ a.offset < b.offset))) := by
  simp [btrfs_key.lt]

theorem key_lt_trans (a b c : btrfs_key) (h1 : a.lt b = true) (h2 : b.lt c = true) :
    a.lt c = true := by
  rw [key_lt_iff] at *
  omega

theorem key_matches_not_lt (k : btrfs_key) (it : Item) (hk : k.offset = 0)
    (hm : key_matches k it = true) : ¬ it.key.lt k = true := by
  rw [key_matches_iff] at hm
  rw [key_lt_iff]
  omega

/-- In a sorted list whose items are not below the search key, the items that
match the key form the head of the list. -/
theorem takeWhile_eq_filter_sorted (k : btrfs_key) :
    ∀ (l : List Item), l.Pairwise (fun a b => a.key.lt b.key = true) →
      (∀ x ∈ l, ¬ x.key.lt k = true) →
      l.takeWhile (key_matches k) = l.filter (key_matches k) := by
  intro l
  induction l with
  | nil => intro _ _; rfl
  | cons x xs ih =>
    intro hs hge
    rw [List.pairwise_cons] at hs
    by_cases hm : key_matches k x = true
    · rw [List.takeWhile_cons, List.filter_cons, hm]
      simp only [if_true]
      rw [ih hs.2 (fun y hy => hge y (List.mem_cons_of_mem _ hy))]
    · have hm2 : key_matches k x = false := by simpa using hm
      rw [List.takeWhile_cons, List.filter_cons, hm2]
      simp only [Bool.false_eq_true, if_false]
      symm
      rw [List.filter_eq_nil_iff]
      intro y hy hmy
      have hxy := hs.1 y hy
      have hxk := hge x (List.mem_cons_self _ _)
      rw [key_matches_iff] at hmy
      have hmx : ¬ (x.key.objectid = k.objectid ∧ x.key.type = k.type) := by
        rw [← key_matches_iff]; exact hm
      rw [key_lt_iff] at hxy hxk
      omega

theorem items_from_eq_items_at (root : Root) (cur : Cursor) :
    items_from root cur = items_at root.leaves cur.leaf cur.slot := rfl

theorem items_at_cons_succ (l : List Item) (ls : List (List Item)) (j slot : Nat) :
    items_at (l :: ls) (j + 1) slot = items_at ls j slot := by
  unfold items_at
  simp [List.getD_eq_getElem?_getD]

theorem mem_takeWhile_lt (k : btrfs_key) (x : Item) :
    ∀ (l : List Item), x ∈ l.takeWhile (fun it => it.key.lt k) → x.key.lt k = true := by
  intro l
  induction l with
  | nil => intro h; exact absurd h (List.not_mem_nil _)
  | cons a rest ih =>
    intro h
    by_cases ha : a.key.lt k = true
    · rw [List.takeWhile_cons, ha] at h
      simp only [if_true] at h
      rcases List.mem_cons.mp h with h1 | h1
      · rw [h1]; exact ha
      · exact ih h1
    · have ha2 : a.key.lt k = false := by simpa using ha
      rw [List.takeWhile_cons, ha2] at h
      simp only [Bool.false_eq_true, if_false] at h
      exact absurd h (List.not_mem_nil _)

theorem lower_bound_split (l : List Item) (k : btrfs_key) :
    l = l.takeWhile (fun it => it.key.lt k) ++ l.drop (lower_bound l k) ∧
      (∀ x, (l.drop (lower_bound l k)).head? = some x → ¬ x.key.lt k = true) := by
  unfold lower_bound
  induction l with
  | nil => exact ⟨rfl, fun x h => by cases h⟩
  | cons a rest ih =>
    by_cases ha : a.key.lt k = true
    · rw [List.takeWhile_cons, ha]
      simp only [if_true, List.length_cons, List.drop_succ_cons, List.cons_append]
      exact ⟨by rw [← ih.1], ih.2⟩
    · have ha2 : a.key.lt k = false := by simpa using ha
      rw [List.takeWhile_cons, ha2]
      simp only [Bool.false_eq_true, if_false, List.length_nil, List.drop_zero, List.nil_append,
        List.head?_cons, Option.some.injEq, true_and]
      intro x hx
      rw [← hx]
      exact ha

/-- In a well-formed list of leaves the search stops where the keys stop being
below the search key: the items before the position are below it and the item
at the position, if any, is not. -/
theorem search_leaves_spec (k : btrfs_key) :
    ∀ (ls : List (List Item)) (i : Nat), (∀ l ∈ ls, l ≠ []) →
      ls.flatten.Pairwise (fun a b => a.key.lt b.key = true) →
      ∃ j pre, (search_leaves ls k i).leaf = i + j ∧
        ls.flatten = pre ++ items_at ls j (search_leaves ls k i).slot ∧
        (∀ x ∈ pre, x.key.lt k = true) ∧
        (∀ x, (items_at ls j (search_leaves ls k i).slot).head? = some x →
          ¬ x.key.lt k = true) := by
  intro ls
  induction ls with
  | nil =>
    intro i _ _
    exact ⟨0, [], rfl, rfl, fun x hx => absurd hx (List.not_mem_nil _), fun x hx => by cases hx⟩
  | cons l rest ih =>
    intro i hne hs
    cases rest with
    | nil =>
      refine ⟨0, l.takeWhile (fun it => it.key.lt k), rfl, ?_, ?_, ?_⟩
      · simp only [search_leaves, items_at, List.flatten_cons, List.flatten_nil, List.append_nil,
          List.getD_cons_zero, List.drop_succ_cons, List.drop_nil]
        exact (lower_bound_split l k).1
      · intro x hx
        exact mem_takeWhile_lt k x l hx
      · intro x hx
        simp only [search_leaves, items_at, List.getD_cons_zero, List.drop_succ_cons,
          List.drop_nil, List.flatten_nil, List.append_nil] at hx
        exact (lower_bound_split l k).2 x hx
    | cons l2 rest2 =>
      have hl2 : l2 ≠ [] := hne l2 (List.mem_cons_of_mem _ (List.mem_cons_self _ _))
      obtain ⟨it, tl, hit⟩ : ∃ it tl, l2 = it :: tl := by
        cases l2 with
        | nil => exact absurd rfl hl2
        | cons a b => exact ⟨a, b, rfl⟩
      subst hit
      rw [List.flatten_cons, List.pairwise_append] at hs
      by_cases hle : (it.key.lt k || decide (it.key = k)) = true
      · obtain ⟨j, pre, h1, h2, h3, h4⟩ := ih (i + 1)
          (fun x hx => hne x (List.mem_cons_of_mem _ hx)) hs.2.1
        have hsl : search_leaves (l :: (it :: tl) :: rest2) k i
            = search_leaves ((it :: tl) :: rest2) k (i + 1) := by
          rw [search_leaves]
          simp only [List.head?_cons, hle, if_true]
        refine ⟨j + 1, l ++ pre, ?_, ?_, ?_, ?_⟩
        · rw [hsl, h1]; omega
        · rw [hsl, items_at_cons_succ, List.flatten_cons, List.append_assoc, ← h2]
        · intro x hx
          rcases List.mem_append.mp hx with hxl | hxp
          · have hxi : x.key.lt it.key = true :=
              hs.2.2 x hxl it (by simp [List.flatten_cons])
            rcases Bool.or_eq_true _ _ ▸ hle with hlt | heq
            · exact key_lt_trans _ _ _ hxi hlt
            · have : it.key = k := of_decide_eq_true heq
              rw [← this]
              exact hxi
          · exact h3 x hxp
        · intro x hx
          rw [hsl, items_at_cons_succ] at hx
          exact h4 x hx
      · have hsl : search_leaves (l :: (it :: tl) :: rest2) k i = ⟨i, lower_bound l k⟩ := by
          rw [search_leaves]
          simp only [List.head?_cons, hle, Bool.false_eq_true, if_false]
        have hitk : ¬ it.key.lt k = true := by
          intro h
          exact hle (by rw [h]; rfl)
        refine ⟨0, l.takeWhile (fun it => it.key.lt k), ?_, ?_, ?_, ?_⟩
        · rw [hsl]
          rfl
        · rw [hsl]
          simp only [items_at, List.getD_cons_zero, List.drop_succ_cons, List.drop_zero,
            List.flatten_cons]
          have e := (lower_bound_split l k).1
          conv_lhs => rw [e]
          simp only [List.append_assoc]
        · intro x hx
          exact mem_takeWhile_lt k x l hx
        · intro x hx
          rw [hsl] at hx
          simp only [items_at, List.getD_cons_zero, List.drop_succ_cons, List.drop_zero,
            List.flatten_cons] at hx
          cases hd : l.drop (lower_bound l k) with
          | nil =>
            rw [hd] at hx
            simp only [List.nil_append, List.cons_append, List.head?_cons,
              Option.some.injEq] at hx
            rw [← hx]
            exact hitk
          | cons a b =>
            rw [hd] at hx
            simp only [List.cons_append, List.head?_cons, Option.some.injEq] at hx
            have := (lower_bound_split l k).2 a (by rw [hd]; rfl)
            rw [← hx]
            exact this

/-- In a well-formed tree the records `copy_file` finds for a file are all of
the file's EXTENT_DATA records, in key order. -/
theorem extent_records_eq_file_extents (root : Root) (key : btrfs_key) (hwf : well_formed root) :
    extent_records root key = file_extents root key := by
  obtain ⟨hne, hs⟩ := hwf
  obtain ⟨j, pre, h1, h2, h3, h4⟩ := search_leaves_spec (scan_key key BTRFS_EXTENT_DATA_KEY)
    root.leaves 0 hne hs
  have hcur : items_from root (btrfs_search_slot root (scan_key key BTRFS_EXTENT_DATA_KEY)).2
      = items_at root.leaves j (search_leaves root.leaves (scan_key key BTRFS_EXTENT_DATA_KEY) 0).slot := by
    rw [btrfs_search_slot_cursor, items_from_eq_items_at, h1, Nat.zero_add]
  unfold extent_records file_extents
  rw [hcur, h2, List.filter_append]
  generalize items_at root.leaves j
    (search_leaves root.leaves (scan_key key BTRFS_EXTENT_DATA_KEY) 0).slot = rest at h2 h4
  rw [h2, List.pairwise_append] at hs
  have hpre : pre.filter (key_matches (scan_key key BTRFS_EXTENT_DATA_KEY)) = [] := by
    rw [List.filter_eq_nil_iff]
    intro x hx hm
    exact key_matches_not_lt _ x rfl hm (h3 x hx)
  have hge : ∀ x ∈ rest, ¬ x.key.lt (scan_key key BTRFS_EXTENT_DATA_KEY) = true := by
    cases rest with
    | nil => intro x hx; exact absurd hx (List.not_mem_nil _)
    | cons a t =>
      have ha := h4 a rfl
      intro x hx hlt
      rcases List.mem_cons.mp hx with hxa | hxt
      · rw [hxa] at hlt; exact ha hlt
      · have hax := (List.pairwise_cons.mp hs.2.1).1 x hxt
        exact ha (key_lt_trans _ _ _ hax hlt)
  rw [hpre, List.nil_append, takeWhile_eq_filter_sorted _ rest hs.2.1 hge]

/-! ## The scan of a directory, record by record -/

/-- The search position of a scan for a key with offset 0 in a well-formed
tree: the records met from there on, as long as they match, are all matching
records of the tree. -/
theorem scan_eq_filter (root : Root) (k : btrfs_key) (hk : k.offset = 0)
    (hwf : well_formed root) :
    (items_from root (btrfs_search_slot root k).2).takeWhile (key_matches k)
      = root.leaves.flatten.filter (key_matches k) := by
  obtain ⟨hne, hs⟩ := hwf
  obtain ⟨j, pre, h1, h2, h3, h4⟩ := search_leaves_spec k root.leaves 0 hne hs
  have hcur : items_from root (btrfs_search_slot root k).2
      = items_at root.leaves j (search_leaves root.leaves k 0).slot := by
    rw [btrfs_search_slot_cursor, items_from_eq_items_at, h1, Nat.zero_add]
  rw [hcur]
  generalize items_at root.leaves j (search_leaves root.leaves k 0).slot = rest at h2 h4
  rw [h2, List.filter_append]
  rw [h2, List.pairwise_append] at hs
  have hpre : pre.filter (key_matches k) = [] := by
    rw [List.filter_eq_nil_iff]
    intro x hx hm
    exact key_matches_not_lt _ x hk hm (h3 x hx)
  have hge : ∀ x ∈ rest, ¬ x.key.lt k = true := by
    cases rest with
    | nil => intro x hx; exact absurd hx (List.not_mem_nil _)
    | cons a t =>
      have ha := h4 a rfl
      intro x hx hlt
      rcases List.mem_cons.mp hx with hxa | hxt
      · rw [hxa] at hlt; exact ha hlt
      · have hax := (List.pairwise_cons.mp hs.2.1).1 x hxt
        exact ha (key_lt_trans _ _ _ hax hlt)
  rw [hpre, List.nil_append, takeWhile_eq_filter_sorted _ rest hs.2.1 hge]

/-- In a well-formed tree the DIR_INDEX records of a directory stand in
strictly ascending index order. -/
theorem dir_entries_ascending (root : Root) (key : btrfs_key) (hwf : well_formed root) :
    (dir_entries root key).Pairwise (fun a b => a.key.offset < b.key.offset) := by
  unfold dir_entries
  have hs := List.Pairwise.filter (key_matches (scan_key key BTRFS_DIR_INDEX_KEY)) hwf.2
  refine List.Pairwise.imp_of_mem ?_ hs
  intro a b ha hb hab
  have hma := (key_matches_iff _ a).mp (List.mem_filter.mp ha).2
  have hmb := (key_matches_iff _ b).mp (List.mem_filter.mp hb).2
  rw [key_lt_iff] at hab
  omega

/-- At the end of a leaf the scan of `search_dir` moves to the next leaf. -/
theorem search_dir_loop_hop (env : Env) (root : Root) (key : btrfs_key) (dir : Bytes)
    (cur : Cursor) (fuel : Nat) (w : World) (hr : readable root)
    (hslot : (root.leaves.getD cur.leaf []).length ≤ cur.slot)
    (hnext : cur.leaf + 1 < root.leaves.length) :
    search_dir_loop env (fuel + 1) root key dir cur w
      = search_dir_loop env fuel root key dir ⟨cur.leaf + 1, 0⟩ w := by
  rw [search_dir_loop]
  simp only [hslot, if_true, btrfs_next_leaf_ok root cur hr hnext,
    show ¬ ((0 : Int) < 0) by decide, ne_eq, not_true_eq_false, if_false]

/-- From a cursor with a record still ahead, the scan of `search_dir` gets to
stand on that record after some moves to the next leaf, in the same world. -/
theorem search_dir_loop_advance (env : Env) (root : Root) (key : btrfs_key) (dir : Bytes)
    (hr : readable root) :
    ∀ (n : Nat) (cur : Cursor) (it : Item) (rest : List Item),
      root.leaves.length - cur.leaf ≤ n → items_from root cur = it :: rest →
      ∃ k c1, (root.leaves.getD c1.leaf []).get? c1.slot = some it ∧
        items_from root c1 = it :: rest ∧
        ∀ fuel w, search_dir_loop env (fuel + k) root key dir cur w
          = search_dir_loop env fuel root key dir c1 w := by
  intro n
  induction n with
  | zero =>
    intro cur it rest hn hitems
    by_cases hslot : (root.leaves.getD cur.leaf []).length ≤ cur.slot
    · have : items_from root cur = [] := items_from_end root cur hslot (by omega)
      rw [this] at hitems
      cases hitems
    · have hlt : cur.slot < (root.leaves.getD cur.leaf []).length := by omega
      have hget : (root.leaves.getD cur.leaf []).get? cur.slot
          = some ((root.leaves.getD cur.leaf [])[cur.slot]) := by
        rw [List.get?_eq_getElem?, List.getElem?_eq_getElem hlt]
      have h2 := items_from_item root cur _ hget
      rw [hitems] at h2
      have hx : it = (root.leaves.getD cur.leaf [])[cur.slot] := (List.cons.inj h2).1
      rw [← hx] at hget
      exact ⟨0, cur, hget, hitems, fun _ _ => rfl⟩
  | succ m ih =>
    intro cur it rest hn hitems
    by_cases hslot : (root.leaves.getD cur.leaf []).length ≤ cur.slot
    · by_cases hnext : cur.leaf + 1 < root.leaves.length
      · have h2 := items_from_next_leaf root cur hslot hnext
        obtain ⟨k, c1, g1, g2, g3⟩ := ih ⟨cur.leaf + 1, 0⟩ it rest (by simp only; omega)
          (by rw [h2]; exact hitems)
        refine ⟨k + 1, c1, g1, g2, ?_⟩
        intro fuel w
        rw [← Nat.add_assoc, search_dir_loop_hop env root key dir cur (fuel + k) w hr hslot hnext]
        exact g3 fuel w
      · have : items_from root cur = [] := items_from_end root cur hslot hnext
        rw [this] at hitems
        cases hitems
    · have hlt : cur.slot < (root.leaves.getD cur.leaf []).length := by omega
      have hget : (root.leaves.getD cur.leaf []).get? cur.slot
          = some ((root.leaves.getD cur.leaf [])[cur.slot]) := by
        rw [List.get?_eq_getElem?, List.getElem?_eq_getElem hlt]
      have h2 := items_from_item root cur _ hget
      rw [hitems] at h2
      have hx : it = (root.leaves.getD cur.leaf [])[cur.slot] := (List.cons.inj h2).1
      rw [← hx] at hget
      exact ⟨0, cur, hget, hitems, fun _ _ => rfl⟩

/-- From a cursor with no matching record ahead, the scan of `search_dir`
returns 0 and leaves the world as it is. -/
theorem search_dir_loop_end (env : Env) (root : Root) (key : btrfs_key) (dir : Bytes)
    (hr : readable root) :
    ∀ (n : Nat) (cur : Cursor) (w : World), root.leaves.length - cur.leaf ≤ n →
      (items_from root cur).takeWhile (key_matches key) = [] →
      ∀ fuel, n < fuel → search_dir_loop env fuel root key dir cur w = .ret 0 w := by
  intro n
  induction n with
  | zero =>
    intro cur w hn htw fuel hfuel
    obtain ⟨f, rfl⟩ : ∃ f, fuel = f + 1 := ⟨fuel - 1, by omega⟩
    rw [search_dir_loop]
    by_cases hslot : (root.leaves.getD cur.leaf []).length ≤ cur.slot
    · simp only [hslot, if_true, btrfs_next_leaf_end root cur (by omega),
        show ¬ ((1 : Int) < 0) by decide, ne_eq, show ¬ ((1 : Int) = 0) by decide,
        not_false_eq_true, if_true, if_false]
    · have hlt : cur.slot < (root.leaves.getD cur.leaf []).length := by omega
      have hget : (root.leaves.getD cur.leaf []).get? cur.slot
          = some ((root.leaves.getD cur.leaf [])[cur.slot]) := by
        rw [List.get?_eq_getElem?, List.getElem?_eq_getElem hlt]
      generalize (root.leaves.getD cur.leaf [])[cur.slot] = it at hget
      rw [items_from_item root cur it hget, List.takeWhile_cons] at htw
      have hm : ¬ key_matches key it = true := by
        intro h
        rw [h] at htw
        simp at htw
      rw [key_matches_iff] at hm
      simp only [hslot, if_false, hget, ne_eq]
      by_cases hobj : it.key.objectid = key.objectid
      · have htype : ¬ it.key.type = key.type := fun h => hm ⟨hobj, h⟩
        simp only [hobj, not_true_eq_false, if_false, htype, not_false_eq_true, if_true]
      · simp only [hobj, not_false_eq_true, if_true]
  | succ m ih =>
    intro cur w hn htw fuel hfuel
    obtain ⟨f, rfl⟩ : ∃ f, fuel = f + 1 := ⟨fuel - 1, by omega⟩
    by_cases hslot : (root.leaves.getD cur.leaf []).length ≤ cur.slot
    · by_cases hnext : cur.leaf + 1 < root.leaves.length
      · rw [search_dir_loop_hop env root key dir cur f w hr hslot hnext]
        exact ih ⟨cur.leaf + 1, 0⟩ w (by simp only; omega)
          (by rw [items_from_next_leaf root cur hslot hnext]; exact htw) f (by omega)
      · rw [search_dir_loop]
        simp only [hslot, if_true, btrfs_next_leaf_end root cur hnext,
          show ¬ ((1 : Int) < 0) by decide, ne_eq, show ¬ ((1 : Int) = 0) by decide,
          not_false_eq_true, if_true, if_false]
    · rw [search_dir_loop]
      have hlt : cur.slot < (root.leaves.getD cur.leaf []).length := by omega
      have hget : (root.leaves.getD cur.leaf []).get? cur.slot
          = some ((root.leaves.getD cur.leaf [])[cur.slot]) := by
        rw [List.get?_eq_getElem?, List.getElem?_eq_getElem hlt]
      generalize (root.leaves.getD cur.leaf [])[cur.slot] = it at hget
      rw [items_from_item root cur it hget, List.takeWhile_cons] at htw
      have hm : ¬ key_matches key it = true := by
        intro h
        rw [h] at htw
        simp at htw
      rw [key_matches_iff] at hm
      simp only [hslot, if_false, hget, ne_eq]
      by_cases hobj : it.key.objectid = key.objectid
      · have htype : ¬ it.key.type = key.type := fun h => hm ⟨hobj, h⟩
        simp only [hobj, not_true_eq_false, if_false, htype, not_false_eq_true, if_true]
      · simp only [hobj, not_false_eq_true, if_true]

theorem entry_path_eq (dir : Bytes) (di : btrfs_dir_item) (h0 : 0 ∉ di.name)
    (hfit : dir.length + 1 + di.name.length ≤ 4095) :
    snprintf_path dir (cstr di.name) = entry_path dir di.name :=
  snprintf_path_fits dir di.name h0 hfit

/-- On a record handled with success the scan of `search_dir` goes on at the
next slot, in the world the handling leaves. -/
theorem search_dir_loop_entry_done (env : Env) (root : Root) (key : btrfs_key) (dir : Bytes)
    (cur : Cursor) (it : Item) (w w2 : World)
    (hit : (root.leaves.getD cur.leaf []).get? cur.slot = some it)
    (hm : key_matches key it = true) (hfit : entry_fits dir it)
    (hdone : entry_done env root dir it w w2) :
    ∃ N, ∀ fuel, N ≤ fuel →
      search_dir_loop env (fuel + 1) root key dir cur w
        = search_dir_loop env fuel root key dir ⟨cur.leaf, cur.slot + 1⟩ w2 := by
  obtain ⟨di, hdata, hlen, h0, hpath⟩ := hfit
  obtain ⟨hobj, htype⟩ := (key_matches_iff key it).mp hm
  have hp := entry_path_eq dir di h0 hpath
  unfold entry_done at hdone
  rw [hdata] at hdone
  simp only at hdone
  by_cases hreg : di.type = BTRFS_FT_REG_FILE
  · rw [if_pos hreg] at hdone
    obtain ⟨w1, hopen, N, hN⟩ := hdone
    refine ⟨N, fun fuel hfuel => ?_⟩
    have hN2 : copy_file env fuel root w1 (entry_path dir di.name) di.location = .ret 0 w2 :=
      hN fuel hfuel
    rw [search_dir_loop_step env root key dir cur it di fuel w hit hobj htype hdata hlen]
    simp only [hreg, if_true, hp, hopen, hN2, ne_eq, not_true_eq_false, if_false]
  · rw [if_neg hreg] at hdone
    by_cases hdir : di.type = BTRFS_FT_DIR
    · rw [if_pos hdir] at hdone
      obtain ⟨sr, w1, hres, hmk, N, hN⟩ := hdone
      refine ⟨N, fun fuel hfuel => ?_⟩
      rw [search_dir_loop_step env root key dir cur it di fuel w hit hobj htype hdata hlen]
      have hN2 : search_dir env fuel sr di.location (entry_path dir di.name) w1 = .ret 0 w2 :=
        hN fuel hfuel
      simp only [hdir, show ¬ (BTRFS_FT_DIR = BTRFS_FT_REG_FILE) by decide, if_false, if_true, hp,
        hres, hmk, hN2, ne_eq, not_true_eq_false]
    · rw [if_neg hdir] at hdone
      rw [hdone]
      refine ⟨0, fun fuel _ => ?_⟩
      rw [search_dir_loop_step env root key dir cur it di fuel w hit hobj htype hdata hlen]
      simp only [hreg, hdir, if_false]

/-- Once the records of `pre` have been handled with success, the scan of
`search_dir` stands, in the world they leave, on a cursor from which it meets
the records that follow. -/
theorem search_dir_loop_reach (env : Env) (root : Root) (key : btrfs_key) (dir : Bytes)
    (hr : readable root) :
    ∀ (pre post : List Item) (cur : Cursor) (w w1 : World),
      (items_from root cur).takeWhile (key_matches key) = pre ++ post →
      (∀ it ∈ pre, entry_fits dir it) → entries_done env root dir pre w w1 →
      ∃ N k cur1, k ≤ N ∧
        (items_from root cur1).takeWhile (key_matches key) = post ∧
        ∀ fuel, N ≤ fuel →
          search_dir_loop env fuel root key dir cur w
            = search_dir_loop env (fuel - k) root key dir cur1 w1 := by
  intro pre
  induction pre with
  | nil =>
    intro post cur w w1 htw _ hdone
    have hw : w1 = w := hdone
    subst hw
    exact ⟨0, 0, cur, Nat.le_refl 0, htw, fun _ _ => rfl⟩
  | cons it pre2 ih =>
    intro post cur w w1 htw hfit hdone
    obtain ⟨wm, hd1, hd2⟩ := hdone
    -- the first record is ahead of the cursor and matches
    have hne : ∃ rest, items_from root cur = it :: rest ∧ key_matches key it = true ∧
        rest.takeWhile (key_matches key) = pre2 ++ post := by
      cases hi : items_from root cur with
      | nil => rw [hi] at htw; cases htw
      | cons x rest =>
        rw [hi, List.takeWhile_cons] at htw
        by_cases hx : key_matches key x = true
        · rw [hx] at htw
          simp only [if_true, List.cons_append] at htw
          obtain ⟨e1, e2⟩ := List.cons.inj htw
          subst e1
          exact ⟨rest, rfl, hx, e2⟩
        · have hx2 : key_matches key x = false := by simpa using hx
          rw [hx2] at htw
          cases htw
    obtain ⟨rest, hitems, hm, hrest⟩ := hne
    obtain ⟨k1, c1, hget, hc1, hadv⟩ := search_dir_loop_advance env root key dir hr
      (root.leaves.length - cur.leaf) cur it rest (Nat.le_refl _) hitems
    obtain ⟨N1, hN1⟩ := search_dir_loop_entry_done env root key dir c1 it w wm hget hm
      (hfit it (List.mem_cons_self _ _)) hd1
    have hnext : items_from root ⟨c1.leaf, c1.slot + 1⟩ = rest := by
      have := items_from_item root c1 it hget
      rw [hc1] at this
      exact (List.cons.inj this).2.symm
    obtain ⟨N2, k2, cur1, hk2, htw2, hN2⟩ := ih post ⟨c1.leaf, c1.slot + 1⟩ wm w1
      (by rw [hnext]; exact hrest) (fun x hx => hfit x (List.mem_cons_of_mem _ hx)) hd2
    refine ⟨max N1 N2 + 1 + k1, k1 + 1 + k2, cur1, by omega, htw2, ?_⟩
    intro fuel hfuel
    have e1 : fuel = (fuel - k1 - 1 + 1) + k1 := by omega
    have e2 : fuel - (k1 + 1 + k2) = fuel - k1 - 1 - k2 := by omega
    rw [e2]
    conv_lhs => rw [e1]
    rw [hadv, hN1 _ (by omega), hN2 _ (by omega)]

theorem search_dir_fs_le (env : Env) (fuel : Nat) (root : Root) (key : btrfs_key) (dir : Bytes)
    (w : World) (code : Int) (w2 : World)
    (h : search_dir env fuel root key dir w = .ret code w2) : fs_le w.fs w2.fs := by
  unfold search_dir at h
  simp only at h
  split at h
  · cases h; exact fs_le_refl _
  · exact search_dir_loop_fs_le env fuel _ _ _ _ w code w2 h

theorem entries_done_append (env : Env) (root : Root) (dir : Bytes) (it : Item) :
    ∀ (pre : List Item) (w w1 w2 : World), entries_done env root dir pre w w1 →
      entry_done env root dir it w1 w2 → entries_done env root dir (pre ++ [it]) w w2 := by
  intro pre
  induction pre with
  | nil =>
    intro w w1 w2 h1 h2
    have hw : w1 = w := h1
    subst hw
    exact ⟨w2, h2, rfl⟩
  | cons a rest ih =>
    intro w w1 w2 h1 h2
    obtain ⟨wm, ha, hrest⟩ := h1
    exact ⟨wm, ha, ih wm w1 w2 hrest h2⟩

/-- Handling an entry with success loses nothing and leaves the file or the
directory of the entry in place. -/
theorem entry_done_created (env : Env) (root : Root) (dir : Bytes) (it : Item)
    (di : btrfs_dir_item) (w w2 : World) (hdata : it.data = .dir di)
    (h : entry_done env root dir it w w2) :
    fs_le w.fs w2.fs ∧
      (di.type = BTRFS_FT_REG_FILE → (w2.fs.read (entry_path dir di.name)).isSome) ∧
      (di.type = BTRFS_FT_DIR → entry_path dir di.name ∈ w2.fs.dirs) ∧
      (di.type ≠ BTRFS_FT_REG_FILE → di.type ≠ BTRFS_FT_DIR → w2 = w) := by
  unfold entry_done at h
  rw [hdata] at h
  simp only at h
  by_cases hreg : di.type = BTRFS_FT_REG_FILE
  · rw [if_pos hreg] at h
    obtain ⟨w1, hopen, N, hN⟩ := h
    obtain ⟨_, h2, h3, _⟩ := open_creat_spec env w w1 _ hopen
    have hm := copy_file_fs_le env N root w1 _ _ 0 w2 (hN N (Nat.le_refl N))
    refine ⟨fs_le_trans h3 hm, fun _ => hm.1 _ h2, fun hd => ?_, fun hn _ => absurd hreg hn⟩
    rw [hreg] at hd
    exact absurd hd (by decide)
  · rw [if_neg hreg] at h
    by_cases hdir : di.type = BTRFS_FT_DIR
    · rw [if_pos hdir] at h
      obtain ⟨sr, w1, _, hmk, N, hN⟩ := h
      obtain ⟨_, h2, _, _, h5⟩ := mkdir_spec env w w1 _ hmk
      have hm := search_dir_fs_le env N sr _ _ w1 0 w2 (hN N (Nat.le_refl N))
      refine ⟨fs_le_trans h5 hm, fun hr => absurd hr hreg, fun _ => hm.2 _ ?_,
        fun _ hn => absurd hdir hn⟩
      rw [h2]
      exact List.mem_append_right _ (List.mem_singleton_self _)
    · rw [if_neg hdir] at h
      rw [h]
      exact ⟨fs_le_refl _, fun hr => absurd hr hreg, fun hd => absurd hd hdir, fun _ _ => rfl⟩

/-- After the entries of a list have been handled with success, the file of
each regular-file entry and the directory of each directory entry exist. -/
theorem entries_done_created (env : Env) (root : Root) (dir : Bytes) :
    ∀ (l : List Item) (w w2 : World), entries_done env root dir l w w2 →
      fs_le w.fs w2.fs ∧
      ∀ it ∈ l, ∀ di, it.data = .dir di →
        (di.type = BTRFS_FT_REG_FILE → (w2.fs.read (entry_path dir di.name)).isSome) ∧
        (di.type = BTRFS_FT_DIR → entry_path dir di.name ∈ w2.fs.dirs) := by
  intro l
  induction l with
  | nil =>
    intro w w2 h
    have hw : w2 = w := h
    subst hw
    exact ⟨fs_le_refl _, fun it hit => absurd hit (List.not_mem_nil _)⟩
  | cons a rest ih =>
    intro w w2 h
    obtain ⟨wm, ha, hrest⟩ := h
    obtain ⟨hle2, hall⟩ := ih wm w2 hrest
    refine ⟨?_, ?_⟩
    · cases hd : a.data with
      | dir di => exact fs_le_trans (entry_done_created env root dir a di w wm hd ha).1 hle2
      | extent e => unfold entry_done at ha; rw [hd] at ha; exact absurd ha (by simp)
      | other => unfold entry_done at ha; rw [hd] at ha; exact absurd ha (by simp)
    · intro it hit di hdata
      rcases List.mem_cons.mp hit with h1 | h1
      · subst h1
        obtain ⟨_, g2, g3, _⟩ := entry_done_created env root dir it di w wm hdata ha
        exact ⟨fun hr => hle2.1 _ (g2 hr), fun hd => hle2.2 _ (g3 hd)⟩
      · exact hall it h1 di hdata

/-- Once the records before `it` have been handled with success, `search_dir`
stands on the record `it` in the world they leave. -/
theorem search_dir_stands (env : Env) (root : Root) (key : btrfs_key) (dir : Bytes) (w : World)
    (hwf : well_formed root) (hr : readable root)
    (hfit : ∀ it ∈ dir_entries root key, entry_fits dir it)
    (pre : List Item) (it : Item) (post : List Item) (w1 : World)
    (hE : dir_entries root key = pre ++ it :: post)
    (hdone : entries_done env root dir pre w w1) :
    ∃ N k cur, k < N ∧ (root.leaves.getD cur.leaf []).get? cur.slot = some it ∧
      ∀ fuel, N ≤ fuel →
        search_dir env fuel root key dir w
          = search_dir_loop env (fuel - k) root (scan_key key BTRFS_DIR_INDEX_KEY) dir cur w1 := by
  have hscan := scan_eq_filter root (scan_key key BTRFS_DIR_INDEX_KEY) rfl hwf
  have hE2 : (items_from root (btrfs_search_slot root (scan_key key BTRFS_DIR_INDEX_KEY)).2).takeWhile
      (key_matches (scan_key key BTRFS_DIR_INDEX_KEY)) = pre ++ it :: post := by
    rw [hscan]; exact hE
  obtain ⟨N, k, cur1, hk, htw, hN⟩ := search_dir_loop_reach env root
    (scan_key key BTRFS_DIR_INDEX_KEY) dir hr pre (it :: post) _ w w1 hE2
    (fun x hx => hfit x (by rw [hE]; exact List.mem_append_left _ hx)) hdone
  have hne : ∃ rest, items_from root cur1 = it :: rest := by
    cases hi : items_from root cur1 with
    | nil => rw [hi] at htw; cases htw
    | cons x rest =>
      rw [hi, List.takeWhile_cons] at htw
      by_cases hx : key_matches (scan_key key BTRFS_DIR_INDEX_KEY) x = true
      · rw [hx] at htw
        simp only [if_true] at htw
        rw [(List.cons.inj htw).1]
        exact ⟨rest, rfl⟩
      · have hx2 : key_matches (scan_key key BTRFS_DIR_INDEX_KEY) x = false := by simpa using hx
        rw [hx2] at htw
        cases htw
  obtain ⟨rest, hitems⟩ := hne
  obtain ⟨k1, c1, hget, _, hadv⟩ := search_dir_loop_advance env root
    (scan_key key BTRFS_DIR_INDEX_KEY) dir hr (root.leaves.length - cur1.leaf) cur1 it rest
    (Nat.le_refl _) hitems
  refine ⟨N + k1 + 1, k + k1, c1, by omega, hget, ?_⟩
  intro fuel hfuel
  unfold search_dir
  simp only [btrfs_search_slot_ok root _ hr, if_false]
  rw [hN fuel (by omega)]
  have e1 : fuel - k = (fuel - (k + k1)) + k1 := by omega
  rw [e1, hadv]

/-! ## The claims -/

/-- C1 (as amended): for a file whose EXTENT_DATA records are all uncompressed
and inline (payload within the 4096-byte transfer buffer) or regular, with
byte ranges that do not overlap, copied into an empty destination file by an
environment in which the tree is readable, the mapping service exposes the
logical content `L`, and reads and writes are complete, `copy_file` returns 0
for every fuel from some bound on, only the content of that file changes, and
the file holds each record's bytes at the record's offset, zero at every
position no record covers, and ends where the last byte of a record ends.  The
records are those the scan finds from offset 0 on, which in a well-formed tree
are all EXTENT_DATA records of the file.  The file with the single inline
record `hello` at offset 0 becomes exactly `hello`,
and the whole tool run on that image makes `out/notes.txt` with content `hello`
and returns 0. -/
theorem C1_copy_file_restores_records (env : Env) (root : Root) (L : Nat → Nat) (fd : Bytes)
    (key : btrfs_key) (w : World) (hio : io_complete env) (hr : readable root)
    (hfd : w.fs.read fd = some [])
    (hgood : ∀ it ∈ extent_records root key, copyable env L it)
    (hdisj : disjoint_ranges (extent_records root key)) :
    (∃ N, ∀ fuel, N ≤ fuel → ∃ w2 content,
        copy_file env fuel root w fd key = .ret 0 w2 ∧
        w2.fs = w.fs.store fd content ∧ w2.fs.read fd = some content ∧
        (∀ it ∈ extent_records root key, ∀ k, k < record_len it →
          content.getD (it.key.offset + k) 0 = (record_bytes L it).getD k 0) ∧
        (∀ p, (∀ it ∈ extent_records root key,
            ¬ (it.key.offset ≤ p ∧ p < it.key.offset + record_len it)) →
          content.getD p 0 = 0) ∧
        content.length = final_length (extent_records root key)) ∧
      (∀ fuel, 8 ≤ fuel → ∃ w2, copy_file env fuel root_notes w fd ⟨257, 1, 0⟩ = .ret 0 w2 ∧
        w2.fs.read fd = some (str "hello")) ∧
      (well_formed root → extent_records root key = file_extents root key) ∧
      (∀ fuel, main env_ok (fuel + 4) [] [str "dev", str "out/"] 0 (some root_notes) w_empty
        = .ret 0 { fs := { dirs := [], files := [(str "out/notes.txt", str "hello")] },
                   buf := str "hello" ++ [0, 0, 0] }) := by
  refine ⟨?_, ?_, extent_records_eq_file_extents root key, fun _ => rfl⟩
  · refine ⟨scan_steps root (btrfs_search_slot root (scan_key key BTRFS_EXTENT_DATA_KEY)).2
      + ((extent_records root key).map record_len).sum + 1, ?_⟩
    intro fuel hfuel
    obtain ⟨w2, h1, h2⟩ := copy_file_loop_spec env root fd (scan_key key BTRFS_EXTENT_DATA_KEY) L
      (((extent_records root key).map record_len).sum) hio hr fuel
      (btrfs_search_slot root (scan_key key BTRFS_EXTENT_DATA_KEY)).2 w [] hfd
      (fun it hit => ⟨hgood it hit, record_len_le_sum _ it hit⟩) (by omega)
    have hlens : ∀ it ∈ extent_records root key, (record_bytes L it).length = record_len it :=
      fun it hit => copyable_length env L it (hgood it hit)
    have hpw : (extent_records root key).Pairwise
        (fun a b => a.key.offset + (record_bytes L a).length ≤ b.key.offset) := by
      refine List.Pairwise.imp_of_mem ?_ hdisj
      intro a b ha _ hab
      rw [hlens a ha]
      exact hab
    refine ⟨w2, apply_records L [] (extent_records root key), ?_, h2, ?_, ?_, ?_, ?_⟩
    · unfold copy_file
      simp only [btrfs_search_slot_ok root _ hr, if_false]
      exact h1
    · rw [h2]
      exact read_store _ _ _ _ hfd
    · intro it hit k hk
      exact apply_records_holds L _ [] hpw it hit k (by rw [hlens it hit]; exact hk)
    · intro p hp
      rw [apply_records_untouched L p _ [] (fun it hit => by rw [hlens it hit]; exact hp it hit)]
      rfl
    · rw [apply_records_length L _ [] hlens]
      simp
  · intro fuel hfuel
    obtain ⟨w2, h1, h2⟩ := copy_file_loop_spec env root_notes fd
      (scan_key ⟨257, 1, 0⟩ BTRFS_EXTENT_DATA_KEY) L 5 hio (readable_mk_root _ _) fuel ⟨1, 0⟩ w []
      hfd
      (by
        intro it hit
        have hrec : (items_from root_notes ⟨1, 0⟩).takeWhile
            (key_matches (scan_key ⟨257, 1, 0⟩ BTRFS_EXTENT_DATA_KEY))
            = [⟨⟨257, BTRFS_EXTENT_DATA_KEY, 0⟩,
                .extent ⟨BTRFS_FILE_EXTENT_INLINE, BTRFS_COMPRESS_NONE, 5, 0, str "hello"⟩⟩] := by
          decide
        rw [hrec, List.mem_singleton] at hit
        subst hit
        exact ⟨⟨_, rfl, rfl, Or.inl ⟨rfl, by decide⟩, by decide, by decide⟩, Nat.le_refl 5⟩)
      (by
        have : scan_steps root_notes ⟨1, 0⟩ = 2 := by decide
        omega)
    refine ⟨w2, ?_, ?_⟩
    · exact h1
    · rw [h2]
      have : apply_records L [] ((items_from root_notes ⟨1, 0⟩).takeWhile
          (key_matches (scan_key ⟨257, 1, 0⟩ BTRFS_EXTENT_DATA_KEY))) = str "hello" := rfl
      rw [this]
      exact read_store _ _ _ _ hfd

/-- C1 at a concrete input: the file with four bytes at offset 0 and three
bytes at offset 8, copied into the empty file `f`. -/
theorem C1_copy_file_restores_records_witness :
    (∃ N, ∀ fuel, N ≤ fuel → ∃ w2 content,
        copy_file env_ok fuel root_two_extents (w_file (str "f")) (str "f") ⟨257, 1, 0⟩
          = .ret 0 w2 ∧
        w2.fs = (w_file (str "f")).fs.store (str "f") content ∧
        w2.fs.read (str "f") = some content ∧
        (∀ it ∈ extent_records root_two_extents ⟨257, 1, 0⟩, ∀ k, k < record_len it →
          content.getD (it.key.offset + k) 0 = (record_bytes L_example it).getD k 0) ∧
        (∀ p, (∀ it ∈ extent_records root_two_extents ⟨257, 1, 0⟩,
            ¬ (it.key.offset ≤ p ∧ p < it.key.offset + record_len it)) →
          content.getD p 0 = 0) ∧
        content.length = final_length (extent_records root_two_extents ⟨257, 1, 0⟩)) ∧
      (∀ fuel, 8 ≤ fuel → ∃ w2,
        copy_file env_ok fuel root_notes (w_file (str "f")) (str "f") ⟨257, 1, 0⟩ = .ret 0 w2 ∧
        w2.fs.read (str "f") = some (str "hello")) ∧
      (well_formed root_two_extents →
        extent_records root_two_extents ⟨257, 1, 0⟩ = file_extents root_two_extents ⟨257, 1, 0⟩) ∧
      (∀ fuel, main env_ok (fuel + 4) [] [str "dev", str "out/"] 0 (some root_notes) w_empty
        = .ret 0 { fs := { dirs := [], files := [(str "out/notes.txt", str "hello")] },
                   buf := str "hello" ++ [0, 0, 0] }) :=
  C1_copy_file_restores_records env_ok root_two_extents L_example (str "f") ⟨257, 1, 0⟩
    (w_file (str "f")) io_complete_env_ok (readable_mk_root _ _) rfl copyable_two_extents
    disjoint_two_extents

/-- C1 as stated fails on the code.  (1) When the `ram_bytes` ranges of two
records overlap, the later record overwrites the earlier one: with four bytes
`247 248 249 250` at offset 0 and two bytes `243 244` at offset 2, all
uncompressed and regular and all transfers complete, `copy_file` returns 0 and
the file holds `247 248 243 244`, not the first record's bytes at its offset.
(2) The destination is opened without truncation: copied into a file that
already holds `hello world`, the single inline record `hello` leaves
`hello world`.  (3) An inline record of 5000 bytes overruns the 4096-byte
transfer buffer.  (4) When a leaf cannot be read the search error -5 is
returned although no mapping, read or write failed. -/
theorem C1_counterexample :
    ((∀ it ∈ extent_records root_overlap ⟨257, 1, 0⟩, copyable env_ok L_example it) ∧
      (∀ fuel, 10 ≤ fuel → ∃ w2,
        copy_file env_ok fuel root_overlap (w_file (str "f")) (str "f") ⟨257, 1, 0⟩ = .ret 0 w2 ∧
        w2.fs.read (str "f") = some [247, 248, 243, 244]) ∧
      (∃ it ∈ extent_records root_overlap ⟨257, 1, 0⟩, ∃ k, k < record_len it ∧
        ([247, 248, 243, 244] : Bytes).getD (it.key.offset + k) 0
          ≠ (record_bytes L_example it).getD k 0)) ∧
      ((∀ fuel, 8 ≤ fuel → ∃ w2,
        copy_file env_ok fuel root_notes (w_existing (str "f") (str "hello world")) (str "f")
          ⟨257, 1, 0⟩ = .ret 0 w2 ∧
        w2.fs.read (str "f") = some (str "hello world")) ∧
        str "hello world" ≠ str "hello") ∧
      (∀ fuel, copy_file env_ok (fuel + 1) root_big_inline (w_file (str "f")) (str "f") ⟨257, 1, 0⟩
        = .undefined) ∧
      (∀ fuel, copy_file env_ok fuel root_notes_unreadable (w_file (str "f")) (str "f") ⟨257, 1, 0⟩
        = .ret (-5) (w_file (str "f"))) := by
  refine ⟨⟨copyable_overlap, ?_, ?_⟩, ⟨?_, by decide⟩, fun _ => rfl, fun _ => rfl⟩
  · intro fuel hfuel
    obtain ⟨w2, h1, h2⟩ := copy_file_loop_spec env_ok root_overlap (str "f")
      (scan_key ⟨257, 1, 0⟩ BTRFS_EXTENT_DATA_KEY) L_example 6 io_complete_env_ok
      (readable_mk_root _ _) fuel ⟨0, 0⟩ (w_file (str "f")) [] rfl
      (fun it hit => ⟨copyable_overlap it hit, by
        have hit2 : it ∈ extent_records root_overlap ⟨257, 1, 0⟩ := hit
        rw [extent_records_overlap] at hit2
        simp only [List.mem_cons, List.mem_singleton, List.not_mem_nil, or_false] at hit2
        rcases hit2 with h | h <;> subst h <;> decide⟩)
      (by
        have : scan_steps root_overlap ⟨0, 0⟩ = 3 := by decide
        omega)
    refine ⟨w2, h1, ?_⟩
    rw [h2]
    have : apply_records L_example [] ((items_from root_overlap ⟨0, 0⟩).takeWhile
        (key_matches (scan_key ⟨257, 1, 0⟩ BTRFS_EXTENT_DATA_KEY))) = [247, 248, 243, 244] := by
      decide
    rw [this]
    exact read_store _ _ _ _ rfl
  · refine ⟨⟨⟨257, BTRFS_EXTENT_DATA_KEY, 0⟩,
      .extent ⟨BTRFS_FILE_EXTENT_REG, BTRFS_COMPRESS_NONE, 4, 1000, []⟩⟩, ?_, 2, by decide,
      by decide⟩
    rw [extent_records_overlap]
    exact List.mem_cons_self _ _
  · intro fuel hfuel
    obtain ⟨w2, h1, h2⟩ := copy_file_loop_spec env_ok root_notes (str "f")
      (scan_key ⟨257, 1, 0⟩ BTRFS_EXTENT_DATA_KEY) L_example 5 io_complete_env_ok
      (readable_mk_root _ _) fuel ⟨1, 0⟩ (w_existing (str "f") (str "hello world"))
      (str "hello world") rfl
      (by
        intro it hit
        have hrec : (items_from root_notes ⟨1, 0⟩).takeWhile
            (key_matches (scan_key ⟨257, 1, 0⟩ BTRFS_EXTENT_DATA_KEY))
            = [⟨⟨257, BTRFS_EXTENT_DATA_KEY, 0⟩,
                .extent ⟨BTRFS_FILE_EXTENT_INLINE, BTRFS_COMPRESS_NONE, 5, 0, str "hello"⟩⟩] := by
          decide
        rw [hrec, List.mem_singleton] at hit
        subst hit
        exact ⟨⟨_, rfl, rfl, Or.inl ⟨rfl, by decide⟩, by decide, by decide⟩, Nat.le_refl 5⟩)
      (by
        have : scan_steps root_notes ⟨1, 0⟩ = 2 := by decide
        omega)
    refine ⟨w2, h1, ?_⟩
    rw [h2]
    have : apply_records L_example (str "hello world") ((items_from root_notes ⟨1, 0⟩).takeWhile
        (key_matches (scan_key ⟨257, 1, 0⟩ BTRFS_EXTENT_DATA_KEY))) = str "hello world" := by
      decide
    rw [this]
    exact read_store _ _ _ _ rfl

/-- C2 (as amended): in a well-formed tree that reads without error, take the
DIR_INDEX records of a directory (all of them, from all leaves), whose names
have at most 255 bytes and no NUL byte and whose joined paths `dir/name` have
at most 4095 bytes.  They stand in strictly ascending index order.  For every
one of them, once the records before it have been handled with success,
`search_dir` stands on the record in the world those records leave, and: for a
regular file it opens the path `dir/name` (a failing `open` makes `search_dir`
return -1 with nothing created; otherwise the file exists from then on, and a
non-zero result of `copy_file` is the result of `search_dir`, while with result
0 the record is handled and the scan goes on); for a directory whose root is
resolved and not skipped it makes the directory `dir/name` (a root that cannot
be read or a failing `mkdir` makes `search_dir` return the error with nothing
created; a non-zero result of the nested walk is the result of `search_dir`,
while with result 0 the record is handled and the scan goes on); a record of
any other type changes nothing and the scan goes on.  When all records have
been handled `search_dir` returns 0, nothing that existed is lost, and the file
of every regular-file record and the directory of every directory record exist
at `dir/name`. -/
theorem C2_search_dir_entries (env : Env) (root : Root) (key : btrfs_key) (dir : Bytes)
    (w : World) (hwf : well_formed root) (hr : readable root)
    (hfit : ∀ it ∈ dir_entries root key, entry_fits dir it) :
    (dir_entries root key).Pairwise (fun a b => a.key.offset < b.key.offset) ∧
    (∀ pre it post w1 di, dir_entries root key = pre ++ it :: post → it.data = .dir di →
      entries_done env root dir pre w w1 →
      (∃ N k cur, k < N ∧ (root.leaves.getD cur.leaf []).get? cur.slot = some it ∧
        ∀ fuel, N ≤ fuel →
          search_dir env fuel root key dir w
            = search_dir_loop env (fuel - k) root (scan_key key BTRFS_DIR_INDEX_KEY) dir cur
                w1) ∧
      (di.type = BTRFS_FT_REG_FILE →
        (env.open_fails w1.fs (entry_path dir di.name) = true →
          returns (fun fuel => search_dir env fuel root key dir w) (-1) w1) ∧
        (env.open_fails w1.fs (entry_path dir di.name) = false →
          ∃ w2, open_creat env w1 (entry_path dir di.name) = some w2 ∧
            (w2.fs.read (entry_path dir di.name)).isSome ∧ w2.fs.dirs = w1.fs.dirs ∧
            (w1.fs.read (entry_path dir di.name) = none →
              w2.fs.files = w1.fs.files ++ [(entry_path dir di.name, [])]) ∧
            ∀ code w3,
              returns (fun fuel => copy_file env fuel root w2 (entry_path dir di.name)
                di.location) code w3 →
              (code ≠ 0 → returns (fun fuel => search_dir env fuel root key dir w) code w3) ∧
              (code = 0 → entries_done env root dir (pre ++ [it]) w w3))) ∧
      (di.type = BTRFS_FT_DIR →
        (∀ e, resolve_root env root di.location = .fail e →
          returns (fun fuel => search_dir env fuel root key dir w) e w1) ∧
        (∀ search_root, resolve_root env root di.location = .descend search_root →
          (env.mkdir_fails w1.fs (entry_path dir di.name) = true →
            returns (fun fuel => search_dir env fuel root key dir w) (-1) w1) ∧
          (env.mkdir_fails w1.fs (entry_path dir di.name) = false →
            ∃ w2, mkdir env w1 (entry_path dir di.name) = some w2 ∧
              w2.fs.dirs = w1.fs.dirs ++ [entry_path dir di.name] ∧
              w2.fs.files = w1.fs.files ∧
              ∀ code w3,
                returns (fun fuel => search_dir env fuel search_root di.location
                  (entry_path dir di.name) w2) code w3 →
                (code ≠ 0 → returns (fun fuel => search_dir env fuel root key dir w) code w3) ∧
                (code = 0 → entries_done env root dir (pre ++ [it]) w w3)))) ∧
      (di.type ≠ BTRFS_FT_REG_FILE → di.type ≠ BTRFS_FT_DIR →
        entries_done env root dir (pre ++ [it]) w w1)) ∧
    (∀ w2, entries_done env root dir (dir_entries root key) w w2 →
      returns (fun fuel => search_dir env fuel root key dir w) 0 w2 ∧
      fs_le w.fs w2.fs ∧
      ∀ it ∈ dir_entries root key, ∀ di, it.data = .dir di →
        (di.type = BTRFS_FT_REG_FILE → (w2.fs.read (entry_path dir di.name)).isSome) ∧
        (di.type = BTRFS_FT_DIR → entry_path dir di.name ∈ w2.fs.dirs)) := by
  refine ⟨dir_entries_ascending root key hwf, ?_, ?_⟩
  · intro pre it post w1 di hE hdata hdone
    have hmem : it ∈ dir_entries root key := by
      rw [hE]; exact List.mem_append_right _ (List.mem_cons_self _ _)
    have hm : key_matches (scan_key key BTRFS_DIR_INDEX_KEY) it = true :=
      (List.mem_filter.mp hmem).2
    obtain ⟨hobj, htype⟩ := (key_matches_iff _ it).mp hm
    obtain ⟨di2, hdata2, hlen, h0, hpath⟩ := hfit it hmem
    have hdi : di2 = di := by
      rw [hdata] at hdata2
      exact (ItemData.dir.inj hdata2).symm
    subst hdi
    have hp := entry_path_eq dir di2 h0 hpath
    obtain ⟨N, k, cur, hk, hget, hN⟩ := search_dir_stands env root key dir w hwf hr hfit pre it
      post w1 hE hdone
    -- the run of `search_dir` from the record on, one iteration unfolded
    have hrun : ∀ fuel, N ≤ fuel →
        search_dir env fuel root key dir w
          = (if di2.type = BTRFS_FT_REG_FILE then
              match open_creat env w1 (entry_path dir di2.name) with
              | none => .ret (-1) w1
              | some w2 =>
                match copy_file env (fuel - k - 1) root w2 (entry_path dir di2.name)
                    di2.location with
                | .ret code w3 =>
                  if code ≠ 0 then .ret code w3
                  else search_dir_loop env (fuel - k - 1) root
                    (scan_key key BTRFS_DIR_INDEX_KEY) dir ⟨cur.leaf, cur.slot + 1⟩ w3
                | .undefined => .undefined
                | .timeout => .timeout
            else if di2.type = BTRFS_FT_DIR then
              match resolve_root env root di2.location with
              | .fail e => .ret e w1
              | .skip => search_dir_loop env (fuel - k - 1) root
                  (scan_key key BTRFS_DIR_INDEX_KEY) dir cur w1
              | .descend search_root =>
                match mkdir env w1 (entry_path dir di2.name) with
                | none => .ret (-1) w1
                | some w2 =>
                  match search_dir env (fuel - k - 1) search_root di2.location
                      (entry_path dir di2.name) w2 with
                  | .ret code w3 =>
                    if code ≠ 0 then .ret code w3
                    else search_dir_loop env (fuel - k - 1) root
                      (scan_key key BTRFS_DIR_INDEX_KEY) dir ⟨cur.leaf, cur.slot + 1⟩ w3
                  | .undefined => .undefined
                  | .timeout => .timeout
            else search_dir_loop env (fuel - k - 1) root (scan_key key BTRFS_DIR_INDEX_KEY) dir
              ⟨cur.leaf, cur.slot + 1⟩ w1) := by
      intro fuel hfuel
      obtain ⟨f, hf⟩ : ∃ f, fuel - k = f + 1 := ⟨fuel - k - 1, by omega⟩
      have e2 : fuel - k - 1 = f := by omega
      rw [hN fuel hfuel, e2, hf, search_dir_loop_step env root _ dir cur it di2 f w1 hget
        hobj htype hdata hlen, hp]
    refine ⟨⟨N, k, cur, hk, hget, hN⟩, ?_, ?_, ?_⟩
    · intro hreg
      constructor
      · intro hfail
        refine ⟨N, fun fuel hfuel => ?_⟩
        show search_dir env fuel root key dir w = _
        rw [hrun fuel hfuel]
        simp only [hreg, if_true, open_creat, hfail]
      · intro hok
        have hopen : ∃ w2, open_creat env w1 (entry_path dir di2.name) = some w2 := by
          unfold open_creat
          simp only [hok, Bool.false_eq_true, if_false]
          split
          · exact ⟨_, rfl⟩
          · exact ⟨_, rfl⟩
        obtain ⟨w2, hw2⟩ := hopen
        obtain ⟨_, h2, _, _, h5, h6, _⟩ := open_creat_spec env w1 w2 _ hw2
        refine ⟨w2, hw2, h2, h5, h6, ?_⟩
        intro code w3 hret
        constructor
        · intro hcode
          obtain ⟨Nc, hNc⟩ := hret
          refine ⟨max N (Nc + k + 1), fun fuel hfuel => ?_⟩
          have hc : copy_file env (fuel - k - 1) root w2 (entry_path dir di2.name) di2.location
              = .ret code w3 := hNc (fuel - k - 1) (by omega)
          show search_dir env fuel root key dir w = _
          rw [hrun fuel (by omega)]
          simp only [hreg, if_true, hw2, hc, hcode, ne_eq, not_false_eq_true]
        · intro hcode
          subst hcode
          refine entries_done_append env root dir it pre w w1 w3 hdone ?_
          unfold entry_done
          rw [hdata]
          simp only [hreg, if_true]
          exact ⟨w2, hw2, hret⟩
    · intro hdir
      have hnreg : ¬ (BTRFS_FT_DIR = BTRFS_FT_REG_FILE) := by decide
      constructor
      · intro e he
        refine ⟨N, fun fuel hfuel => ?_⟩
        show search_dir env fuel root key dir w = _
        rw [hrun fuel hfuel]
        simp only [hdir, hnreg, if_false, if_true, he]
      · intro search_root hres
        constructor
        · intro hfail
          refine ⟨N, fun fuel hfuel => ?_⟩
          show search_dir env fuel root key dir w = _
          rw [hrun fuel hfuel]
          simp only [hdir, hnreg, if_false, if_true, hres, mkdir, hfail]
        · intro hok
          have hmk : ∃ w2, mkdir env w1 (entry_path dir di2.name) = some w2 := by
            unfold mkdir
            simp only [hok, Bool.false_eq_true, if_false]
            exact ⟨_, rfl⟩
          obtain ⟨w2, hw2⟩ := hmk
          obtain ⟨_, h2, h3, _, _⟩ := mkdir_spec env w1 w2 _ hw2
          refine ⟨w2, hw2, h2, h3, ?_⟩
          intro code w3 hret
          constructor
          · intro hcode
            obtain ⟨Nc, hNc⟩ := hret
            refine ⟨max N (Nc + k + 1), fun fuel hfuel => ?_⟩
            have hc : search_dir env (fuel - k - 1) search_root di2.location
                (entry_path dir di2.name) w2 = .ret code w3 := hNc (fuel - k - 1) (by omega)
            show search_dir env fuel root key dir w = _
            rw [hrun fuel (by omega)]
            simp only [hdir, hnreg, if_false, if_true, hres, hw2, hc, hcode, ne_eq,
              not_false_eq_true]
          · intro hcode
            subst hcode
            refine entries_done_append env root dir it pre w w1 w3 hdone ?_
            unfold entry_done
            rw [hdata]
            simp only [hdir, hnreg, if_false, if_true]
            exact ⟨search_root, w2, hres, hw2, hret⟩
    · intro hnreg hndir
      refine entries_done_append env root dir it pre w w1 w1 hdone ?_
      unfold entry_done
      rw [hdata]
      simp only [hnreg, hndir, if_false]
  · intro w2 hdone
    have hscan := scan_eq_filter root (scan_key key BTRFS_DIR_INDEX_KEY) rfl hwf
    have hE2 : (items_from root
        (btrfs_search_slot root (scan_key key BTRFS_DIR_INDEX_KEY)).2).takeWhile
        (key_matches (scan_key key BTRFS_DIR_INDEX_KEY)) = dir_entries root key ++ [] := by
      rw [hscan, List.append_nil]; rfl
    obtain ⟨N, k, cur1, hk, htw, hN⟩ := search_dir_loop_reach env root
      (scan_key key BTRFS_DIR_INDEX_KEY) dir hr (dir_entries root key) [] _ w w2 hE2 hfit hdone
    obtain ⟨hle, hall⟩ := entries_done_created env root dir _ w w2 hdone
    refine ⟨⟨N + k + (root.leaves.length - cur1.leaf) + 1, fun fuel hfuel => ?_⟩, hle, hall⟩
    show search_dir env fuel root key dir w = .ret 0 w2
    unfold search_dir
    simp only [btrfs_search_slot_ok root _ hr, if_false]
    rw [hN fuel (by omega)]
    exact search_dir_loop_end env root _ dir hr (root.leaves.length - cur1.leaf) cur1 w2
      (Nat.le_refl _) htw (fuel - k) (by omega)

/-- C2 at a concrete input: the tree `root_mixed`, whose top-level directory
holds a directory, a symbolic link and, in the next leaf, a regular file,
walked into the empty destination `out`.  The hypotheses hold, the three
records are handled one after the other (the directory with its file `x`, the
link with no change, the file `z` with its content), and `search_dir` returns
0 with the destination `w_mixed_all`. -/
theorem C2_search_dir_entries_witness :
    (well_formed root_mixed ∧ readable root_mixed ∧
      (∀ it ∈ dir_entries root_mixed top_key, entry_fits (str "out") it)) ∧
    (dir_entries root_mixed top_key = [entry_d, entry_lnk, entry_z] ∧
      entries_done env_ok root_mixed (str "out") [entry_d] w_empty w_mixed_d ∧
      entries_done env_ok root_mixed (str "out") [entry_d, entry_lnk] w_empty w_mixed_d ∧
      entries_done env_ok root_mixed (str "out") [entry_d, entry_lnk, entry_z] w_empty
        w_mixed_all ∧
      returns (fun fuel => search_dir env_ok fuel root_mixed top_key (str "out") w_empty) 0
        w_mixed_all) ∧
    (dir_entries root_mixed top_key).Pairwise (fun a b => a.key.offset < b.key.offset) ∧
    (∀ pre it post w1 di, dir_entries root_mixed top_key = pre ++ it :: post → it.data = .dir di →
      entries_done env_ok root_mixed (str "out") pre w_empty w1 →
      (∃ N k cur, k < N ∧ (root_mixed.leaves.getD cur.leaf []).get? cur.slot = some it ∧
        ∀ fuel, N ≤ fuel →
          search_dir env_ok fuel root_mixed top_key (str "out") w_empty
            = search_dir_loop env_ok (fuel - k) root_mixed (scan_key top_key BTRFS_DIR_INDEX_KEY) (str "out") cur
                w1) ∧
      (di.type = BTRFS_FT_REG_FILE →
        (env_ok.open_fails w1.fs (entry_path (str "out") di.name) = true →
          returns (fun fuel => search_dir env_ok fuel root_mixed top_key (str "out") w_empty) (-1) w1) ∧
        (env_ok.open_fails w1.fs (entry_path (str "out") di.name) = false →
          ∃ w2, open_creat env_ok w1 (entry_path (str "out") di.name) = some w2 ∧
            (w2.fs.read (entry_path (str "out") di.name)).isSome ∧ w2.fs.dirs = w1.fs.dirs ∧
            (w1.fs.read (entry_path (str "out") di.name) = none →
              w2.fs.files = w1.fs.files ++ [(entry_path (str "out") di.name, [])]) ∧
            ∀ code w3,
              returns (fun fuel => copy_file env_ok fuel root_mixed w2 (entry_path (str "out") di.name)
                di.location) code w3 →
              (code ≠ 0 → returns (fun fuel => search_dir env_ok fuel root_mixed top_key (str "out") w_empty) code w3) ∧
              (code = 0 → entries_done env_ok root_mixed (str "out") (pre ++ [it]) w_empty w3))) ∧
      (di.type = BTRFS_FT_DIR →
        (∀ e, resolve_root env_ok root_mixed di.location = .fail e →
          returns (fun fuel => search_dir env_ok fuel root_mixed top_key (str "out") w_empty) e w1) ∧
        (∀ search_root, resolve_root env_ok root_mixed di.location = .descend search_root →
          (env_ok.mkdir_fails w1.fs (entry_path (str "out") di.name) = true →
            returns (fun fuel => search_dir env_ok fuel root_mixed top_key (str "out") w_empty) (-1) w1) ∧
          (env_ok.mkdir_fails w1.fs (entry_path (str "out") di.name) = false →
            ∃ w2, mkdir env_ok w1 (entry_path (str "out") di.name) = some w2 ∧
              w2.fs.dirs = w1.fs.dirs ++ [entry_path (str "out") di.name] ∧
              w2.fs.files = w1.fs.files ∧
              ∀ code w3,
                returns (fun fuel => search_dir env_ok fuel search_root di.location
                  (entry_path (str "out") di.name) w2) code w3 →
                (code ≠ 0 → returns (fun fuel => search_dir env_ok fuel root_mixed top_key (str "out") w_empty) code w3) ∧
                (code = 0 → entries_done env_ok root_mixed (str "out") (pre ++ [it]) w_empty w3)))) ∧
      (di.type ≠ BTRFS_FT_REG_FILE → di.type ≠ BTRFS_FT_DIR →
        entries_done env_ok root_mixed (str "out") (pre ++ [it]) w_empty w1)) ∧
    (∀ w2, entries_done env_ok root_mixed (str "out") (dir_entries root_mixed top_key) w_empty w2 →
      returns (fun fuel => search_dir env_ok fuel root_mixed top_key (str "out") w_empty) 0 w2 ∧
      fs_le w_empty.fs w2.fs ∧
      ∀ it ∈ dir_entries root_mixed top_key, ∀ di, it.data = .dir di →
        (di.type = BTRFS_FT_REG_FILE → (w2.fs.read (entry_path (str "out") di.name)).isSome) ∧
        (di.type = BTRFS_FT_DIR → entry_path (str "out") di.name ∈ w2.fs.dirs)) := by
  have hwf : well_formed root_mixed := by
    constructor
    · decide
    · decide
  have hr : readable root_mixed := readable_mk_root _ _
  have hE : dir_entries root_mixed top_key = [entry_d, entry_lnk, entry_z] := by decide
  have hfit : ∀ it ∈ dir_entries root_mixed top_key, entry_fits (str "out") it := by
    intro it hit
    rw [hE] at hit
    simp only [List.mem_cons, List.mem_singleton, List.not_mem_nil, or_false] at hit
    rcases hit with h | h | h
    · subst h; exact ⟨_, rfl, by decide, by decide, by decide⟩
    · subst h; exact ⟨_, rfl, by decide, by decide, by decide⟩
    · subst h; exact ⟨_, rfl, by decide, by decide, by decide⟩
  have hd : entry_done env_ok root_mixed (str "out") entry_d w_empty w_mixed_d :=
    show ∃ search_root w1,
        resolve_root env_ok root_mixed ⟨257, 1, 0⟩ = .descend search_root ∧
        mkdir env_ok w_empty (entry_path (str "out") (str "d")) = some w1 ∧
        returns (fun fuel => search_dir env_ok fuel search_root ⟨257, 1, 0⟩
          (entry_path (str "out") (str "d")) w1) 0 w_mixed_d from
      ⟨root_mixed, _, rfl, rfl, 4, fun fuel hfuel => by
        obtain ⟨j, rfl⟩ : ∃ j, fuel = j + 4 := ⟨fuel - 4, by omega⟩
        rfl⟩
  have hl : entry_done env_ok root_mixed (str "out") entry_lnk w_mixed_d w_mixed_d :=
    show w_mixed_d = w_mixed_d from rfl
  have hz : entry_done env_ok root_mixed (str "out") entry_z w_mixed_d w_mixed_all :=
    show ∃ w1, open_creat env_ok w_mixed_d (entry_path (str "out") (str "z")) = some w1 ∧
        returns (fun fuel => copy_file env_ok fuel root_mixed w1
          (entry_path (str "out") (str "z")) ⟨259, 1, 0⟩) 0 w_mixed_all from
      ⟨_, rfl, 4, fun fuel hfuel => by
        obtain ⟨j, rfl⟩ : ∃ j, fuel = j + 4 := ⟨fuel - 4, by omega⟩
        rfl⟩
  have h1 : entries_done env_ok root_mixed (str "out") [entry_d] w_empty w_mixed_d :=
    ⟨_, hd, rfl⟩
  have h2 : entries_done env_ok root_mixed (str "out") [entry_d, entry_lnk] w_empty w_mixed_d :=
    ⟨_, hd, _, hl, rfl⟩
  have h3 : entries_done env_ok root_mixed (str "out") [entry_d, entry_lnk, entry_z] w_empty
      w_mixed_all := ⟨_, hd, _, hl, _, hz, rfl⟩
  have hT := C2_search_dir_entries env_ok root_mixed top_key (str "out") w_empty hwf hr hfit
  exact ⟨⟨hwf, hr, hfit⟩, ⟨hE, h1, h2, h3, (hT.2.2 w_mixed_all (hE ▸ h3)).1⟩, hT⟩

/-- C2 as stated fails on the code.  (1) The name is copied into `filename`
and printed with `%s`, which stops at the first NUL byte: the entry with the
declared name `a`, NUL, `b` is created as `out/a`.  (2) `snprintf` cuts the
path to 4095 bytes: under a directory path of 4090 bytes the entry
`0123456789` is created as `.../0123`.  (3) When `open` fails, the regular
file `notes.txt` is not created and the walk returns -1.  (4) When `mkdir`
fails, the directory `d` is not created and the walk returns -1.  (5) When the
root of the directory `sub` cannot be read, it is not created and the walk
returns the error.  (6) A record is reached only when the records before it
were handled with success: the copy of the compressed file `f` returns -1, so
the directory `g`, the next record in index order, is never created.  (7) A
record is reached only when the tree can be read: with the second leaf
unreadable the walk returns -5 and the regular file `z` in that leaf is never
created. -/
theorem C2_counterexample :
    ((∀ fuel, search_dir env_ok (fuel + 2) root_nul_name ⟨BTRFS_FIRST_FREE_OBJECTID, 0, 0⟩
          (str "out") w_empty
        = .ret 0 { fs := { dirs := [], files := [(str "out/a", [])] }, buf := [0, 0, 0, 0, 0, 0, 0, 0] }) ∧
      str "out/a" ≠ str "out" ++ 47 :: [97, 0, 98]) ∧
    ((∀ fuel, search_dir env_ok (fuel + 2) root_digits_name ⟨BTRFS_FIRST_FREE_OBJECTID, 0, 0⟩
          deep_dir w_empty
        = .ret 0 { fs := { dirs := [], files := [(deep_dir ++ str "/0123", [])] },
                   buf := [0, 0, 0, 0, 0, 0, 0, 0] }) ∧
      deep_dir ++ str "/0123" ≠ deep_dir ++ 47 :: str "0123456789") ∧
    (∀ fuel, search_dir env_open_fails (fuel + 1) root_notes top_key (str "out") w_empty
      = .ret (-1) w_empty) ∧
    (∀ fuel, search_dir env_mkdir_fails (fuel + 1) root_mixed top_key (str "out") w_empty
      = .ret (-1) w_empty) ∧
    (∀ fuel, search_dir env_ok (fuel + 1) root_with_subvol top_key (str "out") w_empty
      = .ret (-2) w_empty) ∧
    (dir_entries root_compressed top_key
        = [⟨⟨256, BTRFS_DIR_INDEX_KEY, 2⟩, .dir ⟨str "e", BTRFS_FT_REG_FILE, ⟨258, 1, 0⟩⟩⟩,
           ⟨⟨256, BTRFS_DIR_INDEX_KEY, 3⟩, .dir ⟨str "f", BTRFS_FT_REG_FILE, ⟨257, 1, 0⟩⟩⟩,
           ⟨⟨256, BTRFS_DIR_INDEX_KEY, 4⟩, .dir ⟨str "g", BTRFS_FT_DIR, ⟨259, 1, 0⟩⟩⟩] ∧
      ∀ fuel, search_dir env_ok (fuel + 4) root_compressed top_key (str "out") w_empty
        = .ret (-1) { fs := { dirs := [], files := [(str "out/e", str "hi"), (str "out/f", [])] },
                      buf := [104, 105, 0, 0, 0, 0, 0, 0] }) ∧
    (entry_z ∈ dir_entries root_mixed_unreadable top_key ∧
      ∀ fuel, search_dir env_ok (fuel + 2) root_mixed_unreadable top_key (str "out") w_empty
        = .ret (-5) { fs := { dirs := [str "out/d"], files := [] },
                      buf := [0, 0, 0, 0, 0, 0, 0, 0] }) := by
  have hlen : deep_dir.length = 4090 := List.length_replicate _ _
  have hpath : snprintf_path deep_dir (cstr (str "0123456789")) = deep_dir ++ str "/0123" := by
    have hc : cstr (str "0123456789") = str "0123456789" := by decide
    rw [hc]
    unfold snprintf_path
    rw [List.take_append_eq_append_take, List.take_of_length_le (by rw [hlen]; decide), hlen]
    rfl
  have hrun : ∀ (fuel : Nat) (dir : Bytes),
      search_dir env_ok (fuel + 2) root_digits_name ⟨BTRFS_FIRST_FREE_OBJECTID, 0, 0⟩ dir w_empty
        = .ret 0 { fs := { dirs := [],
                           files := [(snprintf_path dir (cstr (str "0123456789")), [])] },
                   buf := [0, 0, 0, 0, 0, 0, 0, 0] } :=
    fun _ _ => rfl
  refine ⟨⟨fun _ => rfl, by decide⟩, ⟨fun fuel => ?_, ?_⟩, fun _ => rfl, fun _ => rfl,
    fun _ => rfl, ⟨by decide, fun _ => rfl⟩, ⟨by decide, fun _ => rfl⟩⟩
  · rw [hrun fuel deep_dir, hpath]
  · intro h
    have h2 := List.append_cancel_left h
    revert h2
    decide

/-- C3: two mapping services that expose the same logical content `L` on the
extent, however each of them cuts the range into runs (of one byte or more,
shorter or longer than requested), make `copy_one_extent` return the same
result, 0, and leave the same destination: the file holds the `size` bytes of
`L` at the destination offset.  Reads and writes are complete, the file is
open, and the destination range lies within the 64-bit offsets.  Only stripe 0
of a mapping is read: replacing the mirrors changes nothing. -/
theorem C3_stripe_split_same_copy (e1 e2 : Env) (L : Nat → Nat) (fd c : Bytes) (w : World)
    (pos bytenr size fuel1 fuel2 : Nat)
    (hio1 : io_complete e1) (hio2 : io_complete e2)
    (hs1 : serves e1 L bytenr size) (hs2 : serves e2 L bytenr size)
    (hfd : w.fs.read fd = some c) (hpos : pos < 2 ^ 64) (hend : pos + size ≤ 2 ^ 64)
    (hb : bytenr < 2 ^ 64) (hf1 : size < fuel1) (hf2 : size < fuel2) :
    (∃ w1 w2, copy_one_extent e1 fuel1 w fd pos bytenr size = .ret 0 w1 ∧
        copy_one_extent e2 fuel2 w fd pos bytenr size = .ret 0 w2 ∧
        w1.fs = w2.fs ∧
        w1.fs = w.fs.store fd (write_at c pos (logical_bytes L bytenr size))) ∧
      (∀ mir, copy_one_extent (with_mirrors e1 mir) fuel1 w fd pos bytenr size
        = copy_one_extent e1 fuel1 w fd pos bytenr size) := by
  constructor
  · obtain ⟨s1, a1, a2⟩ := copy_one_extent_again_content e1 fd L hio1 fuel1
      (copy_one_extent_init w pos bytenr size) c hf1 hfd hpos hend hb hs1
    obtain ⟨s2, b1, b2⟩ := copy_one_extent_again_content e2 fd L hio2 fuel2
      (copy_one_extent_init w pos bytenr size) c hf2 hfd hpos hend hb hs2
    refine ⟨s1.w, s2.w, ?_, ?_, ?_, a2⟩
    · unfold copy_one_extent; rw [a1]
    · unfold copy_one_extent; rw [b1]
    · rw [a2, b2]
  · intro mir
    unfold copy_one_extent
    rw [copy_one_extent_again_with_mirrors]

/-- C3 at a concrete input: four bytes at logical address 0 copied to offset 0
of the file `f`, once with runs of two bytes and once in one run. -/
theorem C3_stripe_split_same_copy_witness :
    (∃ w1 w2, copy_one_extent env_short_runs 5 (w_file (str "f")) (str "f") 0 0 4 = .ret 0 w1 ∧
        copy_one_extent env_ok 5 (w_file (str "f")) (str "f") 0 0 4 = .ret 0 w2 ∧
        w1.fs = w2.fs ∧
        w1.fs = (w_file (str "f")).fs.store (str "f") (write_at [] 0 (logical_bytes L_example 0 4))) ∧
      (∀ mir, copy_one_extent (with_mirrors env_short_runs mir) 5 (w_file (str "f")) (str "f") 0 0 4
        = copy_one_extent env_short_runs 5 (w_file (str "f")) (str "f") 0 0 4) :=
  C3_stripe_split_same_copy env_short_runs env_ok L_example (str "f") [] (w_file (str "f")) 0 0 4 5 5
    io_complete_env_short_runs io_complete_env_ok
    (serves_env_short_runs 0 4 (by decide)) (serves_env_ok 0 4 (by decide))
    rfl (by decide) (by decide) (by decide) (by decide) (by decide)

/-- C4 (evaluation at the failing input): the entry `sub` resolves to the
subvolume 257, whose top-level directory (object 256) holds `a.txt`.  The walk
makes `out/sub` and then lists the records of object 257 (the object id of the
location key) in the subvolume, which has none: the subtree stays empty.  A
walk of the same root that starts from the first free object id, as `main`
does for the top-level root, restores `out/sub/a.txt`. -/
theorem C4_subvolume_walk_uses_root_id (fuel : Nat) :
    search_dir env_subvol (fuel + 3) root_with_subvol ⟨BTRFS_FIRST_FREE_OBJECTID, 0, 0⟩ (str "out")
        w_empty
        = .ret 0 { fs := { dirs := [str "out/sub"], files := [] }, buf := [0, 0, 0, 0, 0, 0, 0, 0] } ∧
      search_dir env_subvol (fuel + 3) root_subvol ⟨BTRFS_FIRST_FREE_OBJECTID, 0, 0⟩
        (str "out/sub") w_empty
        = .ret 0 { fs := { dirs := [], files := [(str "out/sub/a.txt", str "hello")] },
                   buf := str "hello" ++ [0, 0, 0] } :=
  ⟨rfl, rfl⟩

/-- C5 (evaluation at the failing input): with snapshots excluded, the walk of
a directory whose only entry is a snapshot never returns: for every amount of
fuel `search_dir` is still running, and so is `main`. -/
theorem C5_snapshot_skip_never_returns (fuel : Nat) :
    search_dir env_snapshot fuel root_with_snapshot ⟨BTRFS_FIRST_FREE_OBJECTID, 0, 0⟩
        (str "out") w_empty = .timeout ∧
      main env_snapshot (fuel + 1) [] [str "dev", str "out"] 0 (some root_with_snapshot) w_empty
        = .timeout := by
  have h : ∀ n, search_dir env_snapshot n root_with_snapshot ⟨BTRFS_FIRST_FREE_OBJECTID, 0, 0⟩
      (str "out") w_empty = .timeout := by
    intro n
    have hs : btrfs_search_slot root_with_snapshot
        (scan_key ⟨BTRFS_FIRST_FREE_OBJECTID, 0, 0⟩ BTRFS_DIR_INDEX_KEY) = (1, ⟨0, 0⟩) := by
      decide
    unfold search_dir
    rw [hs]
    simp only [show ¬ ((1 : Int) < 0) by decide, if_false]
    exact search_dir_loop_snapshot_stuck env_snapshot root_with_snapshot
      (scan_key ⟨BTRFS_FIRST_FREE_OBJECTID, 0, 0⟩ BTRFS_DIR_INDEX_KEY) (str "out") ⟨0, 0⟩ _
      ⟨str "snap", BTRFS_FT_DIR, ⟨258, BTRFS_ROOT_ITEM_KEY, 0⟩⟩ rfl rfl rfl rfl (by decide) rfl
      rfl n w_empty
  refine ⟨h fuel, ?_⟩
  have hd : dest_dir_name (fuel + 1) (str "out") = .next (str "out") := rfl
  have hg : ({ env_snapshot with get_snaps := if ([] : List Nat) = [] then 0 else 1 } : Env)
      = env_snapshot := rfl
  simp only [main, List.any_nil, hd, hg]
  exact h (fuel + 1)

/-- C6 (evaluation at the failing input): on a file whose only extent is an
uncompressed preallocated one, `copy_file` never returns: it is still running
after every amount of fuel, whatever the environment and the destination. -/
theorem C6_prealloc_never_returns (env : Env) (fuel : Nat) (w : World) (fd : Bytes) :
    copy_file env fuel root_prealloc w fd ⟨257, 1, 0⟩ = .timeout := by
  have hs : btrfs_search_slot root_prealloc (scan_key ⟨257, 1, 0⟩ BTRFS_EXTENT_DATA_KEY)
      = (0, ⟨0, 0⟩) := by decide
  unfold copy_file
  rw [hs]
  simp only [show ¬ ((0 : Int) < 0) by decide, if_false]
  exact copy_file_loop_prealloc_stuck env root_prealloc fd
    (scan_key ⟨257, 1, 0⟩ BTRFS_EXTENT_DATA_KEY) ⟨0, 0⟩ _
    ⟨BTRFS_FILE_EXTENT_PREALLOC, BTRFS_COMPRESS_NONE, 4096, 8192, []⟩ rfl rfl rfl rfl rfl rfl
    fuel w

/-- C7 (evaluation at the failing input): the walk reaches the regular file
`f`, which has a compressed extent, but an uncompressed preallocated extent
precedes it in the file.  `copy_file` never gets past the preallocated record,
so neither it nor `search_dir` nor `main` returns any value: each is still
running after every amount of fuel.  Without the preallocated record the
compressed extent is reached: on `root_compressed` the file `e` is restored,
`f` is created, `main` returns -1 and the directory `g` after it is not made. -/
theorem C7_compressed_after_prealloc_never_returns (fuel : Nat) :
    copy_file env_ok fuel root_prealloc_then_compressed
        { w_empty with fs := { dirs := [], files := [(str "out/f", [])] } } (str "out/f")
        ⟨257, 1, 0⟩ = .timeout ∧
      search_dir env_ok fuel root_prealloc_then_compressed ⟨BTRFS_FIRST_FREE_OBJECTID, 0, 0⟩
        (str "out") w_empty = .timeout ∧
      main env_ok fuel [] [str "dev", str "out"] 0 (some root_prealloc_then_compressed) w_empty
        = .timeout ∧
      main env_ok (fuel + 3) [] [str "dev", str "out"] 0 (some root_compressed) w_empty
        = .ret (-1) { fs := { dirs := [], files := [(str "out/e", str "hi"), (str "out/f", [])] },
                      buf := [104, 105, 0, 0, 0, 0, 0, 0] } := by
  have hfile : ∀ (n : Nat) (w : World) (fd : Bytes),
      copy_file env_ok n root_prealloc_then_compressed w fd ⟨257, 1, 0⟩ = .timeout := by
    intro n w fd
    have hs : btrfs_search_slot root_prealloc_then_compressed
        (scan_key ⟨257, 1, 0⟩ BTRFS_EXTENT_DATA_KEY) = (0, ⟨0, 1⟩) := by decide
    unfold copy_file
    rw [hs]
    simp only [show ¬ ((0 : Int) < 0) by decide, if_false]
    exact copy_file_loop_prealloc_stuck env_ok root_prealloc_then_compressed fd
      (scan_key ⟨257, 1, 0⟩ BTRFS_EXTENT_DATA_KEY) ⟨0, 1⟩ _
      ⟨BTRFS_FILE_EXTENT_PREALLOC, BTRFS_COMPRESS_NONE, 4096, 8192, []⟩ rfl rfl rfl rfl rfl rfl
      n w
  have hdir : ∀ n, search_dir env_ok n root_prealloc_then_compressed
      ⟨BTRFS_FIRST_FREE_OBJECTID, 0, 0⟩ (str "out") w_empty = .timeout := by
    intro n
    cases n with
    | zero => rfl
    | succ m =>
      have hstep : search_dir env_ok (m + 1) root_prealloc_then_compressed
          ⟨BTRFS_FIRST_FREE_OBJECTID, 0, 0⟩ (str "out") w_empty
          = (match copy_file env_ok m root_prealloc_then_compressed
                { w_empty with fs := { dirs := [], files := [(str "out/f", [])] } } (str "out/f")
                ⟨257, 1, 0⟩ with
              | .ret code w2 =>
                if code ≠ 0 then .ret code w2
                else search_dir_loop env_ok m root_prealloc_then_compressed
                  (scan_key ⟨BTRFS_FIRST_FREE_OBJECTID, 0, 0⟩ BTRFS_DIR_INDEX_KEY) (str "out")
                  ⟨0, 1⟩ w2
              | .undefined => .undefined
              | .timeout => .timeout) := rfl
      rw [hstep, hfile]
  refine ⟨hfile _ _ _, hdir fuel, ?_, rfl⟩
  cases fuel with
  | zero => rfl
  | succ m =>
    have hm : main env_ok (m + 1) [] [str "dev", str "out"] 0 (some root_prealloc_then_compressed)
        w_empty = search_dir env_ok (m + 1) root_prealloc_then_compressed
          ⟨BTRFS_FIRST_FREE_OBJECTID, 0, 0⟩ (str "out") w_empty := rfl
    rw [hm, hdir]

/-- C8 (evaluation at the failing input): a device read or a destination write
that fails with `-1` is not noticed, because `done < count` compares the
`ssize_t` value as a `u64`.  With every read failing, `copy_one_extent`
returns 0 and the file receives the stale buffer instead of the device bytes
`0, 1, 2, 3`; with two-byte runs the second chunk is still copied after the
first read failed; with every write failing it returns 0 and the file stays
empty.  A complete transfer copies the bytes, and a read that is one byte
short is noticed and gives -1. -/
theorem C8_failed_transfer_not_detected (fuel : Nat) :
    copy_one_extent env_read_fails (fuel + 1) (w_file (str "f")) (str "f") 0 0 4
        = .ret 0 { fs := { dirs := [], files := [(str "f", [0, 0, 0, 0])] }, buf := [0, 0, 0, 0, 0, 0, 0, 0] } ∧
      copy_one_extent env_read_fails_short_runs (fuel + 2) (w_file (str "f")) (str "f") 0 0 4
        = .ret 0 { fs := { dirs := [], files := [(str "f", [0, 0, 0, 0])] }, buf := [0, 0, 0, 0, 0, 0, 0, 0] } ∧
      copy_one_extent env_write_fails (fuel + 1) (w_file (str "f")) (str "f") 0 0 4
        = .ret 0 { fs := { dirs := [], files := [(str "f", [])] }, buf := [0, 1, 2, 3, 0, 0, 0, 0] } ∧
      copy_one_extent env_ok (fuel + 1) (w_file (str "f")) (str "f") 0 0 4
        = .ret 0 { fs := { dirs := [], files := [(str "f", [0, 1, 2, 3])] }, buf := [0, 1, 2, 3, 0, 0, 0, 0] } ∧
      copy_one_extent env_short_read (fuel + 1) (w_file (str "f")) (str "f") 0 0 4
        = .ret (-1) { fs := { dirs := [], files := [(str "f", [])] }, buf := [0, 1, 2, 0, 0, 0, 0, 0] } :=
  ⟨rfl, rfl, rfl, rfl, rfl⟩

/-- C9 (evaluation at the failing input): for the destination argument `/`
(and for the empty argument) the stripping loop reaches `len = 0` and reads
`dir_name[-1]`, outside the array, so no name is handed to `search_dir`; an
argument with a character other than `/` is stripped as the claim says. -/
theorem C9_strip_reads_before_array (fuel : Nat) :
    dest_dir_name (fuel + 2) (str "/") = .undefined ∧
      dest_dir_name (fuel + 1) [] = .undefined ∧
      main env_ok (fuel + 2) [] [str "dev", str "/"] 0 (some root_subvol) w_empty = .undefined ∧
      dest_dir_name (fuel + 3) (str "out//") = .next (str "out") :=
  ⟨rfl, rfl, rfl, rfl⟩

/-- C10: when the mapping service answers every request with a run of at least
one byte and every read and write is complete, `copy_one_extent` terminates
and returns 0: any fuel above `size` is enough, the part of a run that is
copied is clamped to the size left and, while something is left, takes at
least one byte off it, at least one and at most `max 1 size` mapping requests
are made, nothing is left at the end, and the destination offset and the
logical address have both advanced by `size` (in `u64` arithmetic). -/
theorem C10_copy_one_extent_terminates (env : Env) (fd : Bytes) (w : World)
    (pos bytenr size fuel : Nat) (hio : io_complete env) (hmap : maps_nonempty env)
    (hpos : pos < 2 ^ 64) (hb : bytenr < 2 ^ 64) (hfuel : size < fuel) :
    (∃ s, copy_one_extent_again env fd fuel (copy_one_extent_init w pos bytenr size) = .ret 0 s ∧
        copy_one_extent env fuel w fd pos bytenr size = .ret 0 s.w ∧
        s.pos = (pos + size) % 2 ^ 64 ∧ s.bytenr = (bytenr + size) % 2 ^ 64 ∧
        s.size_left = 0 ∧ 1 ≤ s.maps ∧ s.maps ≤ max 1 size) ∧
      (∀ b left, 0 < left →
        1 ≤ clamp_run left (env.map_block b left).length ∧
        clamp_run left (env.map_block b left).length ≤ left ∧
        left - clamp_run left (env.map_block b left).length < left) := by
  constructor
  · obtain ⟨s, h1, h2, h3, h4, h5, h6⟩ := copy_one_extent_again_flow env fd hio hmap fuel
      (copy_one_extent_init w pos bytenr size) hfuel hpos hb
    refine ⟨s, h1, ?_, h2, h3, h4, ?_, ?_⟩
    · unfold copy_one_extent
      rw [h1]
    · simpa [copy_one_extent_init] using h5
    · simpa [copy_one_extent_init] using h6
  · intro b left hleft
    have := (hmap b left).2
    unfold clamp_run
    split <;> omega

/-- C10 at a concrete input: four bytes at logical address 0, copied to offset
0 of the file `f`. -/
theorem C10_copy_one_extent_terminates_witness :
    (∃ s, copy_one_extent_again env_ok (str "f") 5
          (copy_one_extent_init (w_file (str "f")) 0 0 4) = .ret 0 s ∧
        copy_one_extent env_ok 5 (w_file (str "f")) (str "f") 0 0 4 = .ret 0 s.w ∧
        s.pos = (0 + 4) % 2 ^ 64 ∧ s.bytenr = (0 + 4) % 2 ^ 64 ∧
        s.size_left = 0 ∧ 1 ≤ s.maps ∧ s.maps ≤ max 1 4) ∧
      (∀ b left, 0 < left →
        1 ≤ clamp_run left (env_ok.map_block b left).length ∧
        clamp_run left (env_ok.map_block b left).length ≤ left ∧
        left - clamp_run left (env_ok.map_block b left).length < left) :=
  C10_copy_one_extent_terminates env_ok (str "f") (w_file (str "f")) 0 0 4 5
    io_complete_env_ok maps_nonempty_env_ok (by decide) (by decide) (by decide)

end Restore
